import Mathlib

/-!
Verification of the canonical-schema pipeline of the klaris backend
(`backend/routers/relationships.py` and `backend/services/llm_client.py`).

The Python code is shallowly embedded: every dict-shaped value is given the
record type its producers construct, Python floats are modelled as rationals,
and code paths that would raise an exception are modelled with `Option`
(`none` = the code raises).  All definitions are translated from the source;
names follow the source where Lean allows it.
-/

namespace Klaris

/-! ## Python string primitives used by the router -/

/-- The whitespace set of Python `str.strip()` (ASCII part). -/
def pyWS (c : Char) : Bool :=
  c = ' ' || c = '\t' || c = '\n' || c = '\x0d' || c = '\x0b' || c = '\x0c'

/-- Python `s.strip()`. -/
def pyStrip (s : String) : String :=
  String.mk (((s.toList.dropWhile pyWS).reverse.dropWhile pyWS).reverse)

/-- Python `s.lower()` (ASCII case folding, which is all the router feeds it). -/
def pyLower (s : String) : String :=
  String.mk (s.toList.map Char.toLower)

/-- Python `s.endswith(t)`. -/
def pyEndsWith (s t : String) : Bool :=
  t.toList.isSuffixOf s.toList

/-! ## JSON values

`JVal` models the Python dict/list/scalar values produced by `json.loads`.
Objects are association lists with distinct keys (as produced by the JSON
parser); `jGet` is Python `dict.get`. -/

inductive JVal where
  | null : JVal
  | bool : Bool → JVal
  | num : Rat → JVal
  | str : String → JVal
  | arr : List JVal → JVal
  | obj : List (String × JVal) → JVal

/-- First-match association lookup (Python dict keys are unique). -/
def lookupJ : List (String × JVal) → String → Option JVal
  | [], _ => none
  | (a, v) :: t, k => if a = k then some v else lookupJ t k

/-- Python `v.get(k)` for a dict value; `none` both for a missing key and for
a non-dict receiver (callers that would raise on a non-dict are modelled
separately). -/
def jGet (v : JVal) (k : String) : Option JVal :=
  match v with
  | .obj l => lookupJ l k
  | _ => none

def jIsObj : JVal → Bool
  | .obj _ => true
  | _ => false

/-! ## Versioned canonical store (`save_global_canonical`)

The database rows for one tenant are modelled as a list of records; the
`order_by(version.desc()).first()` query is the record of maximal version
(the tenant-scoped table is expected to hold distinct versions; on ties the
model keeps the earliest row, which no claim depends on). -/

structure SavedCanon where
  version : Int
  graph : JVal

structure SaveBody where
  graph : JVal
  expectedVersion : Option Int

inductive SaveOutcome where
  /-- HTTP 409: the latest version and its graph are returned unchanged. -/
  | conflict (latestVersion : Int) (latestGraph : Option JVal)
  /-- HTTP 200: the freshly inserted record. -/
  | saved (saved : SavedCanon)

/-- `db.query(...).order_by(GlobalCanonicalSchema.version.desc()).first()`. -/
def latestCanon : List SavedCanon → Option SavedCanon
  | [] => none
  | r :: t =>
    match latestCanon t with
    | none => some r
    | some b => if r.version < b.version then some b else some r

/-- The version the conflict check compares against:
`latest.version if latest else 0`. -/
def latestVersionOf (store : List SavedCanon) : Int :=
  match latestCanon store with
  | some r => r.version
  | none => 0

/-- `save_global_canonical` (`backend/routers/relationships.py`): optimistic
concurrency check, then append of a fresh record with
`version = 1 if not latest else latest.version + 1`.  Returns the tenant's
store after the call together with the HTTP outcome. -/
def save_global_canonical (store : List SavedCanon) (body : SaveBody) :
    List SavedCanon × SaveOutcome :=
  let latest := latestCanon store
  let proceed : List SavedCanon × SaveOutcome :=
    let nextVersion : Int := match latest with | none => 1 | some r => r.version + 1
    let newRec : SavedCanon := { version := nextVersion, graph := body.graph }
    (store ++ [newRec], .saved newRec)
  match body.expectedVersion with
  | some ev =>
      if ev ≠ latestVersionOf store then
        (store, .conflict (latestVersionOf store) ((latestCanon store).map SavedCanon.graph))
      else proceed
  | none => proceed

/-- The record a successful save inserts. -/
def nextSaved (store : List SavedCanon) (body : SaveBody) : SavedCanon :=
  ⟨latestVersionOf store + 1, body.graph⟩

/-! ## Best-effort JSON parsing (`services/llm_client.py`)

`AnthropicClient._best_effort_parse` and `OpenAIClient._best_effort_parse`
are textually identical; both are modelled once.  `json.loads` is a Python
standard-library routine, so it is abstracted as a parameter
`parse : String → Option JVal` (`none` = `json.loads` raises). -/

def quoteChar : Char := Char.ofNat 34

def backslashChar : Char := Char.ofNat 92

def lbraceChar : Char := Char.ofNat 123

def rbraceChar : Char := Char.ofNat 125

/-- Step 2 of the parse chain: smart quotes are normalised and control
characters dropped (`ch >= ' ' or ch in ('\n', '\t')`). -/
def sanitizeChar (c : Char) : Char :=
  if c = Char.ofNat 0x201c then quoteChar
  else if c = Char.ofNat 0x201d then quoteChar
  else if c = Char.ofNat 0x2019 then Char.ofNat 39
  else c

def sanitize (text : String) : String :=
  String.mk ((text.toList.map sanitizeChar).filter
    (fun c => decide (' ' ≤ c) || c = '\n' || c = '\t'))

/-- Loop state of `balanced_substring`. -/
structure BalSt where
  depth : Nat
  inStr : Bool
  esc : Bool
  start : Option Nat
  lastGood : Option (Nat × Nat)

def balStep (st : BalSt) (i : Nat) (ch : Char) : BalSt :=
  if st.inStr then
    if st.esc then { st with esc := false }
    else if ch = backslashChar then { st with esc := true }
    else if ch = quoteChar then { st with inStr := false }
    else st
  else
    if ch = quoteChar then { st with inStr := true }
    else if ch = lbraceChar then
      { st with start := some (st.start.getD i), depth := st.depth + 1 }
    else if ch = rbraceChar then
      if st.depth > 0 then
        let d := st.depth - 1
        if d = 0 then
          match st.start with
          | some s0 => { st with depth := d, lastGood := some (s0, i) }
          | none => { st with depth := d }
        else { st with depth := d }
      else st
    else st

/-- Step 3 of the parse chain: the last depth-balanced `\x7b...\x7d` span
(starting at the first unquoted opening brace), string literals respected. -/
def balanced_substring (s : String) : Option String :=
  let cs := s.toList
  let final := cs.enum.foldl (fun st p => balStep st p.1 p.2) ⟨0, false, false, none, none⟩
  final.lastGood.map (fun p => String.mk ((cs.drop p.1).take (p.2 + 1 - p.1)))

/-- Step 4: the empty-but-well-typed structure returned when every parse
attempt fails. -/
def empty_fallback : JVal :=
  .obj [("unified_entities", .arr []), ("cross_source_relationships", .arr []),
        ("entities", .arr []), ("relationships", .arr [])]

/-- `_best_effort_parse`: strict parse, then sanitised parse, then parse of
the balanced-brace span, then the empty fallback.  (A produced span always
contains at least two characters, so the Python truthiness test `if sub:`
coincides with the `Option` match.)  The Lean function is total: no input
makes it raise. -/
def best_effort_parse (parse : String → Option JVal) (text : String) : JVal :=
  match parse text with
  | some v => v
  | none =>
    let cleaned := sanitize text
    match parse cleaned with
    | some v => v
    | none =>
      match balanced_substring cleaned with
      | some sub =>
        match parse sub with
        | some v => v
        | none => empty_fallback
      | none => empty_fallback

/-! ## Canonical graph data model (§3 of the spec, as built by the router) -/

structure Mapping where
  connector_id : String
  source_entity : String
  source_field : String
  confidence : Rat
deriving DecidableEq

structure CField where
  name : String
  description : String
  semantic_type : String
  pii : String
  primary_key : Bool
  is_join_key : Bool
  nullable : Bool
  mappings : List Mapping
deriving DecidableEq

structure CEntity where
  name : String
  description : String
  tags : List String
  fields : List CField
deriving DecidableEq

structure Relationship where
  type : String
  from_entity : String
  to_entity : String
  join_on : List (String × String)
  confidence : Rat
deriving DecidableEq

structure CanonGraph where
  version : String
  generated_at : String
  entities : List CEntity
  relationships : List Relationship
deriving DecidableEq

/-! ## The `norm` / `toks` / `jaccard` heuristics of `create_dataset_review` -/

def isWordChar (c : Char) : Bool := c.isAlpha || c.isDigit || c = '_'

/-- `re.sub(r"[^A-Za-z0-9_]+", " ", s)`: each maximal run of non-word
characters becomes one space.  Single pass; the flag records whether the
previous character was part of a non-word run. -/
def subNonWordGo : Bool → List Char → List Char
  | _, [] => []
  | inRun, c :: t =>
    if isWordChar c then c :: subNonWordGo false t
    else if inRun then subNonWordGo true t
    else ' ' :: subNonWordGo true t

def subNonWord (cs : List Char) : List Char := subNonWordGo false cs

/-- `re.sub(r"\s+", " ", s)` over Python's ASCII whitespace class. -/
def subWSGo : Bool → List Char → List Char
  | _, [] => []
  | inRun, c :: t =>
    if pyWS c then (if inRun then subWSGo true t else ' ' :: subWSGo true t)
    else c :: subWSGo false t

def subWS (cs : List Char) : List Char := subWSGo false cs

/-- `norm`: strip, `-`→`_`, collapse non-word runs to spaces, collapse
whitespace, lowercase. -/
def norm (s : String) : String :=
  let s1 := (pyStrip s).toList.map (fun c => if c = '-' then '_' else c)
  pyLower (String.mk (subWS (subNonWord s1)))

/-- Python `str.split()` with no separator: split on whitespace runs,
dropping empty pieces.  The accumulator is the reversed current token. -/
def splitWSGo : List Char → List Char → List String
  | acc, [] => if acc.isEmpty then [] else [String.mk acc.reverse]
  | acc, c :: t =>
    if pyWS c then
      if acc.isEmpty then splitWSGo [] t
      else String.mk acc.reverse :: splitWSGo [] t
    else splitWSGo (c :: acc) t

def splitWS (cs : List Char) : List String := splitWSGo [] cs

/-- `toks`: word tokens of the normalised name (underscores also split). -/
def toks (s : String) : List String :=
  splitWS ((norm s).toList.map (fun c => if c = '_' then ' ' else c))

/-- `jaccard` on token sets, with the router's `max(1, |a ∪ b|)` guard. -/
def jaccard (a b : Finset String) : Rat :=
  if a = ∅ ∧ b = ∅ then 0
  else ((a ∩ b).card : Rat) / (max 1 (a ∪ b).card : Nat)

/-! ## Relationship candidate generation (deterministic, LLM-free) -/

/-- One entry of the `canon_fields` index built after anchoring. -/
structure FieldInfo where
  entity : String
  field : String
  pk : Bool
  jk : Bool
  sem : String
  tokens : Finset String
deriving DecidableEq

def canon_fields (es : List CEntity) : List FieldInfo :=
  (es.map (fun e =>
    e.fields.map (fun f =>
      { entity := pyStrip e.name
        field := pyStrip f.name
        pk := f.primary_key
        jk := f.is_join_key
        sem := pyLower f.semantic_type
        tokens := (toks f.name).toFinset : FieldInfo }))).flatten

/-- `re.search(r"(?:^|[_\s])id$", n)` for `n` in the image of `norm`
(characters of `n` are lowercase word characters and single spaces, so the
regex reduces to these three suffix shapes). -/
def idSuffixMatch (n : String) : Bool :=
  n = "id" || pyEndsWith n "_id" || pyEndsWith n " id"

def semIsIdLike (sem : String) : Bool :=
  sem = "identifier" || sem = "id" || sem = "key"

def is_id_like (cf : FieldInfo) : Bool :=
  semIsIdLike cf.sem || idSuffixMatch (norm cf.field) || pyEndsWith (pyLower cf.field) "_id"

def fields_for_join (es : List CEntity) : List FieldInfo :=
  (canon_fields es).filter (fun cf => cf.pk || cf.jk || is_id_like cf)

/-- `score_pair` (`backend/routers/relationships.py`). -/
def score_pair (a b : FieldInfo) : Rat :=
  if a.entity = b.entity then 0
  else
    let name_eq : Rat := if norm a.field = norm b.field then 1 else 0
    let j := jaccard a.tokens b.tokens
    let pkjk : Rat := if (a.pk && b.jk) || (b.pk && a.jk) then 1 else 0
    let both_id : Rat := if semIsIdLike a.sem && semIsIdLike b.sem then 1 else 0
    3/4 * max name_eq j + 1/5 * pkjk + 1/20 * both_id

structure CandHints where
  a_pk : Bool
  a_jk : Bool
  b_pk : Bool
  b_jk : Bool
  a_sem : String
  b_sem : String
deriving DecidableEq

structure Candidate where
  pair_id : Nat
  from_entity : String
  from_field : String
  to_entity : String
  to_field : String
  score : Rat
  predicted_type : String
  hints : CandHints
deriving DecidableEq

/-- Predicted type and direction: `one_to_many` from the primary-key side
when one side is a primary key and the other a join key, else `unknown`. -/
def mkCandidate (pid : Nat) (a b : FieldInfo) : Candidate :=
  let hints : CandHints := ⟨a.pk, a.jk, b.pk, b.jk, a.sem, b.sem⟩
  if a.pk && b.jk then
    { pair_id := pid, from_entity := a.entity, from_field := a.field,
      to_entity := b.entity, to_field := b.field,
      score := score_pair a b, predicted_type := "one_to_many", hints := hints }
  else if b.pk && a.jk then
    { pair_id := pid, from_entity := b.entity, from_field := b.field,
      to_entity := a.entity, to_field := a.field,
      score := score_pair a b, predicted_type := "one_to_many", hints := hints }
  else
    { pair_id := pid, from_entity := a.entity, from_field := a.field,
      to_entity := b.entity, to_field := b.field,
      score := score_pair a b, predicted_type := "unknown", hints := hints }

/-- All index pairs `i < j` in the double loop's order. -/
def pairsUpper : List FieldInfo → List (FieldInfo × FieldInfo)
  | [] => []
  | a :: t => t.map (fun b => (a, b)) ++ pairsUpper t

/-- The `sc < 0.7` cut; `pair_id` increments only for kept candidates. -/
def genCandidatesAux : List (FieldInfo × FieldInfo) → Nat → List Candidate
  | [], _ => []
  | (a, b) :: rest, pid =>
    if score_pair a b < 7/10 then genCandidatesAux rest pid
    else mkCandidate pid a b :: genCandidatesAux rest (pid + 1)

/-- Every candidate scored before the per-pair / global caps. -/
def candidates (es : List CEntity) : List Candidate :=
  genCandidatesAux (pairsUpper (fields_for_join es)) 0

/-- `tuple(sorted([a["entity"], b["entity"]]))`, recovered from the candidate
(whose from/to entities are `\x7ba.entity, b.entity\x7d` as a set). -/
def pair_key (c : Candidate) : String × String :=
  if c.from_entity ≤ c.to_entity then (c.from_entity, c.to_entity)
  else (c.to_entity, c.from_entity)

/-- One `defaultdict(list)` update: append under an existing key, or append
a fresh key at the end (insertion order). -/
def addToGroup {q a : Type} [DecidableEq q] : List (q × List a) → q → a → List (q × List a)
  | [], k, x => [(k, [x])]
  | (b, l) :: t, k, x =>
    if b = k then (b, l ++ [x]) :: t else (b, l) :: addToGroup t k x

/-- Grouping by a key, keys in first-occurrence order and each group in
original order — exactly an insertion-ordered `defaultdict(list)`. -/
def groupByKey {q a : Type} [DecidableEq q] (key : a → q) (xs : List a) : List (q × List a) :=
  xs.foldl (fun acc x => addToGroup acc (key x) x) []

/-- `per_pair_bucket`. -/
def groupPairs (cs : List Candidate) : List ((String × String) × List Candidate) :=
  groupByKey pair_key cs

/-- Stable insertion for a descending sort: equal scores keep their original
relative order, as Python's stable `sorted(..., reverse=True)` does. -/
def insertDescBy {α : Type} (key : α → Rat) (x : α) : List α → List α
  | [] => [x]
  | y :: t => if key y ≤ key x then x :: y :: t else y :: insertDescBy key x t

/-- `sorted(l, key=..., reverse=True)` (stable descending sort). -/
def sortDescBy {α : Type} (key : α → Rat) (l : List α) : List α :=
  l.foldr (insertDescBy key) []

/-- Default of env var `REL_MAX_PER_ENTITY_PAIR`. -/
def REL_MAX_PER_ENTITY_PAIR : Nat := 5

/-- Default of env var `REL_MAX_CANDIDATES`. -/
def REL_MAX_CANDIDATES : Nat := 300

/-- `flat_candidates`: top 5 per unordered entity pair, then the global top
300, score-descending. -/
def flat_candidates (es : List CEntity) : List Candidate :=
  let flat := ((groupPairs (candidates es)).map
    (fun b => (sortDescBy Candidate.score b.2).take REL_MAX_PER_ENTITY_PAIR)).flatten
  (sortDescBy Candidate.score flat).take REL_MAX_CANDIDATES

/-- A small post-anchoring graph used to instantiate the generator claims:
`Orders.customer_id` is a primary key, `Customers.customer_id` a join key. -/
def demoField (n : String) (pk jk : Bool) : CField :=
  { name := n, description := "", semantic_type := "identifier", pii := "none",
    primary_key := pk, is_join_key := jk, nullable := true, mappings := [] }

def demoEntities : List CEntity :=
  [ { name := "Orders", description := "", tags := [], fields := [demoField "customer_id" true false] },
    { name := "Customers", description := "", tags := [], fields := [demoField "customer_id" false true] } ]

def demoFieldA : FieldInfo :=
  { entity := "Orders", field := "customer_id", pk := true, jk := false,
    sem := "identifier", tokens := (toks "customer_id").toFinset }

def demoFieldB : FieldInfo :=
  { entity := "Customers", field := "customer_id", pk := false, jk := true,
    sem := "identifier", tokens := (toks "customer_id").toFinset }

/-- The single candidate the generator emits on the demo graph. -/
def demoCand : Candidate := mkCandidate 0 demoFieldA demoFieldB

/-- Association lookup in a group list (Python dict access). -/
def lookupG {q a : Type} [DecidableEq q] : List (q × List a) → q → Option (List a)
  | [], _ => none
  | (b, l) :: t, k => if b = k then some l else lookupG t k

/-! ## Relationship classifier post-processing (second LLM pass)

A `RelItem` is one row of the classifier's `relationships` array.
`pair_id = none` models a value on which `int()` raises, and
`confidence = none` a missing/falsy value (treated as `0.0`); a row whose
confidence is an unparsable string would be skipped by the `except` clause,
exactly like an unresolvable `pair_id`. -/

structure RelItem where
  accept : Bool
  pair_id : Option Int
  rel_type : String
  confidence : Option Rat
  note : String
deriving DecidableEq

/-- `cand_by_id = \x7bc["pair_id"]: c for c in flat_candidates\x7d`: the dict
keeps the last assignment per key, so lookup returns the last candidate with
the given pair id (ids are unique in practice). -/
def cand_by_id (cands : List Candidate) (pid : Int) : Option Candidate :=
  cands.reverse.find? (fun c => (c.pair_id : Int) = pid)

/-- The case-insensitive dedup 4-tuple of a candidate. -/
def dedup_key (c : Candidate) : String × String × String × String :=
  (pyLower c.from_entity, pyLower c.from_field, pyLower c.to_entity, pyLower c.to_field)

/-- The dedup 4-tuple recovered from an output relationship (whose `join_on`
always holds the single candidate pair). -/
def out_key (r : Relationship) : String × String × String × String :=
  (pyLower r.from_entity, pyLower (r.join_on.headD ("", "")).1,
   pyLower r.to_entity, pyLower (r.join_on.headD ("", "")).2)

/-- The relationship appended for an accepted row: type from the row (or the
candidate's predicted type, or `unknown`) lowercased, entities and join
fields from the candidate, confidence from the row (`or 0.0`). -/
def mkRelOut (it : RelItem) (c : Candidate) : Relationship :=
  { type := pyLower (if it.rel_type ≠ "" then it.rel_type
      else if c.predicted_type ≠ "" then c.predicted_type else "unknown")
    from_entity := c.from_entity
    to_entity := c.to_entity
    join_on := [(c.from_field, c.to_field)]
    confidence := it.confidence.getD 0 }

/-- The `relationships_out` loop of `create_dataset_review`: accepted rows
with a resolvable `pair_id` and confidence at or above the threshold,
deduplicated case-insensitively, first occurrence winning. -/
def relationships_out (threshold : Rat) (cands : List Candidate) :
    List RelItem → List (String × String × String × String) → List Relationship
  | [], _ => []
  | it :: rest, dedup =>
    if !it.accept then relationships_out threshold cands rest dedup else
    match it.pair_id with
    | none => relationships_out threshold cands rest dedup
    | some pid =>
      match cand_by_id cands pid with
      | none => relationships_out threshold cands rest dedup
      | some c =>
        if it.confidence.getD 0 < threshold then relationships_out threshold cands rest dedup
        else if dedup_key c ∈ dedup then relationships_out threshold cands rest dedup
        else mkRelOut it c :: relationships_out threshold cands rest (dedup_key c :: dedup)

/-! ## Manifest builder (`extract_entities` and the mid-assignment loop)

Raw schema documents are arbitrary JSON.  `pyStr` renders a fetched value
the way an f-string would (`None` for a missing key or JSON null); the
non-scalar renderings never occur in the documents considered here. -/

def pyStr : Option JVal → String
  | none => "None"
  | some .null => "None"
  | some (.bool true) => "True"
  | some (.bool false) => "False"
  | some (.str s) => s
  | some (.num q) => toString q
  | some (.arr _) => "<list>"
  | some (.obj _) => "<dict>"

/-- The truthiness Python applies in `x or y` chains. -/
def pyTruthy : JVal → Bool
  | .null => false
  | .bool b => b
  | .num q => !(q = 0 : Bool)
  | .str s => !s.isEmpty
  | .arr l => !l.isEmpty
  | .obj l => !l.isEmpty

/-- `for x in (v or [])`: arrays iterate; falsy values iterate nothing; any
other value makes the loop body raise (modelled `none`). -/
def pyIterList : Option JVal → Option (List JVal)
  | none => some []
  | some .null => some []
  | some (.bool false) => some []
  | some (.arr l) => some l
  | some (.str "") => some []
  | some (.num q) => if q = 0 then some [] else none
  | some (.obj []) => some []
  | _ => none

/-- One column dict of the `tables` branch; `c.get` raises on non-dict
columns (including plain strings). -/
def colField (c : JVal) : Option JVal :=
  match c with
  | .obj _ => some (.obj [("name", (jGet c "name").getD .null),
                          ("type", (jGet c "type").getD .null)])
  | _ => none

def tableEntity (t : JVal) : Option JVal :=
  match t with
  | .obj _ =>
    let nm := pyStr (jGet t "schema") ++ "." ++ pyStr (jGet t "table")
    (pyIterList (jGet t "columns")).bind (fun cs =>
      (cs.mapM colField).map (fun fs =>
        .obj [("id", .str nm), ("name", .str nm),
              ("kind", .str "table"), ("fields", .arr fs)]))
  | _ => none

def fileEntity (f : JVal) : Option JVal :=
  match f with
  | .obj _ => some (.obj [("id", (jGet f "id").getD .null),
                          ("name", (jGet f "name").getD .null),
                          ("kind", .str "file"), ("fields", .arr [])])
  | _ => none

/-- `extract_entities` (`create_dataset_review`): unwrap an optional
`schema` envelope, return an `entities` array as-is, else build entities
from `tables` (named `schema.table`) and `files`; other shapes contribute
nothing.  `none` models a raised exception (`.get` on a non-dict). -/
def extract_entities (raw : JVal) : Option (List JVal) :=
  match raw with
  | .obj _ =>
    let root := (jGet raw "schema").getD raw
    match root, jGet root "entities" with
    | .obj _, some (.arr es) => some es
    | .obj _, _ =>
      let tablesPart : Option (List JVal) :=
        match jGet root "tables" with
        | some (.arr ts) => ts.mapM tableEntity
        | _ => some []
      let filesPart : Option (List JVal) :=
        match jGet root "files" with
        | some (.arr fs) => fs.mapM fileEntity
        | _ => some []
      tablesPart.bind (fun a => filesPart.map (fun b => a ++ b))
    | _, _ => none
  | _ => some []

/-- One manifest row before its mapping id is assigned. -/
structure FieldRec where
  connector_id : String
  source_entity : String
  source_field : String
  declared_type : Option JVal

structure ManifestEntry where
  mid : Nat
  connector_id : String
  source_entity : String
  source_field : String
  declared_type : Option JVal

/-- `f.get("type") or f.get("data_type") or None`. -/
def declaredTypeOf (f : JVal) : Option JVal :=
  match jGet f "type" with
  | some v => if pyTruthy v then some v else
      match jGet f "data_type" with
      | some w => if pyTruthy w then some w else none
      | none => none
  | none =>
      match jGet f "data_type" with
      | some w => if pyTruthy w then some w else none
      | none => none

def fieldRec (cid : String) (ename : String) (f : JVal) : Option FieldRec :=
  match f with
  | .obj _ => some { connector_id := cid, source_entity := ename,
                     source_field := pyStr (jGet f "name"),
                     declared_type := declaredTypeOf f }
  | _ => none

/-- The rows contributed by one raw schema document. -/
def docFieldRecs (cid : String) (raw : JVal) : Option (List FieldRec) :=
  (extract_entities raw).bind (fun es =>
    (es.mapM (fun e =>
      (pyIterList (jGet e "fields")).bind (fun fs =>
        fs.mapM (fieldRec cid (pyStr (jGet e "name")))))).map List.flatten)

/-- The manifest loop of `create_dataset_review`: every discovered source
field in document order, with `mid` equal to its position. -/
def build_manifest (docs : List (String × JVal)) : Option (List ManifestEntry) :=
  ((docs.mapM (fun d => docFieldRecs d.1 d.2)).map List.flatten).map
    (fun l => l.enum.map (fun p =>
      { mid := p.1, connector_id := p.2.connector_id,
        source_entity := p.2.source_entity, source_field := p.2.source_field,
        declared_type := p.2.declared_type }))

/-- `mid_lookup.get(i)`: the builder keys the dict by the positional mids. -/
def mid_lookup (man : List ManifestEntry) (i : Int) : Option ManifestEntry :=
  if i < 0 then none else man.get? i.toNat

/-- A `relations`-shaped document: the spec says the builder accepts it, the
code has no branch for it. -/
def relationsDoc : JVal :=
  .obj [("relations", .arr [.obj [("name", .str "t"), ("columns", .arr [.str "a"])]])]

/-! ## Mapping-id expansion and the Unassigned coverage repair -/

/-- A canonical field as the clustering LLM returns it: source references
are opaque `mapping_ids` (arbitrary integers; non-integer entries, which
`int()` rejects, are outside the typed response). -/
structure ClusterField where
  name : String
  description : String
  semantic_type : String
  pii : String
  primary_key : Bool
  is_join_key : Bool
  nullable : Bool
  mapping_ids : List Int

structure ClusterEntity where
  name : String
  description : String
  tags : List String
  fields : List ClusterField

def toMappingOf (t : ManifestEntry) : Mapping :=
  { connector_id := t.connector_id, source_entity := t.source_entity,
    source_field := t.source_field, confidence := 1 }

/-- Mapping-id expansion: unresolvable ids are silently discarded, resolved
ones become mappings with confidence 1.0. -/
def expandField (man : List ManifestEntry) (f : ClusterField) : CField :=
  { name := f.name, description := f.description,
    semantic_type := f.semantic_type, pii := f.pii,
    primary_key := f.primary_key, is_join_key := f.is_join_key,
    nullable := f.nullable,
    mappings := f.mapping_ids.filterMap (fun i => (mid_lookup man i).map toMappingOf) }

def expand_entities (man : List ManifestEntry) (resp : List ClusterEntity) : List CEntity :=
  resp.map (fun e => { name := e.name, description := e.description, tags := e.tags,
                       fields := e.fields.map (expandField man) })

/-- `covered_ids`: every mapping id that resolved during expansion. -/
def covered_ids (man : List ManifestEntry) (resp : List ClusterEntity) : List Int :=
  (resp.map (fun e => (e.fields.map (fun f =>
    f.mapping_ids.filter (fun i => (mid_lookup man i).isSome))).flatten)).flatten

/-- `missing = all mids - covered`, in increasing mid order. -/
def missing_ids (man : List ManifestEntry) (covered : List Int) : List Nat :=
  (List.range man.length).filter (fun m => ¬ ((m : Int) ∈ covered))

/-- The source entity of a (valid) missing mid. -/
def srcOfMid (man : List ManifestEntry) (m : Nat) : String :=
  match mid_lookup man m with
  | some t => t.source_entity
  | none => ""

/-- A repaired mapping: the manifest triple at confidence 0.5. -/
def halfMappingOf (t : ManifestEntry) : Mapping :=
  { connector_id := t.connector_id, source_entity := t.source_entity,
    source_field := t.source_field, confidence := 1/2 }

/-- One synthesized `"<source_entity> (raw)"` fallback field, every mapping
at confidence 0.5. -/
def fallback_field (man : List ManifestEntry) (src : String) (mids : List Nat) : CField :=
  { name := src ++ " (raw)",
    description := "Raw fields from " ++ src ++ " pending curation.",
    semantic_type := "unknown", pii := "none",
    primary_key := false, is_join_key := false, nullable := true,
    mappings := mids.filterMap (fun (m : Nat) => (mid_lookup man (m : Int)).map halfMappingOf) }

/-- The dedicated `Unassigned` entity holding one fallback field per source
entity with missing mids. -/
def unassigned_entity (man : List ManifestEntry) (missing : List Nat) : CEntity :=
  { name := "Unassigned",
    description := "Source fields not confidently clustered yet.",
    tags := ["unassigned"],
    fields := (groupByKey (srcOfMid man) missing).map
      (fun g => fallback_field man g.1 g.2) }

/-- Expansion followed by the coverage repair (lines 369-422 of the
router). -/
def expand_and_repair (man : List ManifestEntry) (resp : List ClusterEntity) : List CEntity :=
  let es := expand_entities man resp
  let missing := missing_ids man (covered_ids man resp)
  if missing.isEmpty then es else es ++ [unassigned_entity man missing]

def tripleOfMapping (m : Mapping) : String × String × String :=
  (m.connector_id, m.source_entity, m.source_field)

def tripleOfEntry (t : ManifestEntry) : String × String × String :=
  (t.connector_id, t.source_entity, t.source_field)

/-- All `(connector_id, source_entity, source_field)` triples reachable
through the mappings of a graph's canonical fields. -/
def graph_triples (es : List CEntity) : List (String × String × String) :=
  (es.map (fun e => (e.fields.map (fun f => f.mappings.map tripleOfMapping)).flatten)).flatten

/-- A manifest mid whose triple is reachable in the graph. -/
def is_covered (es : List CEntity) (man : List ManifestEntry) (i : Nat) : Bool :=
  match man.get? i with
  | some t => decide (tripleOfEntry t ∈ graph_triples es)
  | none => false

def demoManifest : List ManifestEntry :=
  [{ mid := 0, connector_id := "c1", source_entity := "orders",
     source_field := "order_id", declared_type := none }]

def entitiesDoc : JVal :=
  .obj [("entities", .arr [.obj [("id", .str "t"), ("name", .str "t"),
    ("fields", .arr [.obj [("name", .str "a")]])]])]

def demoBuiltEntry : ManifestEntry :=
  { mid := 0, connector_id := "c1", source_entity := "t",
    source_field := "a", declared_type := none }

/-! ## Anchoring (`anchor_and_split_cross_entity_fields`)

The Python function mutates a dict graph in place.  The embedding threads an
explicit state: the entity list plus the `ent_by_name` map (stripped name →
index of the last entity carrying it, exactly the dict comprehension).
Moves can only target an entity whose stripped name differs from the one
being processed, so the per-entity field snapshot taken below coincides
with Python's live iteration. -/

/-- Generic first-match association lookup. -/
def lookupA {q b : Type} [DecidableEq q] : List (q × b) → q → Option b
  | [], _ => none
  | (a, x) :: t, k => if a = k then some x else lookupA t k

/-- Python dict assignment `d[k] = v` on an association list. -/
def putA {q b : Type} [DecidableEq q] : List (q × b) → q → b → List (q × b)
  | [], k, v => [(k, v)]
  | (a, x) :: t, k, v => if a = k then (a, v) :: t else (a, x) :: putA t k v

/-- `src_counts[src][e_name] += 1` (inner defaultdict(int)). -/
def bump : List (String × Nat) → String → List (String × Nat)
  | [], k => [(k, 1)]
  | (a, n) :: t, k => if a = k then (a, n + 1) :: t else (a, n) :: bump t k

/-- The outer defaultdict of `src_counts`. -/
def bumpSrc : List (String × List (String × Nat)) → String → String →
    List (String × List (String × Nat))
  | [], s, n => [(s, bump [] n)]
  | (a, c) :: t, s, n => if a = s then (a, bump c n) :: t else (a, c) :: bumpSrc t s n

/-- Every `(source_entity, stripped canonical entity name)` pair of the
graph, in iteration order. -/
def srcRows (es : List CEntity) : List (String × String) :=
  (es.map (fun e => ((e.fields.map (fun f => f.mappings)).flatten).map
    (fun m => (m.source_entity, pyStrip e.name)))).flatten

def src_counts (es : List CEntity) : List (String × List (String × Nat)) :=
  (srcRows es).foldl (fun acc p => bumpSrc acc p.1 p.2) []

/-- Python `max(counts.items(), key=lambda kv: kv[1])[0]`: the first key of
maximal count (ties keep the earlier insertion). -/
def argmaxGo (bk : String) (bv : Nat) : List (String × Nat) → String
  | [] => bk
  | (k, v) :: t => if bv < v then argmaxGo k v t else argmaxGo bk bv t

def argmaxFirst : List (String × Nat) → Option String
  | [] => none
  | (k, v) :: t => some (argmaxGo k v t)

/-- `src_anchor.get(src)`. -/
def src_anchor (es : List CEntity) (s : String) : Option String :=
  (lookupG (src_counts es) s).bind argmaxFirst

/-- `ent_by_name = \x7b(e.get("name") or "").strip(): e for e in entities\x7d`
(last entity wins per stripped name), as a name → index map. -/
def init_ebn (es : List CEntity) : List (String × Nat) :=
  es.enum.foldl (fun acc p => putA acc (pyStrip p.2.name) p.1) []

structure AnchorSt where
  ents : List CEntity
  ebn : List (String × Nat)

def modifyEnt : List CEntity → Nat → (CEntity → CEntity) → List CEntity
  | [], _, _ => []
  | e :: t, 0, g => g e :: t
  | e :: t, Nat.succ j, g => e :: modifyEnt t j g

/-- `get_or_create_field` followed by the `extend` of the moved sub-group:
the first field whose stripped lowercase name matches is extended, else a
fresh field copying the template's attributes is appended.  (In the typed
model every template key is present, so the `.get` defaults of the source
are never consulted; `deepcopy` is the identity on values.) -/
def extendField : List CField → String → CField → List Mapping → List CField
  | [], fname, tmpl, ms =>
    [{ name := fname, description := tmpl.description,
       semantic_type := tmpl.semantic_type, pii := tmpl.pii,
       primary_key := tmpl.primary_key, is_join_key := tmpl.is_join_key,
       nullable := tmpl.nullable, mappings := ms }]
  | fl :: t, fname, tmpl, ms =>
    if pyLower (pyStrip fl.name) = pyLower (pyStrip fname) then
      { fl with mappings := fl.mappings ++ ms } :: t
    else fl :: extendField t fname tmpl ms

/-- Relocating one source-entity sub-group to its anchor entity (creating
the entity when `ent_by_name` misses, as the source does — in fact anchors
always name existing entities). -/
def applyMove (st : AnchorSt) (anchorName fname : String) (tmpl : CField)
    (ms : List Mapping) : AnchorSt :=
  match lookupA st.ebn anchorName with
  | some j =>
    let g : CEntity → CEntity := fun e => { e with fields := extendField e.fields fname tmpl ms }
    { st with ents := modifyEnt st.ents j g }
  | none =>
    let newEnt : CEntity :=
      { name := anchorName
        description := ""
        tags := []
        fields := extendField [] fname tmpl ms }
    { ents := st.ents ++ [newEnt], ebn := putA st.ebn anchorName st.ents.length }

/-- The per-field loop body: each `by_src` group either stays (anchor falsy
or equal to the current entity's name) or is moved. -/
def processGroups (A : String → Option String) (eName fname : String) (tmpl : CField) :
    List (String × List Mapping) → AnchorSt → AnchorSt × List Mapping
  | [], st => (st, [])
  | (src, ms) :: rest, st =>
    match A src with
    | none =>
      let p := processGroups A eName fname tmpl rest st
      (p.1, ms ++ p.2)
    | some a =>
      if a = "" ∨ a = eName then
        let p := processGroups A eName fname tmpl rest st
        (p.1, ms ++ p.2)
      else
        processGroups A eName fname tmpl rest (applyMove st a fname tmpl ms)

/-- One field: group its mappings by source entity, process the groups, and
keep the field (with the staying mappings) only when some mapping stays. -/
def processField (A : String → Option String) (eName : String) (st : AnchorSt)
    (f : CField) : AnchorSt × Option CField :=
  let p := processGroups A eName f.name f (groupByKey Mapping.source_entity f.mappings) st
  (p.1, if p.2.isEmpty then none else some { f with mappings := p.2 })

def processFields (A : String → Option String) (eName : String) :
    List CField → AnchorSt → AnchorSt × List CField
  | [], st => (st, [])
  | f :: rest, st =>
    let p := processField A eName st f
    let q := processFields A eName rest p.1
    (q.1, match p.2 with | some nf => nf :: q.2 | none => q.2)

/-- One iteration of `for e in list(entities)`. -/
def processEntity (A : String → Option String) (st : AnchorSt) (i : Nat) : AnchorSt :=
  match st.ents.get? i with
  | none => st
  | some e =>
    let p := processFields A (pyStrip e.name) e.fields st
    { p.1 with ents := modifyEnt p.1.ents i (fun e2 => { e2 with fields := p.2 }) }

/-- `anchor_and_split_cross_entity_fields` on the entity list: anchors are
computed once on the input, each original entity is processed in order, and
entities left with no fields are dropped. -/
def anchorEntities (es : List CEntity) : List CEntity :=
  if es.isEmpty then es
  else
    let A := src_anchor es
    let st := (List.range es.length).foldl (processEntity A) ⟨es, init_ebn es⟩
    st.ents.filter (fun e => !e.fields.isEmpty)

def anchor_and_split_cross_entity_fields (g : CanonGraph) : CanonGraph :=
  { g with entities := anchorEntities g.entities }

/-- Expansion, repair and anchoring chained, as `create_dataset_review`
runs them. -/
def pipeline_anchor (man : List ManifestEntry) (resp : List ClusterEntity) : List CEntity :=
  anchorEntities (expand_and_repair man resp)

/-- Stable regrouping of a field's mappings by source entity — the only
change a second anchoring pass makes. -/
def regroupField (f : CField) : CField :=
  { f with mappings := ((groupByKey Mapping.source_entity f.mappings).map Prod.snd).flatten }

def regroupEntity (e : CEntity) : CEntity := { e with fields := e.fields.map regroupField }

def regroupGraph (g : CanonGraph) : CanonGraph :=
  { g with entities := g.entities.map regroupEntity }

/-- The per-field triple lists, used to state that no triple sits under two
different canonical fields. -/
def field_triple_lists (es : List CEntity) : List (List (String × String × String)) :=
  (es.map (fun e => e.fields.map (fun f => f.mappings.map tripleOfMapping))).flatten

/-- The per-field `mapping_ids` lists of a clustering response. -/
def resp_field_id_lists (resp : List ClusterEntity) : List (List Int) :=
  (resp.map (fun e => e.fields.map ClusterField.mapping_ids)).flatten

def cm (se sf : String) : Mapping := ⟨"c", se, sf, 1⟩

def cx (n : String) (ms : List Mapping) : CField := ⟨n, "", "", "none", false, false, true, ms⟩

def ce (n : String) (fs : List CField) : CEntity := ⟨n, "", [], fs⟩

/-- A graph on which anchoring is not strictly idempotent: moved-in groups
of sources s1 and s2 interleave inside `E.x`, and the second pass regroups
them. -/
def counterG : CanonGraph :=
  { version := "pilot-1", generated_at := "t",
    entities :=
      [ ce "E" [cx "x" [cm "s1" "f1", cm "s1" "f2", cm "s2" "g1", cm "s2" "g2"]],
        ce "F" [cx "x" [cm "s1" "f3", cm "s2" "g3"]],
        ce "G" [cx "x" [cm "s1" "f4"]] ],
    relationships := [] }

/-- A clustering response that assigns mapping id 0 to two different
canonical fields. -/
def respDup : List ClusterEntity :=
  [{ name := "E"
     description := ""
     tags := []
     fields := [⟨"a1", "", "", "none", false, false, true, [0]⟩,
                ⟨"a2", "", "", "none", false, false, true, [0]⟩] }]

/-! ### Decomposition of the anchoring loops

The stayed mappings of a field do not depend on the state, and the state
output is a fold of elementary move operations; the lemmas below make this
explicit so that invariants can be proved one move at a time. -/

structure MoveOp where
  a : String
  fname : String
  tmpl : CField
  ms : List Mapping

def applyMoves (st : AnchorSt) (ops : List MoveOp) : AnchorSt :=
  ops.foldl (fun st op => applyMove st op.a op.fname op.tmpl op.ms) st

def stayFlat (A : String → Option String) (eName : String) :
    List (String × List Mapping) → List Mapping
  | [] => []
  | (src, ms) :: rest =>
    match A src with
    | none => ms ++ stayFlat A eName rest
    | some a =>
      if a = "" ∨ a = eName then ms ++ stayFlat A eName rest
      else stayFlat A eName rest

def moveOps (A : String → Option String) (eName fname : String) (tmpl : CField) :
    List (String × List Mapping) → List MoveOp
  | [] => []
  | (src, ms) :: rest =>
    match A src with
    | none => moveOps A eName fname tmpl rest
    | some a =>
      if a = "" ∨ a = eName then moveOps A eName fname tmpl rest
      else ⟨a, fname, tmpl, ms⟩ :: moveOps A eName fname tmpl rest

def fieldStay (A : String → Option String) (eName : String) (f : CField) : Option CField :=
  let stay := stayFlat A eName (groupByKey Mapping.source_entity f.mappings)
  if stay.isEmpty then none else some { f with mappings := stay }

def fieldMoveOps (A : String → Option String) (eName : String) (f : CField) : List MoveOp :=
  moveOps A eName f.name f (groupByKey Mapping.source_entity f.mappings)

def entityStays (A : String → Option String) (eName : String) (fs : List CField) : List CField :=
  fs.filterMap (fieldStay A eName)

def entityMoveOps (A : String → Option String) (eName : String) (fs : List CField) :
    List MoveOp :=
  (fs.map (fieldMoveOps A eName)).flatten

/-! ### Counting the fields that hold a given triple

`DisjT L` says no triple occurs in two of the mapping lists `L`; it is the
form of the no-duplicate-mapping invariant that survives the moves. -/

def hasTriple (t : String × String × String) (l : List Mapping) : Bool :=
  l.any (fun m => tripleOfMapping m = t)

def tcount (t : String × String × String) (L : List (List Mapping)) : Nat :=
  L.countP (hasTriple t)

def DisjT (L : List (List Mapping)) : Prop := ∀ t, tcount t L ≤ 1

def entFieldLists (e : CEntity) : List (List Mapping) := e.fields.map CField.mappings

def fieldLists (es : List CEntity) : List (List Mapping) := (es.map entFieldLists).flatten

def fieldListsExcept (es : List CEntity) (k : Nat) : List (List Mapping) :=
  fieldLists (es.take k) ++ fieldLists (es.drop (k + 1))

def newFieldOf (fname : String) (tmpl : CField) (ms : List Mapping) : CField :=
  { name := fname, description := tmpl.description,
    semantic_type := tmpl.semantic_type, pii := tmpl.pii,
    primary_key := tmpl.primary_key, is_join_key := tmpl.is_join_key,
    nullable := tmpl.nullable, mappings := ms }

def stripL (p : Char → Bool) (l : List Char) : List Char :=
  ((l.dropWhile p).reverse.dropWhile p).reverse

/-! ### The `ent_by_name` invariant and the effect of one move -/

/-- `ent_by_name` sends a (stripped) name to the index of an entity of the
graph bearing that stripped name. -/
def EBNInv (st : AnchorSt) : Prop :=
  ∀ x j, lookupA st.ebn x = some j →
    ∃ e, st.ents.get? j = some e ∧ pyStrip e.name = x

def newEntOf (a fname : String) (tmpl : CField) (ms : List Mapping) : CEntity :=
  { name := a
    description := ""
    tags := []
    fields := extendField [] fname tmpl ms }

/-! ### Disjointness of the expanded and repaired graph -/

/-- Two mapping lists share no triple. -/
def disjH (l1 l2 : List Mapping) : Prop :=
  ∀ t, hasTriple t l1 = true → hasTriple t l2 = false

/-- A manifest whose positional id lookup is injective on triples (distinct
ids carry distinct `(connector_id, source_entity, source_field)` triples). -/
def ManInj (man : List ManifestEntry) : Prop :=
  ∀ i j ei ej, mid_lookup man i = some ei → mid_lookup man j = some ej →
    tripleOfEntry ei = tripleOfEntry ej → i = j

/-- A clustering response assigning the single manifest id to one field. -/
def respOne : List ClusterEntity :=
  [{ name := "E"
     description := ""
     tags := []
     fields := [⟨"a1", "", "", "none", false, false, true, [0]⟩] }]

/-! ### Row bookkeeping for the anchoring pass -/

def rowsOfEnt (e : CEntity) : List Mapping := (e.fields.map (fun f => f.mappings)).flatten

def allRows (es : List CEntity) : List Mapping := (es.map rowsOfEnt).flatten

def countSrc (s : String) (e : CEntity) : Nat :=
  (rowsOfEnt e).countP (fun m => m.source_entity = s)

def totalSrc (s : String) (es : List CEntity) : Nat :=
  (allRows es).countP (fun m => m.source_entity = s)

/-- The stripped entity names of the rows with source entity `s`, in row
iteration order: the data `src_counts[s]` is built from. -/
def namesFor (s : String) (es : List CEntity) : List String :=
  ((srcRows es).filter (fun p => p.1 = s)).map Prod.snd

/-! ### A graph with six same-pair candidates (exercises the per-pair cap) -/

/-- Two entities that generate six cross candidates for the single unordered
pair `("A", "B")`: every cross pair of the five join-key fields scores the
same, so the per-pair cap keeps the first five and drops the sixth. -/
def sixEntities : List CEntity :=
  [ { name := "A", description := "", tags := [],
      fields := [demoField "customer_id" false true, demoField "customer_id" false true] },
    { name := "B", description := "", tags := [],
      fields := [demoField "customer_id" false true, demoField "customer_id" false true,
                 demoField "customer_id" false true] } ]

def sixA : FieldInfo :=
  { entity := "A", field := "customer_id", pk := false, jk := true,
    sem := "identifier", tokens := (toks "customer_id").toFinset }

def sixB : FieldInfo :=
  { entity := "B", field := "customer_id", pk := false, jk := true,
    sem := "identifier", tokens := (toks "customer_id").toFinset }

/-! ### One loop iteration of the classifier post-processing -/

/-- The relationship one classifier row contributes before dedup: `none`
for a rejected row, an unresolvable `pair_id`, or a confidence below the
threshold — exactly the `continue` cases of the loop. -/
def rowRel (threshold : Rat) (cands : List Candidate) (it : RelItem) : Option Relationship :=
  if !it.accept then none else
  match it.pair_id with
  | none => none
  | some pid =>
    match cand_by_id cands pid with
    | none => none
    | some c =>
      if it.confidence.getD 0 < threshold then none else some (mkRelOut it c)

/-- First-occurrence-wins deduplication by a key, as the claim's words
"deduplicated ..., first occurrence wins" describe it: keep an element iff
its key was not seen earlier. -/
def keepFirstByKey {β κ : Type} [DecidableEq κ] (key : β → κ) :
    List β → List κ → List β
  | [], _ => []
  | x :: t, seen =>
    if key x ∈ seen then keepFirstByKey key t seen
    else x :: keepFirstByKey key t (key x :: seen)

/-! ### Concrete manifest-builder documents for the amended claim -/

/-- An `entities` document wrapped in a `schema` envelope. -/
def wrappedDoc : JVal := .obj [("schema", .obj [("entities", .arr [])])]

def demoTblFields : List (String × JVal) :=
  [("schema", .str "s"), ("table", .str "t"),
   ("columns", .arr [.obj [("name", .str "c"), ("type", .str "int")]])]

def demoTable : JVal := .obj demoTblFields

/-- The entity the `tables` branch builds from `demoTable`. -/
def demoTableEnt : JVal :=
  .obj [("id", .str "s.t"), ("name", .str "s.t"), ("kind", .str "table"),
        ("fields", .arr [.obj [("name", .str "c"), ("type", .str "int")]])]

def demoFile : JVal := .obj [("id", .str "f1"), ("name", .str "file1")]

/-- The field-less entity the `files` branch builds from `demoFile`. -/
def demoFileEnt : JVal :=
  .obj [("id", .str "f1"), ("name", .str "file1"), ("kind", .str "file"),
        ("fields", .arr [])]

def tablesFilesDoc : JVal :=
  .obj [("tables", .arr [demoTable]), ("files", .arr [demoFile])]

/-- A table whose single column is a plain string: `c.get("name")` raises. -/
def badTable : JVal := .obj [("columns", .arr [.str "a"])]

def badTablesDoc : JVal := .obj [("tables", .arr [badTable])]

theorem latestCanon_eq_none {store : List SavedCanon} :
    latestCanon store = none ↔ store = [] := by
  cases store with
  | nil => simp [latestCanon]
  | cons a t =>
    cases ht : latestCanon t with
    | none => simp [latestCanon, ht]
    | some b =>
      by_cases hv : a.version < b.version <;> simp [latestCanon, ht, hv]

theorem latestCanon_mem {store : List SavedCanon} {r : SavedCanon}
    (h : latestCanon store = some r) : r ∈ store := by
  induction store with
  | nil => simp [latestCanon] at h
  | cons a t ih =>
    cases ht : latestCanon t with
    | none =>
      simp only [latestCanon, ht, Option.some.injEq] at h
      simp [← h]
    | some b =>
      simp only [latestCanon, ht] at h
      by_cases hv : a.version < b.version
      · rw [if_pos hv] at h
        simp only [Option.some.injEq] at h
        exact List.mem_cons_of_mem _ (ih (ht.trans (by rw [h])))
      · rw [if_neg hv] at h
        simp only [Option.some.injEq] at h
        simp [← h]

theorem latestCanon_isMax {store : List SavedCanon} {r : SavedCanon}
    (h : latestCanon store = some r) : ∀ s ∈ store, s.version ≤ r.version := by
  induction store generalizing r with
  | nil => intro s hs; simp at hs
  | cons a t ih =>
    intro s hs
    cases ht : latestCanon t with
    | none =>
      simp only [latestCanon, ht, Option.some.injEq] at h
      subst h
      rcases List.mem_cons.mp hs with rfl | hs'
      · exact le_refl _
      · exact absurd (latestCanon_eq_none.mp ht) (List.ne_nil_of_mem hs')
    | some b =>
      simp only [latestCanon, ht] at h
      rcases List.mem_cons.mp hs with rfl | hs'
      · by_cases hv : s.version < b.version
        · rw [if_pos hv] at h
          simp only [Option.some.injEq] at h
          subst h
          exact le_of_lt hv
        · rw [if_neg hv] at h
          simp only [Option.some.injEq] at h
          subst h
          exact le_refl _
      · by_cases hv : a.version < b.version
        · rw [if_pos hv] at h
          simp only [Option.some.injEq] at h
          subst h
          exact ih ht s hs'
        · rw [if_neg hv] at h
          simp only [Option.some.injEq] at h
          subst h
          exact le_trans (ih ht s hs') (not_lt.mp hv)

theorem save_global_canonical_eq (store : List SavedCanon) (body : SaveBody) :
    save_global_canonical store body =
      match body.expectedVersion with
      | some ev =>
        if ev ≠ latestVersionOf store then
          (store, .conflict (latestVersionOf store) ((latestCanon store).map SavedCanon.graph))
        else (store ++ [nextSaved store body], .saved (nextSaved store body))
      | none => (store ++ [nextSaved store body], .saved (nextSaved store body)) := by
  have hnext : (match latestCanon store with
      | none => (1 : Int)
      | some r => r.version + 1) = latestVersionOf store + 1 := by
    unfold latestVersionOf
    cases latestCanon store <;> simp
  unfold save_global_canonical nextSaved
  cases body.expectedVersion <;> simp only [hnext]

/-- C4.  With a stale `expected_version` the save inserts nothing and returns
the untouched latest state as a conflict; a successful save appends exactly
one record whose version is the current latest + 1 (1 when no version
exists), hence strictly greater than every persisted version. -/
theorem save_conflict_and_monotone (store : List SavedCanon) (body : SaveBody) :
    (∀ ev : Int, body.expectedVersion = some ev → ev ≠ latestVersionOf store →
      save_global_canonical store body =
        (store, .conflict (latestVersionOf store) ((latestCanon store).map SavedCanon.graph))) ∧
    (∀ (store' : List SavedCanon) (r : SavedCanon),
      save_global_canonical store body = (store', .saved r) →
      store' = store ++ [r] ∧ r.graph = body.graph ∧
        r.version = latestVersionOf store + 1 ∧
        (store = [] → r.version = 1) ∧
        ∀ s ∈ store, s.version < r.version) := by
  have hsaved : ∀ (store' : List SavedCanon) (r : SavedCanon) (g : JVal),
      (store ++ [nextSaved store ⟨g, none⟩], SaveOutcome.saved (nextSaved store ⟨g, none⟩)) =
        (store', .saved r) →
      store' = store ++ [r] ∧ r.graph = g ∧
        r.version = latestVersionOf store + 1 ∧
        (store = [] → r.version = 1) ∧
        ∀ s ∈ store, s.version < r.version := by
    intro store' r g h
    rw [Prod.ext_iff] at h
    obtain ⟨h1, h2⟩ := h
    simp only [SaveOutcome.saved.injEq] at h2
    subst h2
    refine ⟨h1.symm, rfl, rfl, ?_, ?_⟩
    · intro hempty
      subst hempty
      simp [nextSaved, latestVersionOf, latestCanon]
    · intro s hs
      cases hl : latestCanon store with
      | none => exact absurd (latestCanon_eq_none.mp hl) (List.ne_nil_of_mem hs)
      | some b =>
        have hle : s.version ≤ b.version := latestCanon_isMax hl s hs
        have hv : latestVersionOf store = b.version := by simp [latestVersionOf, hl]
        simp only [nextSaved, hv]
        omega
  obtain ⟨g, evOpt⟩ := body
  cases evOpt with
  | none =>
    refine ⟨?_, ?_⟩
    · intro ev hev; exact absurd hev (by simp)
    · intro store' r h
      rw [save_global_canonical_eq] at h
      exact hsaved store' r g h
  | some ev =>
    by_cases hne : ev ≠ latestVersionOf store
    · refine ⟨?_, ?_⟩
      · intro ev' hev' _
        rw [save_global_canonical_eq]
        simp only [Option.some.injEq] at hev'
        subst hev'
        exact if_pos hne
      · intro store' r h
        rw [save_global_canonical_eq] at h
        dsimp only at h
        rw [if_pos hne] at h
        rw [Prod.ext_iff] at h
        exact absurd h.2 (by simp)
    · refine ⟨?_, ?_⟩
      · intro ev' hev' hne'
        simp only [Option.some.injEq] at hev'
        subst hev'
        exact absurd hne' hne
      · intro store' r h
        rw [save_global_canonical_eq] at h
        dsimp only at h
        rw [if_neg hne] at h
        have := hsaved store' r g h
        exact this

/-- C4 witness: a stale save against latest version 3 conflicts without
inserting, and a fresh save appends version 4 > 3. -/
theorem save_conflict_and_monotone_witness :
    save_global_canonical [⟨3, JVal.null⟩] ⟨JVal.null, some 2⟩
      = ([⟨3, JVal.null⟩], .conflict 3 (some JVal.null)) ∧
    (⟨3, JVal.null⟩ : SavedCanon).version < (⟨4, JVal.null⟩ : SavedCanon).version := by
  constructor
  · exact (save_conflict_and_monotone [⟨3, JVal.null⟩] ⟨JVal.null, some 2⟩).1 2 rfl (by decide)
  · exact ((save_conflict_and_monotone [⟨3, JVal.null⟩] ⟨JVal.null, some 3⟩).2
      ([⟨3, JVal.null⟩] ++ [⟨4, JVal.null⟩]) ⟨4, JVal.null⟩ rfl).2.2.2.2 ⟨3, JVal.null⟩ (by simp)

/-- C10.  Omitting `expected_version` skips the version check entirely: the
save always appends `latest + 1`; a conflict outcome occurs exactly when an
`expected_version` is supplied and differs from the current latest. -/
theorem save_without_expected_version (store : List SavedCanon) (body : SaveBody) :
    (body.expectedVersion = none →
      save_global_canonical store body =
        (store ++ [⟨latestVersionOf store + 1, body.graph⟩],
          .saved ⟨latestVersionOf store + 1, body.graph⟩)) ∧
    ((∃ lv lg, (save_global_canonical store body).2 = .conflict lv lg) ↔
      ∃ ev : Int, body.expectedVersion = some ev ∧ ev ≠ latestVersionOf store) := by
  obtain ⟨g, evOpt⟩ := body
  cases evOpt with
  | none =>
    refine ⟨?_, ?_⟩
    · intro _
      rw [save_global_canonical_eq]
      repeat rfl
    · rw [save_global_canonical_eq]
      constructor
      · rintro ⟨lv, lg, h⟩; exact absurd h (by simp)
      · rintro ⟨ev, h, _⟩; exact absurd h (by simp)
  | some ev =>
    refine ⟨?_, ?_⟩
    · intro h; exact absurd h (by simp)
    · rw [save_global_canonical_eq]
      dsimp only
      by_cases hne : ev ≠ latestVersionOf store
      · rw [if_pos hne]
        constructor
        · intro _; exact ⟨ev, rfl, hne⟩
        · intro _
          exact ⟨latestVersionOf store, (latestCanon store).map SavedCanon.graph, rfl⟩
      · rw [if_neg hne]
        constructor
        · rintro ⟨lv, lg, h⟩; exact absurd h (by simp)
        · rintro ⟨ev', h, hne'⟩
          simp only [Option.some.injEq] at h
          exact absurd (h ▸ hne') hne

/-- C10 witness: the first-ever save with no expected version appends
version 1, and its outcome is not a conflict. -/
theorem save_without_expected_version_witness :
    save_global_canonical [] ⟨JVal.null, none⟩
      = ([⟨1, JVal.null⟩], .saved ⟨1, JVal.null⟩) := by
  have h := (save_without_expected_version [] ⟨JVal.null, none⟩).1 rfl
  simpa [latestVersionOf, latestCanon] using h

/-- C8.  The LLM-response parser is total and layered: strict parse first,
then the sanitised text, then the longest balanced brace span, and when all
fail it returns the empty-but-well-typed structure (whose `entities` and
`relationships` are empty lists) instead of raising. -/
theorem best_effort_parse_layers (parse : String → Option JVal) (text : String) :
    (∀ v, parse text = some v → best_effort_parse parse text = v) ∧
    (parse text = none →
      ∀ v, parse (sanitize text) = some v → best_effort_parse parse text = v) ∧
    (parse text = none → parse (sanitize text) = none →
      ∀ sub v, balanced_substring (sanitize text) = some sub → parse sub = some v →
        best_effort_parse parse text = v) ∧
    (parse text = none → parse (sanitize text) = none →
      (∀ sub, balanced_substring (sanitize text) = some sub → parse sub = none) →
      best_effort_parse parse text = empty_fallback) ∧
    jGet empty_fallback "entities" = some (.arr []) ∧
    jGet empty_fallback "relationships" = some (.arr []) := by
  refine ⟨?_, ?_, ?_, ?_, rfl, rfl⟩
  · intro v hv
    unfold best_effort_parse
    rw [hv]
  · intro h1 v hv
    unfold best_effort_parse
    rw [h1]
    simp only [hv]
  · intro h1 h2 sub v hsub hv
    unfold best_effort_parse
    rw [h1]
    simp only [h2, hsub, hv]
  · intro h1 h2 h3
    unfold best_effort_parse
    rw [h1]
    simp only [h2]
    cases hb : balanced_substring (sanitize text) with
    | none => simp
    | some sub => simp [h3 sub hb]

/-- C8 witness: a parser succeeding strictly is returned as-is, and a parser
failing on every string yields the empty fallback. -/
theorem best_effort_parse_layers_witness :
    best_effort_parse (fun s => if s = "ok" then some (.str "ok") else none) "ok"
        = .str "ok" ∧
    best_effort_parse (fun _ => none) "x" = empty_fallback := by
  constructor
  · exact (best_effort_parse_layers
      (fun s => if s = "ok" then some (.str "ok") else none) "ok").1 (.str "ok") rfl
  · exact (best_effort_parse_layers (fun _ => none) "x").2.2.2.1 rfl rfl (fun _ _ => rfl)

theorem mem_pairsUpper {l : List FieldInfo} {p : FieldInfo × FieldInfo}
    (h : p ∈ pairsUpper l) : p.1 ∈ l ∧ p.2 ∈ l := by
  induction l with
  | nil => simp [pairsUpper] at h
  | cons a t ih =>
    simp only [pairsUpper, List.mem_append, List.mem_map] at h
    rcases h with ⟨b, hb, rfl⟩ | h
    · exact ⟨List.mem_cons_self _ _, List.mem_cons_of_mem _ hb⟩
    · rcases ih h with ⟨h1, h2⟩
      exact ⟨List.mem_cons_of_mem _ h1, List.mem_cons_of_mem _ h2⟩

theorem mem_genCandidatesAux {ps : List (FieldInfo × FieldInfo)} {pid : Nat} {c : Candidate}
    (h : c ∈ genCandidatesAux ps pid) :
    ∃ a b, (a, b) ∈ ps ∧ ¬ score_pair a b < 7/10 ∧ ∃ k, c = mkCandidate k a b := by
  induction ps generalizing pid with
  | nil => simp [genCandidatesAux] at h
  | cons p rest ih =>
    obtain ⟨a, b⟩ := p
    simp only [genCandidatesAux] at h
    by_cases hs : score_pair a b < 7/10
    · rw [if_pos hs] at h
      obtain ⟨a', b', hmem, h1, h2⟩ := ih h
      exact ⟨a', b', List.mem_cons_of_mem _ hmem, h1, h2⟩
    · rw [if_neg hs] at h
      rcases List.mem_cons.mp h with rfl | h'
      · exact ⟨a, b, List.mem_cons_self _ _, hs, pid, rfl⟩
      · obtain ⟨a', b', hmem, h1, h2⟩ := ih h'
        exact ⟨a', b', List.mem_cons_of_mem _ hmem, h1, h2⟩

theorem mkCandidate_score (k : Nat) (a b : FieldInfo) :
    (mkCandidate k a b).score = score_pair a b := by
  unfold mkCandidate
  by_cases h1 : (a.pk && b.jk) = true
  · simp [h1]
  · by_cases h2 : (b.pk && a.jk) = true <;> simp [h1, h2]

/-- C5.  Every emitted candidate pairs two join-key-like canonical fields of
different entities, its score is exactly
`0.75 * max(exact_name_match, token_jaccard) + 0.20 * pk-jk + 0.05 * both-id`,
at least `0.7`, and the predicted type is `unknown` unless one side is a
primary key and the other a join key, in which case it is `one_to_many`
directed from the primary-key side. -/
theorem candidate_generator_spec (es : List CEntity) (c : Candidate)
    (h : c ∈ candidates es) :
    ∃ a b : FieldInfo,
      a ∈ canon_fields es ∧ b ∈ canon_fields es ∧
      (a.pk || a.jk || is_id_like a) = true ∧
      (b.pk || b.jk || is_id_like b) = true ∧
      a.entity ≠ b.entity ∧
      c.score = 3/4 * max (if norm a.field = norm b.field then (1 : Rat) else 0)
          (jaccard a.tokens b.tokens)
        + 1/5 * (if (a.pk && b.jk) || (b.pk && a.jk) then (1 : Rat) else 0)
        + 1/20 * (if semIsIdLike a.sem && semIsIdLike b.sem then (1 : Rat) else 0) ∧
      7/10 ≤ c.score ∧
      (if a.pk && b.jk then
        c.predicted_type = "one_to_many" ∧ c.from_entity = a.entity ∧ c.from_field = a.field ∧
          c.to_entity = b.entity ∧ c.to_field = b.field
       else if b.pk && a.jk then
        c.predicted_type = "one_to_many" ∧ c.from_entity = b.entity ∧ c.from_field = b.field ∧
          c.to_entity = a.entity ∧ c.to_field = a.field
       else
        c.predicted_type = "unknown" ∧ c.from_entity = a.entity ∧ c.from_field = a.field ∧
          c.to_entity = b.entity ∧ c.to_field = b.field) := by
  obtain ⟨a, b, hmem, hs, k, rfl⟩ := mem_genCandidatesAux h
  obtain ⟨ha, hb⟩ := mem_pairsUpper hmem
  have haj : (a.pk || a.jk || is_id_like a) = true := by
    have := List.mem_filter.mp ha
    simpa using this.2
  have hbj : (b.pk || b.jk || is_id_like b) = true := by
    have := List.mem_filter.mp hb
    simpa using this.2
  have ha' : a ∈ canon_fields es := (List.mem_filter.mp ha).1
  have hb' : b ∈ canon_fields es := (List.mem_filter.mp hb).1
  have hne : a.entity ≠ b.entity := by
    intro he
    rw [score_pair, if_pos he] at hs
    exact hs (by norm_num)
  have hscore : (mkCandidate k a b).score = score_pair a b := mkCandidate_score k a b
  have hformula : score_pair a b =
      3/4 * max (if norm a.field = norm b.field then (1 : Rat) else 0)
          (jaccard a.tokens b.tokens)
        + 1/5 * (if (a.pk && b.jk) || (b.pk && a.jk) then (1 : Rat) else 0)
        + 1/20 * (if semIsIdLike a.sem && semIsIdLike b.sem then (1 : Rat) else 0) := by
    rw [score_pair, if_neg hne]
  refine ⟨a, b, ha', hb', haj, hbj, hne, hscore.trans hformula, ?_, ?_⟩
  · rw [hscore]
    exact not_lt.mp hs
  · unfold mkCandidate
    by_cases h1 : (a.pk && b.jk) = true
    · simp [h1]
    · by_cases h2 : (b.pk && a.jk) = true <;> simp [h1, h2]

theorem demo_fields_for_join : fields_for_join demoEntities = [demoFieldA, demoFieldB] := by
  decide

theorem demo_score : score_pair demoFieldA demoFieldB = 1 := by
  have hj : jaccard demoFieldA.tokens demoFieldB.tokens = 1 := by
    rw [jaccard, if_neg (by decide)]
    have hcap : (demoFieldA.tokens ∩ demoFieldB.tokens).card = 2 := by decide
    have hcup : (demoFieldA.tokens ∪ demoFieldB.tokens).card = 2 := by decide
    rw [hcap, hcup]
    norm_num
  rw [score_pair, if_neg (by decide)]
  dsimp only
  rw [hj]
  have hfe : norm demoFieldA.field = norm demoFieldB.field := by decide
  rw [if_pos hfe]
  norm_num [demoFieldA, demoFieldB, semIsIdLike, sup_idem]

/-- C5 witness: the generator on the demo graph emits exactly the
`Orders.customer_id → Customers.customer_id` candidate, whose score clears
the 0.7 cut. -/
theorem candidate_generator_spec_witness :
    demoCand ∈ candidates demoEntities ∧ (7/10 : Rat) ≤ demoCand.score := by
  have hnl : ¬ score_pair demoFieldA demoFieldB < 7/10 := by
    rw [demo_score]; norm_num
  have hc : candidates demoEntities = [demoCand] := by
    rw [candidates, demo_fields_for_join]
    show genCandidatesAux [(demoFieldA, demoFieldB)] 0 = [demoCand]
    rw [genCandidatesAux, if_neg hnl]
    rfl
  have hmem : demoCand ∈ candidates demoEntities := by rw [hc]; exact List.mem_singleton_self _
  obtain ⟨a, b, -, -, -, -, -, -, hge, -⟩ := candidate_generator_spec demoEntities demoCand hmem
  exact ⟨hmem, hge⟩

theorem insertDescBy_perm {α : Type} (key : α → Rat) (x : α) (l : List α) :
    (insertDescBy key x l).Perm (x :: l) := by
  induction l with
  | nil => simp [insertDescBy]
  | cons y t ih =>
    rw [insertDescBy]
    by_cases h : key y ≤ key x
    · rw [if_pos h]
    · rw [if_neg h]
      exact (ih.cons y).trans (List.Perm.swap x y t)

theorem sortDescBy_perm {α : Type} (key : α → Rat) (l : List α) :
    (sortDescBy key l).Perm l := by
  induction l with
  | nil => simp [sortDescBy]
  | cons a t ih =>
    show (insertDescBy key a (sortDescBy key t)).Perm (a :: t)
    exact (insertDescBy_perm key a _).trans (ih.cons a)

theorem insertDescBy_pairwise {α : Type} (key : α → Rat) (x : α) {l : List α}
    (hl : l.Pairwise (fun u v => key v ≤ key u)) :
    (insertDescBy key x l).Pairwise (fun u v => key v ≤ key u) := by
  induction l with
  | nil => simp [insertDescBy]
  | cons y t ih =>
    rw [insertDescBy]
    rcases List.pairwise_cons.mp hl with ⟨hy, ht⟩
    by_cases h : key y ≤ key x
    · rw [if_pos h]
      exact List.pairwise_cons.mpr ⟨fun z hz => by
        rcases List.mem_cons.mp hz with rfl | hz'
        · exact h
        · exact le_trans (hy z hz') h, hl⟩
    · rw [if_neg h]
      refine List.pairwise_cons.mpr ⟨fun z hz => ?_, ih ht⟩
      have hz' := (insertDescBy_perm key x t).mem_iff.mp hz
      rcases List.mem_cons.mp hz' with rfl | hz''
      · exact le_of_lt (lt_of_not_le h)
      · exact hy z hz''

theorem sortDescBy_pairwise {α : Type} (key : α → Rat) (l : List α) :
    (sortDescBy key l).Pairwise (fun u v => key v ≤ key u) := by
  induction l with
  | nil => simp [sortDescBy]
  | cons a t ih => exact insertDescBy_pairwise key a ih

theorem lookupG_addToGroup {q a : Type} [DecidableEq q]
    (acc : List (q × List a)) (k0 : q) (x : a) (k : q) :
    lookupG (addToGroup acc k0 x) k =
      if k = k0 then some (((lookupG acc k).getD []) ++ [x]) else lookupG acc k := by
  induction acc with
  | nil =>
    by_cases h : k = k0
    · subst h; simp [addToGroup, lookupG]
    · have h' : ¬ k0 = k := fun hh => h hh.symm
      simp [addToGroup, lookupG, h, h']
  | cons p t ih =>
    obtain ⟨b, l⟩ := p
    by_cases hb : b = k0
    · subst hb
      by_cases hk : k = b
      · subst hk; simp [addToGroup, lookupG]
      · have hk' : ¬ b = k := fun hh => hk hh.symm
        simp [addToGroup, lookupG, hk, hk']
    · rw [addToGroup, if_neg hb]
      by_cases hk : b = k
      · subst hk
        simp [lookupG, hb]
      · simp [lookupG, hk, ih]

theorem lookupG_foldl {q a : Type} [DecidableEq q] (key : a → q) (xs : List a) :
    ∀ (acc : List (q × List a)) (k : q),
    lookupG (xs.foldl (fun acc x => addToGroup acc (key x) x) acc) k =
      match lookupG acc k, xs.filter (fun x => key x = k) with
      | none, [] => none
      | none, f => some f
      | some l, f => some (l ++ f) := by
  induction xs with
  | nil =>
    intro acc k
    cases h : lookupG acc k <;> simp [h]
  | cons x t ih =>
    intro acc k
    rw [List.foldl_cons, ih]
    by_cases hx : key x = k
    · rw [lookupG_addToGroup, if_pos hx.symm]
      rw [List.filter_cons_of_pos (by simpa using hx)]
      cases h : lookupG acc k with
      | none => simp [h]
      | some l =>
        simp only [h, Option.getD_some]
        cases hf : t.filter (fun y => key y = k) <;> simp [List.append_assoc]
    · rw [lookupG_addToGroup, if_neg (fun h => hx h.symm)]
      rw [List.filter_cons_of_neg (by simpa using hx)]

/-- The content of each bucket of `groupByKey` is exactly the filter by its
key. -/
theorem lookupG_groupByKey {q a : Type} [DecidableEq q] (key : a → q) (xs : List a) (k : q) :
    lookupG (groupByKey key xs) k =
      match xs.filter (fun x => key x = k) with
      | [] => none
      | f => some f := by
  rw [groupByKey, lookupG_foldl]
  cases hf : xs.filter (fun x => key x = k) <;> simp [lookupG, hf]

theorem addToGroup_keys {q a : Type} [DecidableEq q] (u : List (q × List a)) (k0 : q) (x : a) :
    (addToGroup u k0 x).map Prod.fst =
      if k0 ∈ u.map Prod.fst then u.map Prod.fst else u.map Prod.fst ++ [k0] := by
  induction u with
  | nil => simp [addToGroup]
  | cons p t ih =>
    obtain ⟨b, l⟩ := p
    by_cases hb : b = k0
    · subst hb; simp [addToGroup]
    · rw [addToGroup, if_neg hb]
      have hb' : ¬ k0 = b := fun h => hb h.symm
      by_cases hmem : k0 ∈ t.map Prod.fst <;>
        simp [ih, hmem, hb']

theorem groupByKey_keys_nodup {q a : Type} [DecidableEq q] (key : a → q) (xs : List a) :
    ((groupByKey key xs).map Prod.fst).Nodup := by
  suffices h : ∀ acc : List (q × List a), (acc.map Prod.fst).Nodup →
      ((xs.foldl (fun acc x => addToGroup acc (key x) x) acc).map Prod.fst).Nodup by
    exact h [] (by simp)
  induction xs with
  | nil => intro acc hacc; simpa using hacc
  | cons x t ih =>
    intro acc hacc
    rw [List.foldl_cons]
    refine ih _ ?_
    rw [addToGroup_keys]
    by_cases hmem : key x ∈ acc.map Prod.fst
    · simpa [hmem] using hacc
    · simp only [hmem, if_false]
      simp [List.nodup_append, hacc, hmem]

theorem mem_lookupG {q a : Type} [DecidableEq q] {acc : List (q × List a)} {k : q} {l : List a}
    (hnd : (acc.map Prod.fst).Nodup) (h : (k, l) ∈ acc) : lookupG acc k = some l := by
  induction acc with
  | nil => simp at h
  | cons p t ih =>
    obtain ⟨b, m⟩ := p
    simp only [List.map_cons, List.nodup_cons] at hnd
    rcases List.mem_cons.mp h with he | h'
    · obtain ⟨rfl, rfl⟩ := Prod.ext_iff.mp he
      simp [lookupG]
    · rw [lookupG]
      by_cases hb : b = k
      · subst hb
        exact absurd (List.mem_map.mpr ⟨(b, l), h', rfl⟩) hnd.1
      · rw [if_neg hb]
        exact ih hnd.2 h'

/-- Members of a `groupByKey` bucket: they carry the bucket's key and come
from the grouped list. -/
theorem groupByKey_bucket_eq {q a : Type} [DecidableEq q] {key : a → q} {xs : List a}
    {k : q} {l : List a} (h : (k, l) ∈ groupByKey key xs) :
    l = xs.filter (fun x => key x = k) := by
  have hl := mem_lookupG (groupByKey_keys_nodup key xs) h
  rw [lookupG_groupByKey] at hl
  cases hf : xs.filter (fun x => key x = k) with
  | nil => rw [hf] at hl; simp at hl
  | cons y t => rw [hf] at hl; simpa using hl.symm

theorem lookupG_mem {q a : Type} [DecidableEq q] {acc : List (q × List a)} {k : q}
    {l : List a} (h : lookupG acc k = some l) : (k, l) ∈ acc := by
  induction acc with
  | nil => simp [lookupG] at h
  | cons p t ih =>
    obtain ⟨b, m⟩ := p
    rw [lookupG] at h
    by_cases hb : b = k
    · rw [if_pos hb] at h
      simp only [Option.some.injEq] at h
      subst hb; subst h
      exact List.mem_cons_self _ _
    · rw [if_neg hb] at h
      exact List.mem_cons_of_mem _ (ih h)

theorem count_buckets_aux (p : String × String) (n : Nat) :
    ∀ B : List ((String × String) × List Candidate),
    (B.map Prod.fst).Nodup →
    (∀ k l, (k, l) ∈ B → ∀ c ∈ l, pair_key c = k) →
    ((B.map (fun b => (sortDescBy Candidate.score b.2).take n)).flatten.countP
      (fun c => pair_key c = p)) ≤ n := by
  intro B
  induction B with
  | nil => intro _ _; simp
  | cons b B' ih =>
    obtain ⟨k, l⟩ := b
    intro hnd hkey
    rw [List.map_cons, List.flatten_cons, List.countP_append]
    dsimp only
    simp only [List.map_cons, List.nodup_cons] at hnd
    have hmem_take : ∀ c ∈ (sortDescBy Candidate.score l).take n, pair_key c = k := by
      intro c hc
      have hc1 : c ∈ sortDescBy Candidate.score l := List.mem_of_mem_take hc
      have hc2 : c ∈ l := (sortDescBy_perm _ l).mem_iff.mp hc1
      exact hkey k l (List.mem_cons_self _ _) c hc2
    have hB'key : ∀ c k' l', (k', l') ∈ B' → c ∈ l' → pair_key c = k' :=
      fun c k' l' h1 h2 => hkey k' l' (List.mem_cons_of_mem _ h1) c h2
    by_cases hp : k = p
    · subst hp
      have h1 : ((sortDescBy Candidate.score l).take n).countP
          (fun c => pair_key c = k) ≤ n :=
        le_trans (List.countP_le_length _) (List.length_take_le _ _)
      have h2 : ((B'.map (fun b => (sortDescBy Candidate.score b.2).take n)).flatten.countP
          (fun c => pair_key c = k)) = 0 := by
        rw [List.countP_eq_zero]
        intro c hc
        rcases List.mem_flatten.mp hc with ⟨s, hs, hcs⟩
        rcases List.mem_map.mp hs with ⟨⟨k', l'⟩, hkl, rfl⟩
        have hck : pair_key c = k' := by
          have hc1 : c ∈ sortDescBy Candidate.score l' := List.mem_of_mem_take hcs
          exact hB'key c k' l' hkl ((sortDescBy_perm _ l').mem_iff.mp hc1)
        have hk' : k' ∈ B'.map Prod.fst := List.mem_map.mpr ⟨(k', l'), hkl, rfl⟩
        simp only [decide_eq_true_eq]
        intro hckk
        exact hnd.1 ((hck ▸ hckk : (k' : String × String) = k) ▸ hk')
      omega
    · have h1 : ((sortDescBy Candidate.score l).take n).countP
          (fun c => pair_key c = p) = 0 := by
        rw [List.countP_eq_zero]
        intro c hc
        simp only [decide_eq_true_eq]
        rw [hmem_take c hc]
        exact hp
      rw [h1]
      simpa using ih hnd.2 (fun k' l' h => hkey k' l' (List.mem_cons_of_mem _ h))

theorem genAux_skip {a b : FieldInfo} (h : score_pair a b < 7/10)
    (rest : List (FieldInfo × FieldInfo)) (pid : Nat) :
    genCandidatesAux ((a, b) :: rest) pid = genCandidatesAux rest pid := by
  show (if score_pair a b < 7/10 then genCandidatesAux rest pid
    else mkCandidate pid a b :: genCandidatesAux rest (pid + 1)) = genCandidatesAux rest pid
  exact if_pos h

theorem genAux_keep {a b : FieldInfo} (h : ¬ score_pair a b < 7/10)
    (rest : List (FieldInfo × FieldInfo)) (pid : Nat) :
    genCandidatesAux ((a, b) :: rest) pid =
      mkCandidate pid a b :: genCandidatesAux rest (pid + 1) := by
  show (if score_pair a b < 7/10 then genCandidatesAux rest pid
    else mkCandidate pid a b :: genCandidatesAux rest (pid + 1)) =
      mkCandidate pid a b :: genCandidatesAux rest (pid + 1)
  exact if_neg h

/-- A stable descending sort leaves a constant-key list unchanged. -/
theorem sortDescBy_const {α : Type} (key : α → Rat) (q : Rat) :
    ∀ l : List α, (∀ x ∈ l, key x = q) → sortDescBy key l = l := by
  intro l
  induction l with
  | nil => intro _; rfl
  | cons a t ih =>
    intro h
    have ht : sortDescBy key t = t := ih (fun x hx => h x (List.mem_cons_of_mem _ hx))
    show insertDescBy key a (sortDescBy key t) = a :: t
    rw [ht]
    cases t with
    | nil => rfl
    | cons y t2 =>
      have hle : key y ≤ key a := by
        rw [h y (List.mem_cons_of_mem _ (List.mem_cons_self _ _)),
          h a (List.mem_cons_self _ _)]
      show (if key y ≤ key a then a :: y :: t2 else y :: insertDescBy key a t2) = a :: y :: t2
      exact if_pos hle

/-- In a descending-sorted list, every kept (taken) element dominates every
dropped one. -/
theorem sorted_take_drop_le {α : Type} (key : α → Rat) {l : List α}
    (h : l.Pairwise (fun u v => key v ≤ key u)) (n : Nat) {a b : α}
    (ha : a ∈ l.take n) (hb : b ∈ l.drop n) : key b ≤ key a := by
  have hsp : l.take n ++ l.drop n = l := List.take_append_drop n l
  rw [← hsp] at h
  exact (List.pairwise_append.mp h).2.2 a ha b hb

/-- The unordered pair key of a generated candidate whose sides are neither
pk/jk-directed, in entity order. -/
theorem pair_key_mkCandidate {a b : FieldInfo} (k : Nat)
    (h1 : (a.pk && b.jk) = false) (h2 : (b.pk && a.jk) = false)
    (hle : a.entity ≤ b.entity) :
    pair_key (mkCandidate k a b) = (a.entity, b.entity) := by
  unfold mkCandidate
  rw [if_neg (by simp [h1]), if_neg (by simp [h2])]
  rw [pair_key]
  dsimp only
  rw [if_pos hle]

theorem six_pair_key (k : Nat) : pair_key (mkCandidate k sixA sixB) = ("A", "B") :=
  pair_key_mkCandidate k rfl rfl (String.le_iff_toList_le.mpr (by decide))

theorem six_score_aa : score_pair sixA sixA = 0 := by
  rw [score_pair]
  exact if_pos rfl

theorem six_score_bb : score_pair sixB sixB = 0 := by
  rw [score_pair]
  exact if_pos rfl

theorem six_score_ab : score_pair sixA sixB = 4/5 := by
  have hj : jaccard sixA.tokens sixB.tokens = 1 := by
    rw [jaccard, if_neg (by decide)]
    have hcap : (sixA.tokens ∩ sixB.tokens).card = 2 := by decide
    have hcup : (sixA.tokens ∪ sixB.tokens).card = 2 := by decide
    rw [hcap, hcup]
    norm_num
  rw [score_pair, if_neg (by decide)]
  dsimp only
  rw [hj]
  have hfe : norm sixA.field = norm sixB.field := by decide
  rw [if_pos hfe]
  norm_num [sixA, sixB, semIsIdLike, sup_idem]

theorem six_fields_for_join :
    fields_for_join sixEntities = [sixA, sixA, sixB, sixB, sixB] := by
  decide

theorem six_candidates : candidates sixEntities =
    [mkCandidate 0 sixA sixB, mkCandidate 1 sixA sixB, mkCandidate 2 sixA sixB,
     mkCandidate 3 sixA sixB, mkCandidate 4 sixA sixB, mkCandidate 5 sixA sixB] := by
  have hlt : score_pair sixA sixA < 7/10 := by rw [six_score_aa]; norm_num
  have hltb : score_pair sixB sixB < 7/10 := by rw [six_score_bb]; norm_num
  have hge : ¬ score_pair sixA sixB < 7/10 := by rw [six_score_ab]; norm_num
  rw [candidates, six_fields_for_join]
  show genCandidatesAux [(sixA, sixA), (sixA, sixB), (sixA, sixB), (sixA, sixB),
    (sixA, sixB), (sixA, sixB), (sixA, sixB), (sixB, sixB), (sixB, sixB), (sixB, sixB)] 0 = _
  rw [genAux_skip hlt, genAux_keep hge, genAux_keep hge, genAux_keep hge,
    genAux_keep hge, genAux_keep hge, genAux_keep hge, genAux_skip hltb,
    genAux_skip hltb, genAux_skip hltb]
  rfl

theorem six_flat : flat_candidates sixEntities =
    [mkCandidate 0 sixA sixB, mkCandidate 1 sixA sixB, mkCandidate 2 sixA sixB,
     mkCandidate 3 sixA sixB, mkCandidate 4 sixA sixB] := by
  have hall : ∀ c ∈ [mkCandidate 0 sixA sixB, mkCandidate 1 sixA sixB,
      mkCandidate 2 sixA sixB, mkCandidate 3 sixA sixB, mkCandidate 4 sixA sixB,
      mkCandidate 5 sixA sixB], Candidate.score c = score_pair sixA sixB := by
    intro c hc
    simp only [List.mem_cons, List.not_mem_nil, or_false] at hc
    rcases hc with rfl | rfl | rfl | rfl | rfl | rfl <;> exact mkCandidate_score _ _ _
  have hall5 : ∀ c ∈ [mkCandidate 0 sixA sixB, mkCandidate 1 sixA sixB,
      mkCandidate 2 sixA sixB, mkCandidate 3 sixA sixB, mkCandidate 4 sixA sixB],
      Candidate.score c = score_pair sixA sixB := by
    intro c hc
    simp only [List.mem_cons, List.not_mem_nil, or_false] at hc
    rcases hc with rfl | rfl | rfl | rfl | rfl <;> exact mkCandidate_score _ _ _
  have hgroup : groupPairs [mkCandidate 0 sixA sixB, mkCandidate 1 sixA sixB,
      mkCandidate 2 sixA sixB, mkCandidate 3 sixA sixB, mkCandidate 4 sixA sixB,
      mkCandidate 5 sixA sixB] =
      [(("A", "B"), [mkCandidate 0 sixA sixB, mkCandidate 1 sixA sixB,
        mkCandidate 2 sixA sixB, mkCandidate 3 sixA sixB, mkCandidate 4 sixA sixB,
        mkCandidate 5 sixA sixB])] := by
    simp only [groupPairs, groupByKey, List.foldl_cons, List.foldl_nil, six_pair_key,
      addToGroup, if_pos]
    rfl
  show (sortDescBy Candidate.score (((groupPairs (candidates sixEntities)).map
      (fun b => (sortDescBy Candidate.score b.2).take REL_MAX_PER_ENTITY_PAIR)).flatten)).take
      REL_MAX_CANDIDATES = _
  rw [six_candidates, hgroup, List.map_cons, List.map_nil, List.flatten_cons,
    List.flatten_nil, List.append_nil,
    sortDescBy_const Candidate.score (score_pair sixA sixB) _ hall]
  show (sortDescBy Candidate.score [mkCandidate 0 sixA sixB, mkCandidate 1 sixA sixB,
    mkCandidate 2 sixA sixB, mkCandidate 3 sixA sixB,
    mkCandidate 4 sixA sixB]).take REL_MAX_CANDIDATES = _
  rw [sortDescBy_const Candidate.score (score_pair sixA sixB) _ hall5]
  rfl

/-- C6.  Under the default limits, the list handed to the classifier has at
most 300 candidates, is sorted by score descending, holds at most 5
candidates per unordered entity pair, and those are the top-scoring ones:
every generated candidate left out is score-dominated by every kept
candidate of its pair, and every kept candidate is a generated one. -/
theorem candidate_caps (es : List CEntity) :
    (flat_candidates es).length ≤ REL_MAX_CANDIDATES ∧
    (flat_candidates es).Pairwise (fun c d => d.score ≤ c.score) ∧
    (∀ p : String × String,
      (flat_candidates es).countP (fun c => pair_key c = p) ≤ REL_MAX_PER_ENTITY_PAIR) ∧
    (∀ c ∈ candidates es, c ∉ flat_candidates es →
      ∀ d ∈ flat_candidates es, pair_key d = pair_key c → c.score ≤ d.score) ∧
    (∀ d ∈ flat_candidates es, d ∈ candidates es) := by
  refine ⟨?_, ?_, ?_, ?_, ?_⟩
  · exact List.length_take_le _ _
  · exact List.Pairwise.sublist (List.take_sublist _ _) (sortDescBy_pairwise _ _)
  · intro p
    have hkeyed : ∀ k l, (k, l) ∈ groupPairs (candidates es) → ∀ c ∈ l, pair_key c = k := by
      intro k l hkl c hc
      have := groupByKey_bucket_eq hkl
      subst this
      exact of_decide_eq_true (List.mem_filter.mp hc).2
    calc (flat_candidates es).countP (fun c => pair_key c = p)
        ≤ ((sortDescBy Candidate.score
            ((groupPairs (candidates es)).map
              (fun b => (sortDescBy Candidate.score b.2).take REL_MAX_PER_ENTITY_PAIR)).flatten).countP
            (fun c => pair_key c = p)) :=
          List.Sublist.countP_le _ (List.take_sublist _ _)
      _ = (((groupPairs (candidates es)).map
              (fun b => (sortDescBy Candidate.score b.2).take REL_MAX_PER_ENTITY_PAIR)).flatten.countP
            (fun c => pair_key c = p)) :=
          (sortDescBy_perm _ _).countP_eq _
      _ ≤ REL_MAX_PER_ENTITY_PAIR :=
          count_buckets_aux p _ _ (groupByKey_keys_nodup _ _) hkeyed
  · intro c hcK hcnot d hd hpk
    by_cases hcf : c ∈ ((groupPairs (candidates es)).map
        (fun b => (sortDescBy Candidate.score b.2).take REL_MAX_PER_ENTITY_PAIR)).flatten
    · have hcs : c ∈ sortDescBy Candidate.score (((groupPairs (candidates es)).map
          (fun b => (sortDescBy Candidate.score b.2).take REL_MAX_PER_ENTITY_PAIR)).flatten) :=
        (sortDescBy_perm _ _).mem_iff.mpr hcf
      have hcd : c ∈ (sortDescBy Candidate.score (((groupPairs (candidates es)).map
          (fun b => (sortDescBy Candidate.score b.2).take REL_MAX_PER_ENTITY_PAIR)).flatten)).drop
          REL_MAX_CANDIDATES := by
        have hcs2 : c ∈ (sortDescBy Candidate.score (((groupPairs (candidates es)).map
            (fun b => (sortDescBy Candidate.score b.2).take REL_MAX_PER_ENTITY_PAIR)).flatten)).take
            REL_MAX_CANDIDATES ++ (sortDescBy Candidate.score (((groupPairs (candidates es)).map
            (fun b => (sortDescBy Candidate.score b.2).take REL_MAX_PER_ENTITY_PAIR)).flatten)).drop
            REL_MAX_CANDIDATES := by
          rw [List.take_append_drop]
          exact hcs
        rcases List.mem_append.mp hcs2 with h1 | h1
        · exact absurd h1 hcnot
        · exact h1
      exact sorted_take_drop_le Candidate.score (sortDescBy_pairwise _ _)
        REL_MAX_CANDIDATES hd hcd
    · have hfilter : c ∈ (candidates es).filter (fun x => pair_key x = pair_key c) :=
        List.mem_filter.mpr ⟨hcK, decide_eq_true rfl⟩
      have hlook : lookupG (groupPairs (candidates es)) (pair_key c) =
          some ((candidates es).filter (fun x => pair_key x = pair_key c)) := by
        rw [groupPairs, lookupG_groupByKey]
        cases hf : (candidates es).filter (fun x => pair_key x = pair_key c) with
        | nil => rw [hf] at hfilter; cases hfilter
        | cons y t => rfl
      have hklG : (pair_key c, (candidates es).filter (fun x => pair_key x = pair_key c)) ∈
          groupPairs (candidates es) := lookupG_mem hlook
      have hcnotake : c ∉ (sortDescBy Candidate.score
          ((candidates es).filter (fun x => pair_key x = pair_key c))).take
          REL_MAX_PER_ENTITY_PAIR := by
        intro hctk
        exact hcf (List.mem_flatten.mpr ⟨_, List.mem_map.mpr ⟨_, hklG, rfl⟩, hctk⟩)
      have hcsorted : c ∈ sortDescBy Candidate.score
          ((candidates es).filter (fun x => pair_key x = pair_key c)) :=
        (sortDescBy_perm _ _).mem_iff.mpr hfilter
      have hcdrop : c ∈ (sortDescBy Candidate.score
          ((candidates es).filter (fun x => pair_key x = pair_key c))).drop
          REL_MAX_PER_ENTITY_PAIR := by
        have hcs2 : c ∈ (sortDescBy Candidate.score
            ((candidates es).filter (fun x => pair_key x = pair_key c))).take
            REL_MAX_PER_ENTITY_PAIR ++ (sortDescBy Candidate.score
            ((candidates es).filter (fun x => pair_key x = pair_key c))).drop
            REL_MAX_PER_ENTITY_PAIR := by
          rw [List.take_append_drop]
          exact hcsorted
        rcases List.mem_append.mp hcs2 with h1 | h1
        · exact absurd h1 hcnotake
        · exact h1
      have hd2 := (sortDescBy_perm _ _).mem_iff.mp (List.mem_of_mem_take hd)
      rcases List.mem_flatten.mp hd2 with ⟨s, hs, hds⟩
      rcases List.mem_map.mp hs with ⟨⟨k, l⟩, hkl, rfl⟩
      have hdl : d ∈ l := (sortDescBy_perm _ _).mem_iff.mp (List.mem_of_mem_take hds)
      have hleq := groupByKey_bucket_eq hkl
      have hdk : pair_key d = k := by
        rw [hleq] at hdl
        exact of_decide_eq_true (List.mem_filter.mp hdl).2
      have hkk : k = pair_key c := hdk.symm.trans hpk
      subst hkk
      rw [hleq] at hds
      exact sorted_take_drop_le Candidate.score (sortDescBy_pairwise _ _)
        REL_MAX_PER_ENTITY_PAIR hds hcdrop
  · intro d hd
    have hd2 := (sortDescBy_perm _ _).mem_iff.mp (List.mem_of_mem_take hd)
    rcases List.mem_flatten.mp hd2 with ⟨s, hs, hds⟩
    rcases List.mem_map.mp hs with ⟨⟨k, l⟩, hkl, rfl⟩
    have hdl : d ∈ l := (sortDescBy_perm _ _).mem_iff.mp (List.mem_of_mem_take hds)
    have hleq := groupByKey_bucket_eq hkl
    rw [hleq] at hdl
    exact (List.mem_filter.mp hdl).1

/-- C6 witness: on the six-candidate demo graph the sixth same-pair
candidate is generated but dropped, and the theorem dominates it by the
kept first candidate of the same pair. -/
theorem candidate_caps_witness :
    mkCandidate 5 sixA sixB ∈ candidates sixEntities ∧
    mkCandidate 5 sixA sixB ∉ flat_candidates sixEntities ∧
    mkCandidate 0 sixA sixB ∈ flat_candidates sixEntities ∧
    pair_key (mkCandidate 0 sixA sixB) = pair_key (mkCandidate 5 sixA sixB) ∧
    (mkCandidate 5 sixA sixB).score ≤ (mkCandidate 0 sixA sixB).score ∧
    mkCandidate 0 sixA sixB ∈ candidates sixEntities := by
  have hmem5 : mkCandidate 5 sixA sixB ∈ candidates sixEntities := by
    rw [six_candidates]
    exact List.mem_cons_of_mem _ (List.mem_cons_of_mem _ (List.mem_cons_of_mem _
      (List.mem_cons_of_mem _ (List.mem_cons_of_mem _ (List.mem_cons_self _ _)))))
  have hnot5 : mkCandidate 5 sixA sixB ∉ flat_candidates sixEntities := by
    rw [six_flat]
    intro hm
    simp only [List.mem_cons, List.not_mem_nil, or_false] at hm
    rcases hm with h | h | h | h | h <;>
      exact absurd (congrArg Candidate.pair_id h) (by decide)
  have hmem0 : mkCandidate 0 sixA sixB ∈ flat_candidates sixEntities := by
    rw [six_flat]
    exact List.mem_cons_self _ _
  have hkey : pair_key (mkCandidate 0 sixA sixB) = pair_key (mkCandidate 5 sixA sixB) :=
    (six_pair_key 0).trans (six_pair_key 5).symm
  exact ⟨hmem5, hnot5, hmem0, hkey,
    (candidate_caps sixEntities).2.2.2.1 (mkCandidate 5 sixA sixB) hmem5 hnot5
      (mkCandidate 0 sixA sixB) hmem0 hkey,
    (candidate_caps sixEntities).2.2.2.2 (mkCandidate 0 sixA sixB) hmem0⟩

theorem cand_by_id_mem {cands : List Candidate} {pid : Int} {c : Candidate}
    (h : cand_by_id cands pid = some c) : c ∈ cands := by
  have := List.mem_of_find?_eq_some h
  exact List.mem_reverse.mp this

theorem relationships_out_spec (threshold : Rat) (cands : List Candidate) :
    ∀ (items : List RelItem) (dedup : List (String × String × String × String)),
    (∀ r ∈ relationships_out threshold cands items dedup,
      (threshold ≤ r.confidence ∧
        ∃ c ∈ cands, ∃ it ∈ items, it.accept = true ∧
          (∃ pid : Int, it.pair_id = some pid ∧ cand_by_id cands pid = some c) ∧
          r.from_entity = c.from_entity ∧ r.to_entity = c.to_entity ∧
          r.join_on = [(c.from_field, c.to_field)] ∧
          r.confidence = it.confidence.getD 0) ∧
      out_key r ∉ dedup) ∧
    (relationships_out threshold cands items dedup).Pairwise
      (fun r1 r2 => out_key r1 ≠ out_key r2) := by
  intro items
  induction items with
  | nil =>
    intro dedup
    refine ⟨?_, ?_⟩
    · intro r hr
      simp [relationships_out] at hr
    · simp [relationships_out]
  | cons it rest ih =>
    intro dedup
    by_cases hacc : it.accept
    · cases hpid : it.pair_id with
      | none =>
        have heq : relationships_out threshold cands (it :: rest) dedup =
            relationships_out threshold cands rest dedup := by
          rw [relationships_out, hpid]
          simp [hacc]
        rw [heq]
        refine ⟨fun r hr => ?_, (ih dedup).2⟩
        obtain ⟨⟨h1, c, hc, it', hit', hrest⟩, h3⟩ := ((ih dedup).1 r hr)
        exact ⟨⟨h1, c, hc, it', List.mem_cons_of_mem _ hit', hrest⟩, h3⟩
      | some pid =>
        cases hc : cand_by_id cands pid with
        | none =>
          have heq : relationships_out threshold cands (it :: rest) dedup =
              relationships_out threshold cands rest dedup := by
            rw [relationships_out, hpid]
            simp [hacc, hc]
          rw [heq]
          refine ⟨fun r hr => ?_, (ih dedup).2⟩
          obtain ⟨⟨h1, c, hcc, it', hit', hrest⟩, h3⟩ := ((ih dedup).1 r hr)
          exact ⟨⟨h1, c, hcc, it', List.mem_cons_of_mem _ hit', hrest⟩, h3⟩
        | some c =>
          by_cases hconf : it.confidence.getD 0 < threshold
          · have heq : relationships_out threshold cands (it :: rest) dedup =
                relationships_out threshold cands rest dedup := by
              rw [relationships_out, hpid]
              simp [hacc, hc, hconf]
            rw [heq]
            refine ⟨fun r hr => ?_, (ih dedup).2⟩
            obtain ⟨⟨h1, c', hcc, it', hit', hrest⟩, h3⟩ := ((ih dedup).1 r hr)
            exact ⟨⟨h1, c', hcc, it', List.mem_cons_of_mem _ hit', hrest⟩, h3⟩
          · by_cases hdk : dedup_key c ∈ dedup
            · have heq : relationships_out threshold cands (it :: rest) dedup =
                  relationships_out threshold cands rest dedup := by
                rw [relationships_out, hpid]
                simp [hacc, hc, hconf, hdk]
              rw [heq]
              refine ⟨fun r hr => ?_, (ih dedup).2⟩
              obtain ⟨⟨h1, c', hcc, it', hit', hrest⟩, h3⟩ := ((ih dedup).1 r hr)
              exact ⟨⟨h1, c', hcc, it', List.mem_cons_of_mem _ hit', hrest⟩, h3⟩
            · have heq : relationships_out threshold cands (it :: rest) dedup =
                  mkRelOut it c
                    :: relationships_out threshold cands rest (dedup_key c :: dedup) := by
                rw [relationships_out, hpid]
                simp [hacc, hc, hconf, hdk]
              rw [heq]
              have hr0key : out_key (mkRelOut it c) = dedup_key c := rfl
              constructor
              · intro r hr
                rcases List.mem_cons.mp hr with rfl | hr'
                · refine ⟨⟨not_lt.mp hconf, c, cand_by_id_mem hc, it,
                    List.mem_cons_self _ _, hacc, ⟨pid, hpid, hc⟩, rfl, rfl, rfl, rfl⟩, ?_⟩
                  rw [hr0key]
                  exact hdk
                · obtain ⟨⟨h1, c', hcc, it', hit', hrest⟩, h3⟩ :=
                    ((ih (dedup_key c :: dedup)).1 r hr')
                  refine ⟨⟨h1, c', hcc, it', List.mem_cons_of_mem _ hit', hrest⟩, ?_⟩
                  exact fun hmem => h3 (List.mem_cons_of_mem _ hmem)
              · refine List.pairwise_cons.mpr ⟨fun r hr => ?_, (ih (dedup_key c :: dedup)).2⟩
                rw [hr0key]
                have h3 := ((ih (dedup_key c :: dedup)).1 r hr).2
                intro hkeq
                exact h3 (hkeq ▸ List.mem_cons_self _ _)
    · have heq : relationships_out threshold cands (it :: rest) dedup =
          relationships_out threshold cands rest dedup := by
        rw [relationships_out]
        simp [hacc]
      rw [heq]
      refine ⟨fun r hr => ?_, (ih dedup).2⟩
      obtain ⟨⟨h1, c, hc, it', hit', hrest⟩, h3⟩ := ((ih dedup).1 r hr)
      exact ⟨⟨h1, c, hc, it', List.mem_cons_of_mem _ hit', hrest⟩, h3⟩

/-- The output loop is exactly a first-occurrence-wins dedup of the
relationships the accepted, resolvable, above-threshold rows contribute in
row order. -/
theorem relationships_out_eq_keepFirst (threshold : Rat) (cands : List Candidate) :
    ∀ (items : List RelItem) (dedup : List (String × String × String × String)),
    relationships_out threshold cands items dedup =
      keepFirstByKey out_key (items.filterMap (rowRel threshold cands)) dedup := by
  intro items
  induction items with
  | nil => intro dedup; rfl
  | cons it rest ih =>
    intro dedup
    by_cases hacc : it.accept
    · cases hpid : it.pair_id with
      | none =>
        have hL : relationships_out threshold cands (it :: rest) dedup =
            relationships_out threshold cands rest dedup := by
          rw [relationships_out, hpid]
          simp [hacc]
        have h2 : rowRel threshold cands it = none := by
          rw [rowRel, hpid]
          simp [hacc]
        rw [hL, List.filterMap_cons, h2]
        exact ih dedup
      | some pid =>
        cases hc : cand_by_id cands pid with
        | none =>
          have hL : relationships_out threshold cands (it :: rest) dedup =
              relationships_out threshold cands rest dedup := by
            rw [relationships_out, hpid]
            simp [hacc, hc]
          have h2 : rowRel threshold cands it = none := by
            rw [rowRel, hpid]
            simp [hacc, hc]
          rw [hL, List.filterMap_cons, h2]
          exact ih dedup
        | some c =>
          by_cases hconf : it.confidence.getD 0 < threshold
          · have hL : relationships_out threshold cands (it :: rest) dedup =
                relationships_out threshold cands rest dedup := by
              rw [relationships_out, hpid]
              simp [hacc, hc, hconf]
            have h2 : rowRel threshold cands it = none := by
              rw [rowRel, hpid]
              simp [hacc, hc, hconf]
            rw [hL, List.filterMap_cons, h2]
            exact ih dedup
          · have h2 : rowRel threshold cands it = some (mkRelOut it c) := by
              rw [rowRel, hpid]
              simp [hacc, hc, hconf]
            rw [List.filterMap_cons, h2]
            by_cases hdk : dedup_key c ∈ dedup
            · have hL : relationships_out threshold cands (it :: rest) dedup =
                  relationships_out threshold cands rest dedup := by
                rw [relationships_out, hpid]
                simp [hacc, hc, hconf, hdk]
              have hR : keepFirstByKey out_key
                  (mkRelOut it c :: rest.filterMap (rowRel threshold cands)) dedup =
                  keepFirstByKey out_key (rest.filterMap (rowRel threshold cands)) dedup := by
                rw [keepFirstByKey]
                exact if_pos hdk
              rw [hL, hR]
              exact ih dedup
            · have hL : relationships_out threshold cands (it :: rest) dedup =
                  mkRelOut it c ::
                    relationships_out threshold cands rest (dedup_key c :: dedup) := by
                rw [relationships_out, hpid]
                simp [hacc, hc, hconf, hdk]
              have hR : keepFirstByKey out_key
                  (mkRelOut it c :: rest.filterMap (rowRel threshold cands)) dedup =
                  mkRelOut it c :: keepFirstByKey out_key
                    (rest.filterMap (rowRel threshold cands))
                    (out_key (mkRelOut it c) :: dedup) := by
                rw [keepFirstByKey]
                exact if_neg hdk
              rw [hL, hR]
              exact congrArg (List.cons (mkRelOut it c)) (ih (dedup_key c :: dedup))
    · have hL : relationships_out threshold cands (it :: rest) dedup =
          relationships_out threshold cands rest dedup := by
        rw [relationships_out]
        simp [hacc]
      have h2 : rowRel threshold cands it = none := by
        rw [rowRel]
        simp [hacc]
      rw [hL, List.filterMap_cons, h2]
      exact ih dedup

/-- C7.  Every output relationship resolves by `pair_id` to a generated
candidate (taking its entities and join fields from it), comes from an
accepted row whose confidence clears the threshold, no two outputs share
the same case-insensitive `(from_entity, from_field, to_entity, to_field)`
4-tuple, and the output is exactly the first-occurrence-wins dedup of the
surviving rows' relationships in row order. -/
theorem classifier_postcondition (threshold : Rat) (cands : List Candidate)
    (items : List RelItem) :
    (∀ r ∈ relationships_out threshold cands items [],
      threshold ≤ r.confidence ∧
        ∃ c ∈ cands, ∃ it ∈ items, it.accept = true ∧
          (∃ pid : Int, it.pair_id = some pid ∧ cand_by_id cands pid = some c) ∧
          r.from_entity = c.from_entity ∧ r.to_entity = c.to_entity ∧
          r.join_on = [(c.from_field, c.to_field)] ∧
          r.confidence = it.confidence.getD 0) ∧
    (relationships_out threshold cands items []).Pairwise
      (fun r1 r2 => out_key r1 ≠ out_key r2) ∧
    relationships_out threshold cands items [] =
      keepFirstByKey out_key (items.filterMap (rowRel threshold cands)) [] := by
  obtain ⟨h1, h2⟩ := relationships_out_spec threshold cands items []
  exact ⟨fun r hr => (h1 r hr).1, h2, relationships_out_eq_keepFirst threshold cands items []⟩

/-- C7 witness: with threshold 0, an accepted row with `pair_id` 0 and
confidence 1 resolves to the demo candidate and survives. -/
theorem classifier_postcondition_witness :
    relationships_out 0 [demoCand] [⟨true, some 0, "", some 1, ""⟩] []
        = [mkRelOut ⟨true, some 0, "", some 1, ""⟩ demoCand] ∧
    (0 : Rat) ≤ (mkRelOut ⟨true, some 0, "", some 1, ""⟩ demoCand).confidence := by
  have hout : relationships_out 0 [demoCand] [⟨true, some 0, "", some 1, ""⟩] []
      = [mkRelOut ⟨true, some 0, "", some 1, ""⟩ demoCand] := rfl
  refine ⟨hout, ?_⟩
  have h := (classifier_postcondition 0 [demoCand] [⟨true, some 0, "", some 1, ""⟩]).1
    (mkRelOut ⟨true, some 0, "", some 1, ""⟩ demoCand)
    (by rw [hout]; exact List.mem_singleton_self _)
  exact h.1

/-- C9 counterexample: a `relations`-shaped document with one column yields
zero entities and an empty manifest — the code has no `relations` branch,
refuting the claim that all four advertised shapes are accepted. -/
theorem manifest_builder_counterexample :
    extract_entities relationsDoc = some [] ∧
    build_manifest [("c1", relationsDoc)] = some [] :=
  ⟨rfl, rfl⟩

/-- A mapM over `Option` fails as soon as one element fails. -/
theorem mapM_eq_none_of_mem {α β : Type} {f : α → Option β} {l : List α} {a : α}
    (ha : a ∈ l) (hf : f a = none) : l.mapM f = none := by
  induction l with
  | nil => cases ha
  | cons b t ih =>
    rcases List.mem_cons.mp ha with rfl | ha2
    · rw [List.mapM_cons, hf]
      rfl
    · simp only [List.mapM_cons, ih ha2]
      cases hfb : f b <;> rfl

/-- A string-valued column makes the column loop fail wherever it sits. -/
theorem mapM_colField_str (pre post : List JVal) (x : String) :
    (pre ++ JVal.str x :: post).mapM colField = none := by
  induction pre with
  | nil =>
    rw [List.nil_append, List.mapM_cons]
    rfl
  | cons b t ih =>
    rw [List.cons_append]
    simp only [List.mapM_cons, ih]
    cases hfb : colField b <;> rfl

/-- C9 (amended).  The builder accepts `entities`-shaped documents unchanged
— bare or wrapped in a `schema` envelope — and `tables`/`files` documents:
each well-formed table yields one entity named `schema.table` with one
`\x7bname, type\x7d` field per object column, each file an entity with no
fields; `schemas`/`relations` shapes yield no entities; a string-valued
column makes the tables branch fail; and the manifest loop assigns strictly
increasing integer ids from 0 with a correct reverse lookup. -/
theorem manifest_builder_amended :
    (∀ (flds : List (String × JVal)) (es : List JVal),
      lookupJ flds "schema" = none → lookupJ flds "entities" = some (.arr es) →
      extract_entities (.obj flds) = some es) ∧
    (∀ (flds g : List (String × JVal)) (es : List JVal),
      lookupJ flds "schema" = some (.obj g) → lookupJ g "entities" = some (.arr es) →
      extract_entities (.obj flds) = some es) ∧
    (∀ (flds : List (String × JVal)) (ts fs as bs : List JVal),
      lookupJ flds "schema" = none → lookupJ flds "entities" = none →
      lookupJ flds "tables" = some (.arr ts) → lookupJ flds "files" = some (.arr fs) →
      ts.mapM tableEntity = some as → fs.mapM fileEntity = some bs →
      extract_entities (.obj flds) = some (as ++ bs)) ∧
    (∀ (l : List (String × JVal)) (cs gs : List JVal),
      jGet (.obj l) "columns" = some (.arr cs) → cs.mapM colField = some gs →
      tableEntity (.obj l) = some (.obj
        [("id", .str (pyStr (jGet (.obj l) "schema") ++ "." ++ pyStr (jGet (.obj l) "table"))),
         ("name", .str (pyStr (jGet (.obj l) "schema") ++ "." ++ pyStr (jGet (.obj l) "table"))),
         ("kind", .str "table"), ("fields", .arr gs)])) ∧
    (∀ cl : List (String × JVal), colField (.obj cl) = some (.obj
        [("name", (jGet (.obj cl) "name").getD .null),
         ("type", (jGet (.obj cl) "type").getD .null)])) ∧
    (∀ fl : List (String × JVal), fileEntity (.obj fl) = some (.obj
        [("id", (jGet (.obj fl) "id").getD .null),
         ("name", (jGet (.obj fl) "name").getD .null),
         ("kind", .str "file"), ("fields", .arr [])])) ∧
    (∀ v : JVal, extract_entities (.obj [("schemas", v)]) = some []) ∧
    (∀ v : JVal, extract_entities (.obj [("relations", v)]) = some []) ∧
    (∀ (l : List (String × JVal)) (pre post : List JVal) (x : String),
      jGet (.obj l) "columns" = some (.arr (pre ++ JVal.str x :: post)) →
      tableEntity (.obj l) = none) ∧
    (∀ (flds : List (String × JVal)) (ts : List JVal) (tb : JVal),
      lookupJ flds "schema" = none → lookupJ flds "entities" = none →
      lookupJ flds "tables" = some (.arr ts) → tb ∈ ts → tableEntity tb = none →
      extract_entities (.obj flds) = none) ∧
    (∀ (docs : List (String × JVal)) (man : List ManifestEntry),
      build_manifest docs = some man →
      man.map ManifestEntry.mid = List.range man.length) ∧
    (∀ (docs : List (String × JVal)) (man : List ManifestEntry),
      build_manifest docs = some man →
      ∀ e ∈ man, mid_lookup man (e.mid : Int) = some e) := by
  have hmap : ∀ (docs : List (String × JVal)) (man : List ManifestEntry),
      build_manifest docs = some man →
      man.map ManifestEntry.mid = List.range man.length := by
    intro docs man h
    unfold build_manifest at h
    cases hrecs : (docs.mapM (fun d => docFieldRecs d.1 d.2)).map List.flatten with
    | none => rw [hrecs] at h; simp at h
    | some l =>
      rw [hrecs] at h
      simp only [Option.map_some', Option.some.injEq] at h
      subst h
      rw [List.map_map, List.length_map]
      have : (ManifestEntry.mid ∘ fun p : Nat × FieldRec =>
          ({ mid := p.1, connector_id := p.2.connector_id,
             source_entity := p.2.source_entity, source_field := p.2.source_field,
             declared_type := p.2.declared_type } : ManifestEntry)) = Prod.fst := by
        funext p; rfl
      rw [this, List.enum_map_fst, List.enum_length]
  refine ⟨?_, ?_, ?_, ?_, ?_, ?_, ?_, ?_, ?_, ?_, hmap, ?_⟩
  · intro flds es h1 h2
    unfold extract_entities
    simp only [jGet, h1, h2, Option.getD_none]
  · intro flds g es h1 h2
    unfold extract_entities
    simp only [jGet, h1, h2, Option.getD_some]
  · intro flds ts fs as bs h1 h2 h3 h4 h5 h6
    unfold extract_entities
    simp only [jGet, h1, h2, h3, h4, h5, h6, Option.getD_none, Option.some_bind,
      Option.map_some']
  · intro l cs gs h1 h2
    unfold tableEntity
    simp only [jGet] at h1
    simp only [jGet, h1, pyIterList, Option.some_bind, h2, Option.map_some']
  · intro cl
    rfl
  · intro fl
    rfl
  · intro v
    rfl
  · intro v
    rfl
  · intro l pre post x h1
    unfold tableEntity
    simp only [jGet] at h1
    simp only [jGet, h1, pyIterList, Option.some_bind, mapM_colField_str, Option.map_none']
  · intro flds ts tb h1 h2 h3 htb hnone
    unfold extract_entities
    simp only [jGet, h1, h2, h3, Option.getD_none, mapM_eq_none_of_mem htb hnone,
      Option.none_bind]
  · intro docs man h e he
    have hm := hmap docs man h
    obtain ⟨⟨i, hi⟩, hget⟩ := List.mem_iff_get.mp he
    have hgi : man.get? i = some e := by
      rw [List.get?_eq_get hi, hget]
    have hmid : e.mid = i := by
      have h1 : (man.map ManifestEntry.mid).get? i = some e.mid := by
        rw [List.get?_map, hgi]; rfl
      rw [hm, List.get?_range (by simpa using hi)] at h1
      simpa using h1.symm
    rw [mid_lookup, if_neg (by simp), hmid]
    simpa using hgi

/-- C9 witness: bare and `schema`-wrapped `entities` documents pass
through, a tables+files document yields the table entity and the field-less
file entity, a string column fails the tables branch (and the whole
extraction), and the one-field demo manifest carries mid 0 with working
reverse lookup. -/
theorem manifest_builder_amended_witness :
    extract_entities (.obj [("entities", .arr [])]) = some [] ∧
    extract_entities wrappedDoc = some [] ∧
    extract_entities tablesFilesDoc = some ([demoTableEnt] ++ [demoFileEnt]) ∧
    tableEntity demoTable = some demoTableEnt ∧
    tableEntity badTable = none ∧
    extract_entities badTablesDoc = none ∧
    [demoBuiltEntry].map ManifestEntry.mid = List.range ([demoBuiltEntry].length) ∧
    mid_lookup [demoBuiltEntry] (demoBuiltEntry.mid : Int) = some demoBuiltEntry := by
  refine ⟨?_, ?_, ?_, ?_, ?_, ?_, ?_, ?_⟩
  · exact manifest_builder_amended.1 [("entities", .arr [])] [] rfl rfl
  · exact manifest_builder_amended.2.1 [("schema", .obj [("entities", .arr [])])]
      [("entities", .arr [])] [] rfl rfl
  · exact manifest_builder_amended.2.2.1
      [("tables", .arr [demoTable]), ("files", .arr [demoFile])]
      [demoTable] [demoFile] [demoTableEnt] [demoFileEnt] rfl rfl rfl rfl rfl rfl
  · exact manifest_builder_amended.2.2.2.1 demoTblFields
      [.obj [("name", .str "c"), ("type", .str "int")]]
      [.obj [("name", .str "c"), ("type", .str "int")]] rfl rfl
  · exact manifest_builder_amended.2.2.2.2.2.2.2.2.1
      [("columns", .arr [.str "a"])] [] [] "a" rfl
  · exact manifest_builder_amended.2.2.2.2.2.2.2.2.2.1
      [("tables", .arr [badTable])] [badTable] badTable rfl rfl rfl
      (List.mem_singleton_self _)
      (manifest_builder_amended.2.2.2.2.2.2.2.2.1
        [("columns", .arr [.str "a"])] [] [] "a" rfl)
  · exact manifest_builder_amended.2.2.2.2.2.2.2.2.2.2.1
      [("c1", entitiesDoc)] [demoBuiltEntry] rfl
  · exact manifest_builder_amended.2.2.2.2.2.2.2.2.2.2.2
      [("c1", entitiesDoc)] [demoBuiltEntry] rfl
      demoBuiltEntry (List.mem_singleton_self _)

theorem mem_graph_triples {es : List CEntity} {p : String × String × String} :
    p ∈ graph_triples es ↔
      ∃ e ∈ es, ∃ f ∈ e.fields, ∃ m ∈ f.mappings, tripleOfMapping m = p := by
  unfold graph_triples
  constructor
  · intro hp
    rcases List.mem_flatten.mp hp with ⟨s, hs, hps⟩
    rcases List.mem_map.mp hs with ⟨e, he, rfl⟩
    rcases List.mem_flatten.mp hps with ⟨s2, hs2, hps2⟩
    rcases List.mem_map.mp hs2 with ⟨f, hf, rfl⟩
    rcases List.mem_map.mp hps2 with ⟨m, hm, rfl⟩
    exact ⟨e, he, f, hf, m, hm, rfl⟩
  · rintro ⟨e, he, f, hf, m, hm, rfl⟩
    refine List.mem_flatten.mpr ⟨_, List.mem_map.mpr ⟨e, he, rfl⟩, ?_⟩
    refine List.mem_flatten.mpr ⟨_, List.mem_map.mpr ⟨f, hf, rfl⟩, ?_⟩
    exact List.mem_map.mpr ⟨m, hm, rfl⟩

theorem mem_covered_ids {man : List ManifestEntry} {resp : List ClusterEntity} {i : Int} :
    i ∈ covered_ids man resp ↔
      ∃ e ∈ resp, ∃ f ∈ e.fields, i ∈ f.mapping_ids ∧ (mid_lookup man i).isSome := by
  unfold covered_ids
  constructor
  · intro hp
    rcases List.mem_flatten.mp hp with ⟨s, hs, hps⟩
    rcases List.mem_map.mp hs with ⟨e, he, rfl⟩
    rcases List.mem_flatten.mp hps with ⟨s2, hs2, hps2⟩
    rcases List.mem_map.mp hs2 with ⟨f, hf, rfl⟩
    rcases List.mem_filter.mp hps2 with ⟨hmem, hsome⟩
    exact ⟨e, he, f, hf, hmem, by simpa using hsome⟩
  · rintro ⟨e, he, f, hf, hmem, hsome⟩
    refine List.mem_flatten.mpr ⟨_, List.mem_map.mpr ⟨e, he, rfl⟩, ?_⟩
    refine List.mem_flatten.mpr ⟨_, List.mem_map.mpr ⟨f, hf, rfl⟩, ?_⟩
    exact List.mem_filter.mpr ⟨hmem, by simpa using hsome⟩

/-- C1.  After mapping-id expansion and the Unassigned repair, the reachable
`(connector_id, source_entity, source_field)` triples are exactly the
manifest triples, whatever the clustering response; in particular all N
manifest ids are covered. -/
theorem coverage_invariant (man : List ManifestEntry) (resp : List ClusterEntity) :
    (∀ t ∈ man, tripleOfEntry t ∈ graph_triples (expand_and_repair man resp)) ∧
    (∀ p ∈ graph_triples (expand_and_repair man resp), ∃ t ∈ man, tripleOfEntry t = p) ∧
    (List.range man.length).countP (is_covered (expand_and_repair man resp) man)
      = man.length := by
  have hforward : ∀ t ∈ man, tripleOfEntry t ∈ graph_triples (expand_and_repair man resp) := by
    intro t ht
    obtain ⟨⟨i, hi⟩, hget⟩ := List.mem_iff_get.mp ht
    have hlook : mid_lookup man (i : Int) = some t := by
      rw [mid_lookup, if_neg (by simp)]
      simpa using (List.get?_eq_get hi).trans (by rw [hget])
    by_cases hc : (i : Int) ∈ covered_ids man resp
    · rcases mem_covered_ids.mp hc with ⟨e, he, f, hf, hmem, -⟩
      have hmap : toMappingOf t ∈ (expandField man f).mappings :=
        List.mem_filterMap.mpr ⟨(i : Int), hmem, by rw [hlook]; rfl⟩
      have hgr : tripleOfEntry t ∈ graph_triples (expand_entities man resp) := by
        refine mem_graph_triples.mpr ⟨_, List.mem_map.mpr ⟨e, he, rfl⟩, expandField man f,
          List.mem_map.mpr ⟨f, hf, rfl⟩, toMappingOf t, hmap, rfl⟩
      unfold expand_and_repair
      by_cases hm : (missing_ids man (covered_ids man resp)).isEmpty
      · rw [if_pos hm]; exact hgr
      · rw [if_neg hm]
        rcases mem_graph_triples.mp hgr with ⟨e2, he2, rest⟩
        exact mem_graph_triples.mpr ⟨e2, List.mem_append_left _ he2, rest⟩
    · have hmiss : i ∈ missing_ids man (covered_ids man resp) :=
        List.mem_filter.mpr ⟨List.mem_range.mpr hi, by simpa using hc⟩
      have hne : ¬ (missing_ids man (covered_ids man resp)).isEmpty := by
        intro h
        rw [List.isEmpty_iff] at h
        rw [h] at hmiss
        simp at hmiss
      unfold expand_and_repair
      rw [if_neg hne]
      set missing := missing_ids man (covered_ids man resp) with hmissing
      have hsrc : srcOfMid man i = t.source_entity := by
        rw [srcOfMid, hlook]
      have hifilter : i ∈ missing.filter (fun m => srcOfMid man m = t.source_entity) :=
        List.mem_filter.mpr ⟨hmiss, by simp [hsrc]⟩
      have hbucket : lookupG (groupByKey (srcOfMid man) missing) t.source_entity
          = some (missing.filter (fun m => srcOfMid man m = t.source_entity)) := by
        rw [lookupG_groupByKey]
        cases hfil : missing.filter (fun m => srcOfMid man m = t.source_entity) with
        | nil => rw [hfil] at hifilter; simp at hifilter
        | cons x xs => rfl
      have hbmem := lookupG_mem hbucket
      have hfallback : fallback_field man t.source_entity
          (missing.filter (fun m => srcOfMid man m = t.source_entity))
          ∈ (unassigned_entity man missing).fields := by
        unfold unassigned_entity
        exact List.mem_map.mpr ⟨_, hbmem, rfl⟩
      have hmapmem : halfMappingOf t
          ∈ (fallback_field man t.source_entity
            (missing.filter (fun m => srcOfMid man m = t.source_entity))).mappings := by
        unfold fallback_field
        exact List.mem_filterMap.mpr ⟨i, hifilter, by rw [hlook]; rfl⟩
      refine mem_graph_triples.mpr ⟨unassigned_entity man missing,
        List.mem_append_right _ (List.mem_singleton_self _), _, hfallback, _, hmapmem, rfl⟩
  refine ⟨hforward, ?_, ?_⟩
  · intro p hp
    rcases mem_graph_triples.mp hp with ⟨e, he, f, hf, m, hm, rfl⟩
    have hsplit : e ∈ expand_entities man resp ∨
        e = unassigned_entity man (missing_ids man (covered_ids man resp)) := by
      unfold expand_and_repair at he
      by_cases hms : (missing_ids man (covered_ids man resp)).isEmpty
      · rw [if_pos hms] at he; exact Or.inl he
      · rw [if_neg hms] at he
        rcases List.mem_append.mp he with h1 | h2
        · exact Or.inl h1
        · exact Or.inr (List.mem_singleton.mp h2)
    rcases hsplit with he1 | rfl
    · rcases List.mem_map.mp he1 with ⟨ce, hce, rfl⟩
      rcases List.mem_map.mp hf with ⟨cf, hcf, rfl⟩
      rcases List.mem_filterMap.mp hm with ⟨j, hj, hlk⟩
      cases hl : mid_lookup man j with
      | none => rw [hl] at hlk; simp at hlk
      | some t =>
        rw [hl] at hlk
        simp only [Option.map_some', Option.some.injEq] at hlk
        have htm : t ∈ man := by
          rw [mid_lookup] at hl
          by_cases hjn : j < 0
          · rw [if_pos hjn] at hl; simp at hl
          · rw [if_neg hjn] at hl
            exact List.get?_mem hl
        exact ⟨t, htm, by rw [← hlk]; rfl⟩
    · rcases List.mem_map.mp hf with ⟨g, hg, rfl⟩
      rcases List.mem_filterMap.mp hm with ⟨j, hj, hlk⟩
      cases hl : mid_lookup man (j : Int) with
      | none => rw [hl] at hlk; simp at hlk
      | some t =>
        rw [hl] at hlk
        simp only [Option.map_some', Option.some.injEq] at hlk
        have htm : t ∈ man := by
          rw [mid_lookup, if_neg (by simp)] at hl
          exact List.get?_mem hl
        exact ⟨t, htm, by rw [← hlk]; rfl⟩
  · have hall : ∀ i ∈ List.range man.length, is_covered (expand_and_repair man resp) man i := by
      intro i hir
      have hi : i < man.length := List.mem_range.mp hir
      rw [is_covered]
      cases hg : man.get? i with
      | none =>
        rw [List.get?_eq_none] at hg
        omega
      | some t =>
        have := hforward t (List.get?_mem hg)
        simpa using this
    rw [List.countP_eq_length.mpr hall, List.length_range]

/-- C1 witness: a one-entry manifest with an empty clustering response is
fully repaired into the Unassigned entity. -/
theorem coverage_invariant_witness :
    tripleOfEntry demoBuiltEntry ∈ graph_triples (expand_and_repair [demoBuiltEntry] []) :=
  (coverage_invariant [demoBuiltEntry] []).1 demoBuiltEntry (List.mem_singleton_self _)

/-- C3 counterexample: anchoring `counterG` twice differs from anchoring it
once (the second pass reorders `E.x`'s mappings by source entity). -/
theorem anchoring_not_idempotent :
    anchor_and_split_cross_entity_fields (anchor_and_split_cross_entity_fields counterG)
      ≠ anchor_and_split_cross_entity_fields counterG := by
  decide

/-- C2 counterexample: when the clustering response lists the same mapping
id under two fields, the triple survives under both fields even after
anchoring. -/
theorem no_duplicate_mapping_counterexample :
    ¬ (field_triple_lists (pipeline_anchor [demoBuiltEntry] respDup)).Pairwise
        (fun l1 l2 => ∀ t ∈ l1, t ∉ l2) := by
  decide

theorem processGroups_eq (A : String → Option String) (eName fname : String) (tmpl : CField) :
    ∀ (groups : List (String × List Mapping)) (st : AnchorSt),
    processGroups A eName fname tmpl groups st =
      (applyMoves st (moveOps A eName fname tmpl groups), stayFlat A eName groups) := by
  intro groups
  induction groups with
  | nil => intro st; rfl
  | cons g rest ih =>
    intro st
    obtain ⟨src, ms⟩ := g
    rw [processGroups, stayFlat, moveOps]
    cases hA : A src with
    | none =>
      dsimp only
      rw [ih]
    | some a =>
      dsimp only
      by_cases hstay : a = "" ∨ a = eName
      · rw [if_pos hstay, if_pos hstay, if_pos hstay, ih]
      · rw [if_neg hstay, if_neg hstay, if_neg hstay, ih]
        rfl

theorem applyMoves_append (st : AnchorSt) (l1 l2 : List MoveOp) :
    applyMoves st (l1 ++ l2) = applyMoves (applyMoves st l1) l2 := by
  unfold applyMoves
  rw [List.foldl_append]

theorem processField_eq (A : String → Option String) (eName : String) (st : AnchorSt)
    (f : CField) :
    processField A eName st f =
      (applyMoves st (fieldMoveOps A eName f), fieldStay A eName f) := by
  rw [processField, processGroups_eq]
  rfl

theorem entityMoveOps_cons (A : String → Option String) (eName : String) (f : CField)
    (rest : List CField) :
    entityMoveOps A eName (f :: rest) = fieldMoveOps A eName f ++ entityMoveOps A eName rest := by
  simp [entityMoveOps]

theorem entityStays_cons (A : String → Option String) (eName : String) (f : CField)
    (rest : List CField) :
    entityStays A eName (f :: rest) =
      match fieldStay A eName f with
      | some nf => nf :: entityStays A eName rest
      | none => entityStays A eName rest := by
  rw [entityStays, List.filterMap_cons]
  cases fieldStay A eName f <;> rfl

theorem processFields_eq (A : String → Option String) (eName : String) :
    ∀ (fs : List CField) (st : AnchorSt),
    processFields A eName fs st =
      (applyMoves st (entityMoveOps A eName fs), entityStays A eName fs) := by
  intro fs
  induction fs with
  | nil => intro st; rfl
  | cons f rest ih =>
    intro st
    rw [processFields, processField_eq, ih]
    dsimp only
    rw [entityMoveOps_cons, applyMoves_append, entityStays_cons]

theorem processEntity_eq (A : String → Option String) (st : AnchorSt) (i : Nat) :
    processEntity A st i =
      match st.ents.get? i with
      | none => st
      | some e =>
        let st' := applyMoves st (entityMoveOps A (pyStrip e.name) e.fields)
        let setF : CEntity → CEntity :=
          fun e2 => { e2 with fields := entityStays A (pyStrip e.name) e.fields }
        { st' with ents := modifyEnt st'.ents i setF } := by
  rw [processEntity]
  cases st.ents.get? i with
  | none => rfl
  | some e =>
    dsimp only
    rw [processFields_eq]

theorem tcount_append (t : String × String × String) (L1 L2 : List (List Mapping)) :
    tcount t (L1 ++ L2) = tcount t L1 + tcount t L2 := by
  unfold tcount
  rw [List.countP_append]

theorem fieldLists_append (a b : List CEntity) :
    fieldLists (a ++ b) = fieldLists a ++ fieldLists b := by
  unfold fieldLists
  rw [List.map_append, List.flatten_append]

theorem fieldLists_cons (e : CEntity) (rest : List CEntity) :
    fieldLists (e :: rest) = entFieldLists e ++ fieldLists rest := rfl

/-- Splitting the field lists of a graph at entity `k`. -/
theorem tcount_fieldLists_split {es : List CEntity} {k : Nat} {ek : CEntity}
    (hk : es.get? k = some ek) (t : String × String × String) :
    tcount t (fieldLists es) =
      tcount t (fieldListsExcept es k) + tcount t (entFieldLists ek) := by
  have hlt : k < es.length := by
    by_contra hge
    rw [List.get?_eq_none.mpr (not_lt.mp hge)] at hk
    exact absurd hk (by simp)
  have hdrop : es.drop k = ek :: es.drop (k + 1) := by
    have := List.drop_eq_get_cons (l := es) hlt
    rw [List.get?_eq_get hlt] at hk
    simp only [Option.some.injEq] at hk
    rw [this, hk]
  have hsplit : es = es.take k ++ ek :: es.drop (k + 1) := by
    conv_lhs => rw [← List.take_append_drop k es]
    rw [hdrop]
  conv_lhs => rw [hsplit]
  rw [fieldLists_append, fieldLists_cons, tcount_append, tcount_append]
  unfold fieldListsExcept
  rw [tcount_append]
  omega

theorem hasTriple_append (t : String × String × String) (l1 l2 : List Mapping) :
    hasTriple t (l1 ++ l2) = (hasTriple t l1 || hasTriple t l2) := by
  unfold hasTriple
  rw [List.any_append]

theorem extendField_eq_newFieldOf (fname : String) (tmpl : CField) (ms : List Mapping) :
    extendField [] fname tmpl ms = [newFieldOf fname tmpl ms] := rfl

/-- `extendField` grows one matching field or appends a fresh one: the count
of fields holding `t` grows by at most the new rows' contribution. -/
theorem tcount_extendField (t : String × String × String) (fname : String) (tmpl : CField)
    (ms : List Mapping) :
    ∀ fs : List CField,
    tcount t ((extendField fs fname tmpl ms).map CField.mappings) ≤
      tcount t (fs.map CField.mappings) + tcount t [ms] := by
  intro fs
  induction fs with
  | nil =>
    simp only [extendField_eq_newFieldOf, List.map_cons, List.map_nil]
    unfold tcount newFieldOf
    simp [List.countP_cons]
  | cons fl rest ih =>
    rw [extendField]
    by_cases hmatch : pyLower (pyStrip fl.name) = pyLower (pyStrip fname)
    · rw [if_pos hmatch]
      simp only [List.map_cons]
      unfold tcount at ih ⊢
      rw [List.countP_cons, List.countP_cons]
      have hle : (if hasTriple t (fl.mappings ++ ms) then 1 else 0) ≤
          (if hasTriple t fl.mappings then 1 else 0) + (if hasTriple t ms then 1 else 0) := by
        rw [hasTriple_append]
        by_cases h1 : hasTriple t fl.mappings <;> by_cases h2 : hasTriple t ms <;>
          simp [h1, h2]
      have hms : List.countP (hasTriple t) [ms] = if hasTriple t ms then 1 else 0 := by
        simp [List.countP_cons]
      simp only [hms] at ih ⊢
      omega
    · rw [if_neg hmatch]
      simp only [List.map_cons]
      unfold tcount at ih ⊢
      rw [List.countP_cons, List.countP_cons]
      omega

theorem modifyEnt_get? (es : List CEntity) (j : Nat) (g : CEntity → CEntity) :
    ∀ i, (modifyEnt es j g).get? i = if i = j then (es.get? i).map g else es.get? i := by
  induction es generalizing j with
  | nil => intro i; cases j <;> simp [modifyEnt]
  | cons e rest ih =>
    intro i
    cases j with
    | zero =>
      cases i with
      | zero => simp [modifyEnt]
      | succ i2 => simp [modifyEnt]
    | succ j2 =>
      cases i with
      | zero => simp [modifyEnt]
      | succ i2 =>
        rw [modifyEnt]
        simp only [List.get?_cons_succ]
        rw [ih j2 i2]
        by_cases h : i2 = j2 <;> simp [h]

theorem modifyEnt_length (es : List CEntity) (j : Nat) (g : CEntity → CEntity) :
    (modifyEnt es j g).length = es.length := by
  induction es generalizing j with
  | nil => cases j <;> rfl
  | cons e rest ih =>
    cases j with
    | zero => rfl
    | succ j2 => simp [modifyEnt, ih]

/-- Modifying one entity's fields changes the global triple count by at most
what the modification adds to that entity. -/
theorem tcount_modifyEnt {es : List CEntity} {j : Nat} {ej : CEntity}
    (hj : es.get? j = some ej) (g : CEntity → CEntity) (t : String × String × String)
    (d : Nat) (hg : tcount t (entFieldLists (g ej)) ≤ tcount t (entFieldLists ej) + d) :
    tcount t (fieldLists (modifyEnt es j g)) ≤ tcount t (fieldLists es) + d := by
  induction es generalizing j with
  | nil => simp at hj
  | cons e rest ih =>
    cases j with
    | zero =>
      simp only [List.get?_cons_zero, Option.some.injEq] at hj
      subst hj
      rw [modifyEnt]
      rw [fieldLists_cons, fieldLists_cons, tcount_append, tcount_append]
      omega
    | succ j2 =>
      simp only [List.get?_cons_succ] at hj
      rw [modifyEnt]
      rw [fieldLists_cons, fieldLists_cons, tcount_append, tcount_append]
      have := ih hj
      omega

/-! ### Idempotence of `pyStrip` -/

theorem dropWhile_head_false {α : Type} (p : α → Bool) :
    ∀ l : List α, l.dropWhile p = [] ∨
      ∃ a t, l.dropWhile p = a :: t ∧ p a = false := by
  intro l
  induction l with
  | nil => exact Or.inl rfl
  | cons a t ih =>
    by_cases h : p a
    · rw [List.dropWhile_cons, if_pos h]; exact ih
    · rw [List.dropWhile_cons, if_neg h]
      exact Or.inr ⟨a, t, rfl, Bool.eq_false_iff.mpr h⟩

theorem dropWhile_idem {α : Type} (p : α → Bool) (l : List α) :
    (l.dropWhile p).dropWhile p = l.dropWhile p := by
  rcases dropWhile_head_false p l with h | ⟨a, t, h, hp⟩
  · rw [h]; rfl
  · rw [h, List.dropWhile_cons, hp]; rfl

theorem dropWhile_eq_self_of_pre {α : Type} (p : α → Bool) {l q : List α}
    (hl : l.dropWhile p = l) (hq : q <+: l) : q.dropWhile p = q := by
  cases q with
  | nil => rfl
  | cons c tc =>
    cases l with
    | nil =>
      obtain ⟨post, hpost⟩ := hq
      simp at hpost
    | cons b tb =>
      obtain ⟨post, hpost⟩ := hq
      have hcb : c = b := by
        have := congrArg List.head? hpost
        simpa using this
      have hpb : p b = false := by
        by_contra hpb'
        rw [Bool.not_eq_false] at hpb'
        rw [List.dropWhile_cons, if_pos hpb'] at hl
        have h1 := congrArg List.length hl
        have h2 := (List.dropWhile_sublist (l := tb) p).length_le
        simp at h1
        omega
      rw [List.dropWhile_cons, hcb, hpb]
      rfl

theorem reverse_dropWhile_pre {α : Type} (p : α → Bool) (l1 : List α) :
    (l1.reverse.dropWhile p).reverse <+: l1 := by
  obtain ⟨pre, hpre⟩ := List.dropWhile_suffix (l := l1.reverse) p
  refine ⟨pre.reverse, ?_⟩
  rw [← List.reverse_append, hpre, List.reverse_reverse]

theorem stripL_strips {p : Char → Bool} (l : List Char) :
    (((l.dropWhile p).reverse.dropWhile p).reverse).dropWhile p =
      ((l.dropWhile p).reverse.dropWhile p).reverse :=
  dropWhile_eq_self_of_pre p (dropWhile_idem p l)
    (reverse_dropWhile_pre p (l.dropWhile p))

theorem stripL_drops (p : Char → Bool) (l : List Char) :
    (stripL p l).dropWhile p = stripL p l :=
  dropWhile_eq_self_of_pre p (dropWhile_idem p l)
    (reverse_dropWhile_pre p (l.dropWhile p))

theorem stripL_reverse (p : Char → Bool) (l : List Char) :
    (stripL p l).reverse = (l.dropWhile p).reverse.dropWhile p := by
  rw [stripL, List.reverse_reverse]

theorem stripL_idem (p : Char → Bool) (l : List Char) :
    stripL p (stripL p l) = stripL p l := by
  show (((stripL p l).dropWhile p).reverse.dropWhile p).reverse = stripL p l
  rw [stripL_drops, stripL_reverse, dropWhile_idem]
  rfl

theorem pyStrip_idem (s : String) : pyStrip (pyStrip s) = pyStrip s :=
  congrArg String.mk (stripL_idem pyWS s.toList)

/-! ### Membership characterizations for the split pieces -/

theorem hasTriple_iff {t : String × String × String} {l : List Mapping} :
    hasTriple t l = true ↔ ∃ m ∈ l, tripleOfMapping m = t := by
  simp [hasTriple, List.any_eq_true]

theorem tripleOfMapping_src {m : Mapping} {t : String × String × String}
    (h : tripleOfMapping m = t) : m.source_entity = t.2.1 := by
  rw [← h]; rfl

theorem tcount_singleton (t : String × String × String) (l : List Mapping) :
    tcount t [l] = if hasTriple t l then 1 else 0 := by
  simp [tcount, List.countP_cons]

theorem tcount_cons (t : String × String × String) (l : List Mapping)
    (L : List (List Mapping)) :
    tcount t (l :: L) = (if hasTriple t l then 1 else 0) + tcount t L := by
  unfold tcount
  rw [List.countP_cons]
  omega

theorem stayFlat_cons_none {A : String → Option String} {eName src : String}
    (hA : A src = none) (ms : List Mapping) (rest : List (String × List Mapping)) :
    stayFlat A eName ((src, ms) :: rest) = ms ++ stayFlat A eName rest := by
  rw [stayFlat, hA]

theorem stayFlat_cons_some {A : String → Option String} {eName src a : String}
    (hA : A src = some a) (ms : List Mapping) (rest : List (String × List Mapping)) :
    stayFlat A eName ((src, ms) :: rest) =
      if a = "" ∨ a = eName then ms ++ stayFlat A eName rest
      else stayFlat A eName rest := by
  rw [stayFlat, hA]

theorem moveOps_cons_none {A : String → Option String} {eName fname : String} {tmpl : CField}
    {src : String} (hA : A src = none) (ms : List Mapping)
    (rest : List (String × List Mapping)) :
    moveOps A eName fname tmpl ((src, ms) :: rest) = moveOps A eName fname tmpl rest := by
  rw [moveOps, hA]

theorem moveOps_cons_some {A : String → Option String} {eName fname : String} {tmpl : CField}
    {src a : String} (hA : A src = some a) (ms : List Mapping)
    (rest : List (String × List Mapping)) :
    moveOps A eName fname tmpl ((src, ms) :: rest) =
      if a = "" ∨ a = eName then moveOps A eName fname tmpl rest
      else ⟨a, fname, tmpl, ms⟩ :: moveOps A eName fname tmpl rest := by
  rw [moveOps, hA]

theorem stayFlat_mem {A : String → Option String} {eName : String} :
    ∀ {groups : List (String × List Mapping)} {m : Mapping},
    m ∈ stayFlat A eName groups → ∃ p ∈ groups, m ∈ p.2 := by
  intro groups
  induction groups with
  | nil => intro m h; simp [stayFlat] at h
  | cons g rest ih =>
    intro m h
    obtain ⟨src, ms⟩ := g
    have hin : m ∈ ms ++ stayFlat A eName rest → ∃ p ∈ (src, ms) :: rest, m ∈ p.2 := by
      intro hmem
      rcases List.mem_append.mp hmem with h1 | h2
      · exact ⟨(src, ms), List.mem_cons_self _ _, h1⟩
      · obtain ⟨p, hp, hmp⟩ := ih h2
        exact ⟨p, List.mem_cons_of_mem _ hp, hmp⟩
    cases hA : A src with
    | none => rw [stayFlat_cons_none hA] at h; exact hin h
    | some a =>
      rw [stayFlat_cons_some hA] at h
      by_cases hc : a = "" ∨ a = eName
      · rw [if_pos hc] at h; exact hin h
      · rw [if_neg hc] at h
        obtain ⟨p, hp, hmp⟩ := ih h
        exact ⟨p, List.mem_cons_of_mem _ hp, hmp⟩

theorem moveOps_mem {A : String → Option String} {eName fname : String} {tmpl : CField} :
    ∀ {groups : List (String × List Mapping)} {op : MoveOp},
    op ∈ moveOps A eName fname tmpl groups →
    ∃ p ∈ groups, A p.1 = some op.a ∧ ¬(op.a = "" ∨ op.a = eName) ∧
      op.fname = fname ∧ op.tmpl = tmpl ∧ op.ms = p.2 := by
  intro groups
  induction groups with
  | nil => intro op h; simp [moveOps] at h
  | cons g rest ih =>
    intro op h
    obtain ⟨src, ms⟩ := g
    cases hA : A src with
    | none =>
      rw [moveOps_cons_none hA] at h
      obtain ⟨p, hp, rest⟩ := ih h
      exact ⟨p, List.mem_cons_of_mem _ hp, rest⟩
    | some a =>
      rw [moveOps_cons_some hA] at h
      by_cases hc : a = "" ∨ a = eName
      · rw [if_pos hc] at h
        obtain ⟨p, hp, prest⟩ := ih h
        exact ⟨p, List.mem_cons_of_mem _ hp, prest⟩
      · rw [if_neg hc] at h
        rcases List.mem_cons.mp h with he | hrest
        · subst he
          exact ⟨(src, ms), List.mem_cons_self _ _, hA, hc, rfl, rfl, rfl⟩
        · obtain ⟨p, hp, prest⟩ := ih hrest
          exact ⟨p, List.mem_cons_of_mem _ hp, prest⟩

/-- Per-field split soundness: the moved groups plus the staying rest hold
each triple at most as often as the original bucket list does (the grouped
buckets have distinct source keys, so a triple's rows sit in one bucket). -/
theorem pieces_count (A : String → Option String) (eName fname : String) (tmpl : CField)
    (t : String × String × String) :
    ∀ groups : List (String × List Mapping),
    (groups.map Prod.fst).Nodup →
    (∀ p ∈ groups, ∀ m ∈ p.2, m.source_entity = p.1) →
    tcount t ((moveOps A eName fname tmpl groups).map MoveOp.ms) +
      tcount t [stayFlat A eName groups] ≤
      tcount t [(groups.map Prod.snd).flatten] := by
  intro groups
  induction groups with
  | nil =>
    intro _ _
    simp [moveOps, stayFlat, tcount, List.countP_cons, hasTriple]
  | cons g rest ih =>
    obtain ⟨src, ms⟩ := g
    intro hnd hrows
    simp only [List.map_cons, List.nodup_cons] at hnd
    have hsrc : src ∉ rest.map Prod.fst := hnd.1
    have hndr := hnd.2
    have hrowsr : ∀ p ∈ rest, ∀ m ∈ p.2, m.source_entity = p.1 :=
      fun p hp => hrows p (List.mem_cons_of_mem _ hp)
    have hrows0 : ∀ m ∈ ms, m.source_entity = src :=
      hrows (src, ms) (List.mem_cons_self _ _)
    have key0 : hasTriple t ms = true → t.2.1 = src := by
      intro h
      obtain ⟨m, hm, hmt⟩ := hasTriple_iff.mp h
      rw [← tripleOfMapping_src hmt]
      exact hrows0 m hm
    have restSrcNe : t.2.1 = src → ∀ p ∈ rest, ∀ m ∈ p.2, tripleOfMapping m ≠ t := by
      intro hts p hp m hm hmt
      apply hsrc
      have h1 : p.1 = src := by
        rw [← hrowsr p hp m hm, tripleOfMapping_src hmt, hts]
      exact List.mem_map.mpr ⟨p, hp, h1⟩
    have hzero_ops : hasTriple t ms = true →
        tcount t ((moveOps A eName fname tmpl rest).map MoveOp.ms) = 0 := by
      intro h
      apply List.countP_eq_zero.mpr
      intro l hl hcontra
      obtain ⟨op, hop, rfl⟩ := List.mem_map.mp hl
      obtain ⟨p, hp, _, _, _, _, hms⟩ := moveOps_mem hop
      obtain ⟨m, hm, hmt⟩ := hasTriple_iff.mp hcontra
      rw [hms] at hm
      exact restSrcNe (key0 h) p hp m hm hmt
    have hzero_stay : hasTriple t ms = true →
        hasTriple t (stayFlat A eName rest) = false := by
      intro h
      rw [Bool.eq_false_iff]
      intro hcontra
      obtain ⟨m, hm, hmt⟩ := hasTriple_iff.mp hcontra
      obtain ⟨p, hp, hmp⟩ := stayFlat_mem hm
      exact restSrcNe (key0 h) p hp m hmp hmt
    have hrhs : tcount t [((((src, ms) :: rest).map Prod.snd).flatten)] =
        (if hasTriple t ms || hasTriple t ((rest.map Prod.snd).flatten) then 1 else 0) := by
      rw [List.map_cons]
      show tcount t [(ms ++ (rest.map Prod.snd).flatten)] = _
      rw [tcount_singleton, hasTriple_append]
    have hstaycase : tcount t ((moveOps A eName fname tmpl rest).map MoveOp.ms) +
        tcount t [ms ++ stayFlat A eName rest] ≤
        tcount t [((((src, ms) :: rest).map Prod.snd).flatten)] := by
      rw [hrhs, tcount_singleton, hasTriple_append]
      by_cases h : hasTriple t ms
      · have h1 := hzero_ops h
        rw [h, h1]
        simp
      · rw [Bool.eq_false_iff.mpr h]
        simp only [Bool.false_or]
        have := ih hndr hrowsr
        rw [tcount_singleton] at this
        rw [tcount_singleton] at this
        omega
    cases hA : A src with
    | none =>
      rw [moveOps_cons_none hA, stayFlat_cons_none hA]
      exact hstaycase
    | some a =>
      rw [moveOps_cons_some hA, stayFlat_cons_some hA]
      by_cases hc : a = "" ∨ a = eName
      · rw [if_pos hc, if_pos hc]
        exact hstaycase
      · rw [if_neg hc, if_neg hc]
        rw [hrhs]
        rw [List.map_cons, tcount_cons]
        by_cases h : hasTriple t ms
        · have h1 := hzero_ops h
          have h2 := hzero_stay h
          rw [h, h1, tcount_singleton, h2]
          simp
        · rw [Bool.eq_false_iff.mpr h]
          simp only [Bool.false_or]
          rw [tcount_singleton]
          have hg : (if (false : Bool) = true then (1 : Nat) else 0) = 0 := rfl
          rw [hg]
          have := ih hndr hrowsr
          rw [tcount_singleton] at this
          rw [tcount_singleton] at this
          omega

/-! ### Per-field and per-entity split soundness -/

theorem mem_flatten_groupByKey {q a : Type} [DecidableEq q] (key : a → q) (xs : List a)
    (x : a) : x ∈ ((groupByKey key xs).map Prod.snd).flatten ↔ x ∈ xs := by
  constructor
  · intro h
    obtain ⟨l, hl, hxl⟩ := List.mem_flatten.mp h
    obtain ⟨p, hp, rfl⟩ := List.mem_map.mp hl
    obtain ⟨k, l2⟩ := p
    have := groupByKey_bucket_eq hp
    dsimp only at this hxl
    rw [this] at hxl
    exact (List.mem_filter.mp hxl).1
  · intro h
    have hlk : lookupG (groupByKey key xs) (key x) =
        match xs.filter (fun y => key y = key x) with
        | [] => none
        | l => some l := lookupG_groupByKey key xs (key x)
    have hxf : x ∈ xs.filter (fun y => key y = key x) :=
      List.mem_filter.mpr ⟨h, by simp⟩
    cases hf : xs.filter (fun y => key y = key x) with
    | nil => rw [hf] at hxf; simp at hxf
    | cons y t =>
      rw [hf] at hlk
      have hmem := lookupG_mem hlk
      apply List.mem_flatten.mpr
      refine ⟨y :: t, List.mem_map.mpr ⟨(key x, y :: t), hmem, rfl⟩, ?_⟩
      rw [← hf]
      exact hxf

theorem hasTriple_congr {t : String × String × String} {l1 l2 : List Mapping}
    (h : ∀ m, m ∈ l1 ↔ m ∈ l2) : hasTriple t l1 = hasTriple t l2 := by
  cases h2 : hasTriple t l2 with
  | true =>
    obtain ⟨m, hm, hmt⟩ := hasTriple_iff.mp h2
    exact hasTriple_iff.mpr ⟨m, (h m).mpr hm, hmt⟩
  | false =>
    rw [Bool.eq_false_iff]
    intro h1
    obtain ⟨m, hm, hmt⟩ := hasTriple_iff.mp h1
    rw [Bool.eq_false_iff] at h2
    exact h2 (hasTriple_iff.mpr ⟨m, (h m).mp hm, hmt⟩)

theorem groupByKey_rows_match {q a : Type} [DecidableEq q] {key : a → q}
    {xs : List a} : ∀ p ∈ groupByKey key xs, ∀ m ∈ p.2, key m = p.1 := by
  intro p hp m hm
  obtain ⟨k, l⟩ := p
  have := groupByKey_bucket_eq hp
  dsimp only at this hm ⊢
  rw [this] at hm
  have := (List.mem_filter.mp hm).2
  simpa using this

/-- One field's split: the moved groups plus the (possibly dropped) staying
field hold each triple at most as often as the field did. -/
theorem field_pieces_count (A : String → Option String) (eName : String) (f : CField)
    (t : String × String × String) :
    tcount t ((fieldMoveOps A eName f).map MoveOp.ms) +
      tcount t ((fieldStay A eName f).toList.map CField.mappings) ≤
      tcount t [f.mappings] := by
  have hmain := pieces_count A eName f.name f t
    (groupByKey Mapping.source_entity f.mappings)
    (groupByKey_keys_nodup _ _) groupByKey_rows_match
  have hsame : hasTriple t (((groupByKey Mapping.source_entity f.mappings).map
      Prod.snd).flatten) = hasTriple t f.mappings :=
    hasTriple_congr (fun m => mem_flatten_groupByKey _ _ m)
  rw [tcount_singleton, tcount_singleton, hsame] at hmain
  rw [tcount_singleton]
  have hstay : tcount t ((fieldStay A eName f).toList.map CField.mappings) ≤
      (if hasTriple t (stayFlat A eName (groupByKey Mapping.source_entity f.mappings))
        then 1 else 0) := by
    rw [fieldStay]
    by_cases he : (stayFlat A eName (groupByKey Mapping.source_entity f.mappings)).isEmpty
    · rw [if_pos he]
      simp [tcount]
    · rw [if_neg he]
      show tcount t [stayFlat A eName (groupByKey Mapping.source_entity f.mappings)] ≤ _
      rw [tcount_singleton]
  unfold fieldMoveOps
  omega

/-- One entity's split: the moved groups of all its fields plus its staying
fields hold each triple at most as often as the entity did. -/
theorem entity_pieces_count (A : String → Option String) (eName : String)
    (t : String × String × String) :
    ∀ fs : List CField,
    tcount t ((entityMoveOps A eName fs).map MoveOp.ms) +
      tcount t ((entityStays A eName fs).map CField.mappings) ≤
      tcount t (fs.map CField.mappings) := by
  intro fs
  induction fs with
  | nil => simp [entityMoveOps, entityStays, tcount]
  | cons f rest ih =>
    rw [entityMoveOps_cons, entityStays_cons]
    rw [List.map_append, tcount_append]
    have hf := field_pieces_count A eName f t
    rw [tcount_singleton] at hf
    have hrhs : tcount t ((f :: rest).map CField.mappings) =
        (if hasTriple t f.mappings then 1 else 0) + tcount t (rest.map CField.mappings) := by
      rw [List.map_cons, tcount_cons]
    rw [hrhs]
    cases hfs : fieldStay A eName f with
    | none =>
      rw [hfs] at hf
      simp only [Option.toList] at hf
      simp only []
      omega
    | some nf =>
      rw [hfs] at hf
      simp only [Option.toList] at hf
      simp only []
      rw [List.map_cons, tcount_cons]
      rw [List.map_cons, List.map_nil, tcount_cons] at hf
      have h0 : tcount t ([] : List (List Mapping)) = 0 := rfl
      rw [h0] at hf
      omega

theorem lookupA_putA {q b : Type} [DecidableEq q] :
    ∀ (acc : List (q × b)) (k : q) (v : b) (x : q),
    lookupA (putA acc k v) x = if x = k then some v else lookupA acc x := by
  intro acc k v x
  induction acc with
  | nil =>
    simp only [putA, lookupA]
    by_cases h : x = k
    · rw [if_pos h.symm, if_pos h]
    · rw [if_neg (fun hh => h hh.symm), if_neg h]
  | cons p t ih =>
    obtain ⟨a, w⟩ := p
    rw [putA]
    by_cases hak : a = k
    · rw [if_pos hak, lookupA, lookupA]
      subst hak
      by_cases hx : a = x
      · rw [if_pos hx, if_pos hx.symm]
      · rw [if_neg hx, if_neg (fun hh => hx hh.symm), if_neg hx]
    · rw [if_neg hak, lookupA, lookupA]
      by_cases hx : a = x
      · rw [if_pos hx, if_pos hx, if_neg (fun hh => hak (hx.trans hh))]
      · rw [if_neg hx, if_neg hx, ih]

theorem lookupA_foldl_putA {q b : Type} [DecidableEq q] (P : q → b → Prop) :
    ∀ (ps : List (q × b)) (acc : List (q × b)),
    (∀ x j, lookupA acc x = some j → P x j) →
    (∀ p ∈ ps, P p.1 p.2) →
    ∀ x j, lookupA (ps.foldl (fun a p => putA a p.1 p.2) acc) x = some j → P x j := by
  intro ps
  induction ps with
  | nil => intro acc hacc _ x j h; exact hacc x j h
  | cons p rest ih =>
    intro acc hacc hps x j h
    rw [List.foldl_cons] at h
    refine ih (putA acc p.1 p.2) ?_
      (fun p2 hp2 => hps p2 (List.mem_cons_of_mem _ hp2)) x j h
    intro x2 j2 h2
    rw [lookupA_putA] at h2
    by_cases hx2 : x2 = p.1
    · rw [if_pos hx2] at h2
      have hj2 : p.2 = j2 := by injection h2
      rw [hx2, ← hj2]
      exact hps p (List.mem_cons_self _ _)
    · rw [if_neg hx2] at h2
      exact hacc x2 j2 h2

theorem init_ebn_inv (es : List CEntity) : EBNInv ⟨es, init_ebn es⟩ := by
  intro x j h
  have hfold : init_ebn es =
      (es.enum.map (fun p => (pyStrip p.2.name, p.1))).foldl
        (fun a p => putA a p.1 p.2) [] := by
    rw [init_ebn, List.foldl_map]
  rw [hfold] at h
  refine lookupA_foldl_putA
    (fun x j => ∃ e, es.get? j = some e ∧ pyStrip e.name = x) _ [] ?_ ?_ x j h
  · intro x2 j2 h2
    simp [lookupA] at h2
  · intro p hp
    obtain ⟨q2, hq2, rfl⟩ := List.mem_map.mp hp
    obtain ⟨i, e⟩ := q2
    obtain ⟨hlt, hx⟩ := List.mem_enum hq2
    refine ⟨e, ?_, rfl⟩
    rw [hx, List.get?_eq_getElem?, List.getElem?_eq_getElem hlt]

theorem applyMove_some_ents {st : AnchorSt} {a : String} {j : Nat} (fname : String)
    (tmpl : CField) (ms : List Mapping) (h : lookupA st.ebn a = some j) :
    (applyMove st a fname tmpl ms).ents = modifyEnt st.ents j
      (fun e => { e with fields := extendField e.fields fname tmpl ms }) := by
  rw [applyMove, h]

theorem applyMove_some_ebn {st : AnchorSt} {a : String} {j : Nat} (fname : String)
    (tmpl : CField) (ms : List Mapping) (h : lookupA st.ebn a = some j) :
    (applyMove st a fname tmpl ms).ebn = st.ebn := by
  rw [applyMove, h]

theorem applyMove_none_ents {st : AnchorSt} {a : String} (fname : String)
    (tmpl : CField) (ms : List Mapping) (h : lookupA st.ebn a = none) :
    (applyMove st a fname tmpl ms).ents = st.ents ++ [newEntOf a fname tmpl ms] := by
  rw [applyMove, h]
  rfl

theorem applyMove_none_ebn {st : AnchorSt} {a : String} (fname : String)
    (tmpl : CField) (ms : List Mapping) (h : lookupA st.ebn a = none) :
    (applyMove st a fname tmpl ms).ebn = putA st.ebn a st.ents.length := by
  rw [applyMove, h]

theorem get?_lt_of_some {α : Type} {l : List α} {n : Nat} {x : α}
    (h : l.get? n = some x) : n < l.length := by
  by_contra hge
  rw [List.get?_eq_none.mpr (not_lt.mp hge)] at h
  exact absurd h (by simp)

/-- One move preserves the `ent_by_name` invariant, never touches an entity
whose stripped name differs from the move's anchor, can only lengthen the
entity list, and adds each triple to at most one more field list. -/
theorem applyMove_props {st : AnchorSt} {k : Nat} {ek : CEntity} (a fname : String)
    (tmpl : CField) (ms : List Mapping)
    (hebn : EBNInv st) (hk : st.ents.get? k = some ek)
    (hstrip : pyStrip a = a) (hne : a ≠ pyStrip ek.name) :
    EBNInv (applyMove st a fname tmpl ms) ∧
    (applyMove st a fname tmpl ms).ents.get? k = some ek ∧
    st.ents.length ≤ (applyMove st a fname tmpl ms).ents.length ∧
    ∀ t, tcount t (fieldLists (applyMove st a fname tmpl ms).ents) ≤
      tcount t (fieldLists st.ents) + tcount t [ms] := by
  cases hl : lookupA st.ebn a with
  | some j =>
    obtain ⟨ej, hj, hjname⟩ := hebn a j hl
    have hjk : k ≠ j := by
      intro he
      rw [he, hj] at hk
      have : ej = ek := by injection hk
      rw [this] at hjname
      exact hne hjname.symm
    refine ⟨?_, ?_, ?_, ?_⟩
    · intro x j2 h2
      rw [applyMove_some_ebn fname tmpl ms hl] at h2
      obtain ⟨e2, he2, hname2⟩ := hebn x j2 h2
      rw [applyMove_some_ents fname tmpl ms hl]
      by_cases hj2 : j2 = j
      · refine ⟨{ e2 with fields := extendField e2.fields fname tmpl ms }, ?_, hname2⟩
        rw [modifyEnt_get? _ _ _ j2, if_pos hj2, he2]
        rfl
      · exact ⟨e2, by rw [modifyEnt_get? _ _ _ j2, if_neg hj2]; exact he2, hname2⟩
    · rw [applyMove_some_ents fname tmpl ms hl, modifyEnt_get? _ _ _ k, if_neg hjk]
      exact hk
    · rw [applyMove_some_ents fname tmpl ms hl, modifyEnt_length]
    · intro t
      rw [applyMove_some_ents fname tmpl ms hl]
      refine tcount_modifyEnt hj _ t _ ?_
      exact tcount_extendField t fname tmpl ms ej.fields
  | none =>
    refine ⟨?_, ?_, ?_, ?_⟩
    · intro x j2 h2
      rw [applyMove_none_ebn fname tmpl ms hl, lookupA_putA] at h2
      rw [applyMove_none_ents fname tmpl ms hl]
      by_cases hx : x = a
      · rw [if_pos hx] at h2
        have hj2 : st.ents.length = j2 := by injection h2
        rw [← hj2]
        refine ⟨_, List.get?_concat_length _ _, ?_⟩
        rw [hx]
        exact hstrip
      · rw [if_neg hx] at h2
        obtain ⟨e2, he2, hn⟩ := hebn x j2 h2
        exact ⟨e2, by rw [List.get?_append (get?_lt_of_some he2)]; exact he2, hn⟩
    · rw [applyMove_none_ents fname tmpl ms hl, List.get?_append (get?_lt_of_some hk)]
      exact hk
    · rw [applyMove_none_ents fname tmpl ms hl, List.length_append]
      simp
    · intro t
      rw [applyMove_none_ents fname tmpl ms hl, fieldLists_append, tcount_append]
      have hnew : fieldLists [newEntOf a fname tmpl ms] = [ms] := rfl
      rw [hnew]

/-- A sequence of moves, each anchored away from entity `k`, preserves the
invariants and adds each triple to at most as many field lists as the moved
row groups hold it. -/
theorem applyMoves_props {k : Nat} {ek : CEntity} :
    ∀ (ops : List MoveOp) (st : AnchorSt),
    EBNInv st → st.ents.get? k = some ek →
    (∀ op ∈ ops, pyStrip op.a = op.a ∧ op.a ≠ pyStrip ek.name) →
    EBNInv (applyMoves st ops) ∧ (applyMoves st ops).ents.get? k = some ek ∧
    st.ents.length ≤ (applyMoves st ops).ents.length ∧
    ∀ t, tcount t (fieldLists (applyMoves st ops).ents) ≤
      tcount t (fieldLists st.ents) + tcount t (ops.map MoveOp.ms) := by
  intro ops
  induction ops with
  | nil =>
    intro st hebn hk _
    exact ⟨hebn, hk, le_refl _, fun t => by simp [applyMoves, tcount]⟩
  | cons op rest ih =>
    intro st hebn hk hops
    have hstep : applyMoves st (op :: rest) =
        applyMoves (applyMove st op.a op.fname op.tmpl op.ms) rest := rfl
    rw [hstep]
    obtain ⟨h1, h2, h3, h4⟩ := applyMove_props op.a op.fname op.tmpl op.ms hebn hk
      (hops op (List.mem_cons_self _ _)).1 (hops op (List.mem_cons_self _ _)).2
    obtain ⟨g1, g2, g3, g4⟩ := ih (applyMove st op.a op.fname op.tmpl op.ms) h1 h2
      (fun o ho => hops o (List.mem_cons_of_mem _ ho))
    refine ⟨g1, g2, le_trans h3 g3, ?_⟩
    intro t
    have := g4 t
    have := h4 t
    rw [List.map_cons, tcount_cons]
    have hsing := tcount_singleton t op.ms
    omega

/-! ### Anchors are stripped names -/

theorem argmaxGo_mem (bk : String) (bv : Nat) :
    ∀ c : List (String × Nat), argmaxGo bk bv c ∈ bk :: c.map Prod.fst := by
  intro c
  induction c generalizing bk bv with
  | nil => simp [argmaxGo]
  | cons p t ih =>
    obtain ⟨k2, v2⟩ := p
    rw [argmaxGo]
    by_cases h : bv < v2
    · rw [if_pos h]
      have := ih k2 v2
      simp only [List.map_cons, List.mem_cons] at this ⊢
      tauto
    · rw [if_neg h]
      have := ih bk bv
      simp only [List.map_cons, List.mem_cons] at this ⊢
      tauto

theorem lookupG_bumpSrc :
    ∀ (acc : List (String × List (String × Nat))) (s0 : String) (n0 s : String),
    lookupG (bumpSrc acc s0 n0) s =
      if s = s0 then some (bump ((lookupG acc s0).getD []) n0) else lookupG acc s := by
  intro acc
  induction acc with
  | nil =>
    intro s0 n0 s
    by_cases h : s = s0
    · subst h; simp [bumpSrc, lookupG]
    · simp [bumpSrc, lookupG, h, Ne.symm h]
  | cons p t ih =>
    intro s0 n0 s
    obtain ⟨b, c⟩ := p
    by_cases hb : b = s0
    · subst hb
      rw [bumpSrc, if_pos rfl, lookupG]
      by_cases hs : s = b
      · subst hs
        rw [if_pos rfl, if_pos rfl, lookupG, if_pos rfl]
        rfl
      · rw [if_neg (fun hh => hs hh.symm), if_neg hs, lookupG, if_neg (fun hh => hs hh.symm)]
    · rw [bumpSrc, if_neg hb]
      by_cases hss : s = s0
      · subst hss
        have hbs : ¬ b = s := fun hh => hb hh
        rw [if_pos rfl, lookupG, if_neg hbs, ih, if_pos rfl, lookupG, if_neg hb]
      · rw [if_neg hss, lookupG, lookupG]
        by_cases hs : b = s
        · rw [if_pos hs, if_pos hs]
        · rw [if_neg hs, if_neg hs, ih, if_neg hss]

theorem bump_keys : ∀ (c : List (String × Nat)) (k : String),
    ∀ x ∈ (bump c k).map Prod.fst, x ∈ k :: c.map Prod.fst := by
  intro c
  induction c with
  | nil => intro k x hx; simpa [bump] using hx
  | cons p t ih =>
    obtain ⟨a, n⟩ := p
    intro k x hx
    rw [bump] at hx
    by_cases h : a = k
    · rw [if_pos h] at hx
      simp only [List.map_cons, List.mem_cons] at hx ⊢
      tauto
    · rw [if_neg h] at hx
      simp only [List.map_cons, List.mem_cons] at hx ⊢
      rcases hx with rfl | hx
      · tauto
      · have := ih k x hx
        simp only [List.mem_cons] at this
        tauto

theorem src_counts_keys (Q : String → Prop) :
    ∀ (rows : List (String × String)) (acc : List (String × List (String × Nat))),
    (∀ s c, lookupG acc s = some c → ∀ k ∈ c.map Prod.fst, Q k) →
    (∀ p ∈ rows, Q p.2) →
    ∀ s c, lookupG (rows.foldl (fun a p => bumpSrc a p.1 p.2) acc) s = some c →
    ∀ k ∈ c.map Prod.fst, Q k := by
  intro rows
  induction rows with
  | nil => intro acc hacc _ s c h; exact hacc s c h
  | cons p rest ih =>
    intro acc hacc hrows s c h
    rw [List.foldl_cons] at h
    refine ih (bumpSrc acc p.1 p.2) ?_
      (fun p2 hp2 => hrows p2 (List.mem_cons_of_mem _ hp2)) s c h
    intro s2 c2 h2 k hk
    rw [lookupG_bumpSrc] at h2
    by_cases hs2 : s2 = p.1
    · rw [if_pos hs2] at h2
      have hc2 : bump ((lookupG acc p.1).getD []) p.2 = c2 := by injection h2
      rw [← hc2] at hk
      have hb := bump_keys _ _ k hk
      rcases List.mem_cons.mp hb with rfl | hk2
      · exact hrows p (List.mem_cons_self _ _)
      · cases hl : lookupG acc p.1 with
        | none => rw [hl] at hk2; simp at hk2
        | some c3 =>
          rw [hl] at hk2
          exact hacc p.1 c3 hl k hk2
    · rw [if_neg hs2] at h2
      exact hacc s2 c2 h2 k hk

theorem srcRows_snd_stripped (es : List CEntity) :
    ∀ p ∈ srcRows es, pyStrip p.2 = p.2 := by
  intro p hp
  rw [srcRows] at hp
  obtain ⟨l, hl, hpl⟩ := List.mem_flatten.mp hp
  obtain ⟨e, _, rfl⟩ := List.mem_map.mp hl
  obtain ⟨m, _, rfl⟩ := List.mem_map.mp hpl
  exact pyStrip_idem e.name

/-- Every anchor value `src_anchor` can return is a stripped entity name,
hence fixed by `pyStrip`. -/
theorem src_anchor_stripped {es : List CEntity} {s a : String}
    (h : src_anchor es s = some a) : pyStrip a = a := by
  rw [src_anchor] at h
  cases hl : lookupG (src_counts es) s with
  | none => rw [hl] at h; simp at h
  | some c =>
    rw [hl] at h
    have hfirst : argmaxFirst c = some a := h
    cases c with
    | nil => simp [argmaxFirst] at hfirst
    | cons p t =>
      obtain ⟨k0, v0⟩ := p
      have ha : argmaxGo k0 v0 t = a := by
        rw [argmaxFirst] at hfirst
        injection hfirst
      have hmem : a ∈ k0 :: t.map Prod.fst := by
        rw [← ha]
        exact argmaxGo_mem k0 v0 t
      have hkeys : ∀ k ∈ (((k0, v0) :: t) : List (String × Nat)).map Prod.fst,
          pyStrip k = k := by
        intro k hk
        refine src_counts_keys (fun k => pyStrip k = k) (srcRows es) [] ?_
          (srcRows_snd_stripped es) s _ ?_ k hk
        · intro s2 c2 h2
          simp [lookupG] at h2
        · rw [← src_counts]
          exact hl
      apply hkeys
      simpa using hmem

/-! ### One entity pass and the whole anchoring fold -/

theorem modifyEnt_take (g : CEntity → CEntity) :
    ∀ (es : List CEntity) (k : Nat), (modifyEnt es k g).take k = es.take k := by
  intro es
  induction es with
  | nil => intro k; cases k <;> rfl
  | cons e t ih =>
    intro k
    cases k with
    | zero => rfl
    | succ k2 =>
      rw [modifyEnt, List.take_succ_cons, List.take_succ_cons, ih]

theorem modifyEnt_drop (g : CEntity → CEntity) :
    ∀ (es : List CEntity) (k : Nat), (modifyEnt es k g).drop (k + 1) = es.drop (k + 1) := by
  intro es
  induction es with
  | nil => intro k; cases k <;> rfl
  | cons e t ih =>
    intro k
    cases k with
    | zero => rfl
    | succ k2 =>
      rw [modifyEnt, List.drop_succ_cons, List.drop_succ_cons, ih]

theorem processEntity_none {A : String → Option String} {st : AnchorSt} {k : Nat}
    (hk : st.ents.get? k = none) : processEntity A st k = st := by
  rw [processEntity, hk]

theorem processEntity_some_ents {A : String → Option String} {st : AnchorSt} {k : Nat}
    {e : CEntity} (hk : st.ents.get? k = some e) :
    (processEntity A st k).ents =
      modifyEnt (applyMoves st (entityMoveOps A (pyStrip e.name) e.fields)).ents k
        (fun e2 => { e2 with fields := entityStays A (pyStrip e.name) e.fields }) := by
  rw [processEntity, hk]
  simp only [processFields_eq]

theorem processEntity_some_ebn {A : String → Option String} {st : AnchorSt} {k : Nat}
    {e : CEntity} (hk : st.ents.get? k = some e) :
    (processEntity A st k).ebn =
      (applyMoves st (entityMoveOps A (pyStrip e.name) e.fields)).ebn := by
  rw [processEntity, hk]
  simp only [processFields_eq]

/-- One `for e in list(entities)` iteration preserves the `ent_by_name`
invariant, never shortens the entity list, and never makes any triple reach
more canonical fields than before. -/
theorem processEntity_props {A : String → Option String}
    (hA : ∀ s a, A s = some a → pyStrip a = a)
    (st : AnchorSt) (k : Nat) (hebn : EBNInv st) :
    EBNInv (processEntity A st k) ∧
    st.ents.length ≤ (processEntity A st k).ents.length ∧
    ∀ t, tcount t (fieldLists (processEntity A st k).ents) ≤
      tcount t (fieldLists st.ents) := by
  cases hk : st.ents.get? k with
  | none =>
    rw [processEntity_none hk]
    exact ⟨hebn, le_refl _, fun t => le_refl _⟩
  | some e =>
    have hops : ∀ op ∈ entityMoveOps A (pyStrip e.name) e.fields,
        pyStrip op.a = op.a ∧ op.a ≠ pyStrip e.name := by
      intro op hop
      rw [entityMoveOps] at hop
      obtain ⟨l, hl, hopl⟩ := List.mem_flatten.mp hop
      obtain ⟨f, _, rfl⟩ := List.mem_map.mp hl
      obtain ⟨p, _, hAp, hnc, _, _, _⟩ := moveOps_mem hopl
      exact ⟨hA p.1 op.a hAp, fun he2 => hnc (Or.inr he2)⟩
    obtain ⟨hebn1, hk1, hlen1, hcnt1⟩ :=
      applyMoves_props (entityMoveOps A (pyStrip e.name) e.fields) st hebn hk hops
    refine ⟨?_, ?_, ?_⟩
    · intro x j h
      rw [processEntity_some_ebn hk] at h
      obtain ⟨e2, he2, hn2⟩ := hebn1 x j h
      rw [processEntity_some_ents hk]
      by_cases hj : j = k
      · refine ⟨{ e2 with fields := entityStays A (pyStrip e.name) e.fields }, ?_, hn2⟩
        rw [modifyEnt_get? _ _ _ j, if_pos hj, he2]
        rfl
      · exact ⟨e2, by rw [modifyEnt_get? _ _ _ j, if_neg hj]; exact he2, hn2⟩
    · rw [processEntity_some_ents hk, modifyEnt_length]
      exact hlen1
    · intro t
      rw [processEntity_some_ents hk]
      have hk2 : (modifyEnt (applyMoves st (entityMoveOps A (pyStrip e.name) e.fields)).ents k
          (fun e2 => { e2 with fields := entityStays A (pyStrip e.name) e.fields })).get? k =
          some { e with fields := entityStays A (pyStrip e.name) e.fields } := by
        rw [modifyEnt_get? _ _ _ k, if_pos rfl, hk1]
        rfl
      have hsplit1 := tcount_fieldLists_split hk t
      have hsplit2 := tcount_fieldLists_split hk1 t
      have hsplit3 := tcount_fieldLists_split hk2 t
      have hexc : fieldListsExcept (modifyEnt
          (applyMoves st (entityMoveOps A (pyStrip e.name) e.fields)).ents k
          (fun e2 => { e2 with fields := entityStays A (pyStrip e.name) e.fields })) k =
          fieldListsExcept (applyMoves st (entityMoveOps A (pyStrip e.name) e.fields)).ents k := by
        unfold fieldListsExcept
        rw [modifyEnt_take, modifyEnt_drop]
      have h1 := hcnt1 t
      have hent := entity_pieces_count A (pyStrip e.name) t e.fields
      have hA1 : tcount t (entFieldLists
          { e with fields := entityStays A (pyStrip e.name) e.fields }) =
          tcount t ((entityStays A (pyStrip e.name) e.fields).map CField.mappings) := rfl
      have hA2 : tcount t (entFieldLists e) = tcount t (e.fields.map CField.mappings) := rfl
      have hA3 : tcount t ((entityMoveOps A (pyStrip e.name) e.fields).map MoveOp.ms) +
          tcount t ((entityStays A (pyStrip e.name) e.fields).map CField.mappings) ≤
          tcount t (e.fields.map CField.mappings) := hent
      rw [hexc] at hsplit3
      omega

theorem processEntity_fold {A : String → Option String}
    (hA : ∀ s a, A s = some a → pyStrip a = a) :
    ∀ (n : Nat) (st : AnchorSt), EBNInv st →
    EBNInv ((List.range n).foldl (processEntity A) st) ∧
    ∀ t, tcount t (fieldLists ((List.range n).foldl (processEntity A) st).ents) ≤
      tcount t (fieldLists st.ents) := by
  intro n
  induction n with
  | zero => intro st h; exact ⟨h, fun t => le_refl _⟩
  | succ n2 ih =>
    intro st h
    rw [List.range_succ, List.foldl_append]
    simp only [List.foldl_cons, List.foldl_nil]
    obtain ⟨h1, h2⟩ := ih st h
    obtain ⟨g1, _, g3⟩ := processEntity_props hA _ n2 h1
    exact ⟨g1, fun t => le_trans (g3 t) (h2 t)⟩

theorem tcount_fieldLists_filter (p : CEntity → Bool) (t : String × String × String) :
    ∀ es : List CEntity, tcount t (fieldLists (es.filter p)) ≤ tcount t (fieldLists es) := by
  intro es
  induction es with
  | nil => exact le_refl _
  | cons e rest ih =>
    rw [List.filter_cons]
    by_cases h : p e
    · rw [if_pos h, fieldLists_cons, fieldLists_cons, tcount_append, tcount_append]
      omega
    · rw [if_neg h, fieldLists_cons, tcount_append]
      omega

/-- The anchoring pass never makes a triple reach more canonical fields
than it reached before. -/
theorem anchorEntities_tcount (es : List CEntity) (t : String × String × String) :
    tcount t (fieldLists (anchorEntities es)) ≤ tcount t (fieldLists es) := by
  rw [anchorEntities]
  by_cases he : es.isEmpty
  · rw [if_pos he]
  · rw [if_neg he]
    have hA : ∀ s a, src_anchor es s = some a → pyStrip a = a :=
      fun s a h => src_anchor_stripped h
    obtain ⟨_, h2⟩ := processEntity_fold hA es.length ⟨es, init_ebn es⟩ (init_ebn_inv es)
    show tcount t (fieldLists (((List.range es.length).foldl
      (processEntity (src_anchor es)) ⟨es, init_ebn es⟩).ents.filter
        (fun e => !e.fields.isEmpty))) ≤ tcount t (fieldLists es)
    exact le_trans (tcount_fieldLists_filter _ t _) (h2 t)

theorem mem_map_triple {t : String × String × String} {l : List Mapping} :
    t ∈ l.map tripleOfMapping ↔ hasTriple t l = true := by
  rw [hasTriple_iff, List.mem_map]

theorem field_triple_lists_eq (es : List CEntity) :
    field_triple_lists es = (fieldLists es).map (List.map tripleOfMapping) := by
  simp only [field_triple_lists, fieldLists, List.map_flatten, List.map_map]
  apply congrArg List.flatten
  apply List.map_congr_left
  intro e _
  simp [entFieldLists, Function.comp, List.map_map]

/-- `DisjT` gives the pairwise no-shared-triple property of the per-field
triple lists. -/
theorem DisjT_pairwise {L : List (List Mapping)} (h : DisjT L) :
    (L.map (List.map tripleOfMapping)).Pairwise (fun l1 l2 => ∀ t ∈ l1, t ∉ l2) := by
  rw [List.pairwise_map]
  induction L with
  | nil => exact List.Pairwise.nil
  | cons l rest ih =>
    have hrest : DisjT rest := by
      intro t
      have := h t
      rw [tcount_cons] at this
      omega
    refine List.Pairwise.cons ?_ (ih hrest)
    intro l2 hl2 t htl htl2
    rw [mem_map_triple] at htl htl2
    have hle := h t
    rw [tcount_cons, if_pos htl] at hle
    have hpos : 0 < tcount t rest := List.countP_pos.mpr ⟨l2, hl2, htl2⟩
    omega

theorem pairwise_DisjT : ∀ {L : List (List Mapping)}, L.Pairwise disjH → DisjT L := by
  intro L h
  induction h with
  | nil => intro t; simp [tcount]
  | @cons l rest hhead htail ih =>
    intro t
    rw [tcount_cons]
    by_cases hl : hasTriple t l
    · rw [if_pos hl]
      have hz : tcount t rest = 0 := List.countP_eq_zero.mpr (fun l2 hl2 => by
        rw [hhead l2 hl2 t hl]
        simp)
      omega
    · rw [if_neg hl]
      have := ih t
      omega

theorem fieldLists_expand (man : List ManifestEntry) (resp : List ClusterEntity) :
    fieldLists (expand_entities man resp) =
      (resp_field_id_lists resp).map
        (fun ids => ids.filterMap (fun i => (mid_lookup man i).map toMappingOf)) := by
  simp only [fieldLists, expand_entities, resp_field_id_lists, List.map_flatten,
    List.map_map]
  apply congrArg List.flatten
  apply List.map_congr_left
  intro e _
  simp [entFieldLists, expandField, Function.comp, List.map_map]

theorem hasTriple_expandIds {man : List ManifestEntry} {t : String × String × String}
    {ids : List Int} :
    hasTriple t (ids.filterMap (fun i => (mid_lookup man i).map toMappingOf)) = true ↔
    ∃ i ∈ ids, ∃ en, mid_lookup man i = some en ∧ tripleOfEntry en = t := by
  rw [hasTriple_iff]
  constructor
  · rintro ⟨m, hm, hmt⟩
    obtain ⟨i, hi, hfi⟩ := List.mem_filterMap.mp hm
    cases hml : mid_lookup man i with
    | none => rw [hml] at hfi; exact absurd hfi (by simp)
    | some en =>
      rw [hml] at hfi
      have hme : toMappingOf en = m := by injection hfi
      refine ⟨i, hi, en, hml, ?_⟩
      rw [← hmt, ← hme]
      rfl
  · rintro ⟨i, hi, en, hml, ht⟩
    refine ⟨toMappingOf en, List.mem_filterMap.mpr ⟨i, hi, by rw [hml]; rfl⟩, ?_⟩
    rw [← ht]
    rfl

theorem hasTriple_fallbackIds {man : List ManifestEntry} {t : String × String × String}
    {mids : List Nat} :
    hasTriple t (mids.filterMap
      (fun (m : Nat) => (mid_lookup man (m : Int)).map halfMappingOf)) = true ↔
    ∃ m ∈ mids, ∃ en, mid_lookup man (m : Int) = some en ∧ tripleOfEntry en = t := by
  rw [hasTriple_iff]
  constructor
  · rintro ⟨m, hm, hmt⟩
    obtain ⟨i, hi, hfi⟩ := List.mem_filterMap.mp hm
    cases hml : mid_lookup man (i : Int) with
    | none => rw [hml] at hfi; exact absurd hfi (by simp)
    | some en =>
      rw [hml] at hfi
      have hme : halfMappingOf en = m := by injection hfi
      refine ⟨i, hi, en, hml, ?_⟩
      rw [← hmt, ← hme]
      rfl
  · rintro ⟨m, hm, en, hml, ht⟩
    refine ⟨halfMappingOf en, List.mem_filterMap.mpr ⟨m, hm, by rw [hml]; rfl⟩, ?_⟩
    rw [← ht]
    rfl

theorem mem_resp_field_id_lists {resp : List ClusterEntity} {ids : List Int} :
    ids ∈ resp_field_id_lists resp ↔
      ∃ e ∈ resp, ∃ f ∈ e.fields, f.mapping_ids = ids := by
  rw [resp_field_id_lists]
  constructor
  · intro h
    obtain ⟨l, hl, hidl⟩ := List.mem_flatten.mp h
    obtain ⟨e, he, rfl⟩ := List.mem_map.mp hl
    obtain ⟨f, hf, hfi⟩ := List.mem_map.mp hidl
    exact ⟨e, he, f, hf, hfi⟩
  · rintro ⟨e, he, f, hf, hfi⟩
    exact List.mem_flatten.mpr ⟨_, List.mem_map.mpr ⟨e, he, rfl⟩,
      List.mem_map.mpr ⟨f, hf, hfi⟩⟩

/-- The expanded entities' field lists are pairwise triple-disjoint when the
response's id lists are pairwise disjoint and the manifest is injective. -/
theorem expand_pairwise {man : List ManifestEntry} {resp : List ClusterEntity}
    (hman : ManInj man)
    (hids : (resp_field_id_lists resp).Pairwise (fun l1 l2 => ∀ i ∈ l1, i ∉ l2)) :
    (fieldLists (expand_entities man resp)).Pairwise disjH := by
  rw [fieldLists_expand]
  rw [List.pairwise_map]
  refine hids.imp ?_
  intro l1 l2 hdisj t h1
  rw [Bool.eq_false_iff]
  intro h2
  obtain ⟨i1, hi1, e1, hm1, ht1⟩ := hasTriple_expandIds.mp h1
  obtain ⟨i2, hi2, e2, hm2, ht2⟩ := hasTriple_expandIds.mp h2
  have : i1 = i2 := hman i1 i2 e1 e2 hm1 hm2 (ht1.trans ht2.symm)
  rw [this] at hi1
  exact hdisj i2 hi1 hi2

theorem fieldLists_unassigned (man : List ManifestEntry) (missing : List Nat) :
    fieldLists [unassigned_entity man missing] =
      (groupByKey (srcOfMid man) missing).map
        (fun g => g.2.filterMap
          (fun (m : Nat) => (mid_lookup man (m : Int)).map halfMappingOf)) := by
  simp [fieldLists, entFieldLists, unassigned_entity, fallback_field, List.map_map,
    Function.comp]

/-- The Unassigned entity's fallback fields are pairwise triple-disjoint. -/
theorem unassigned_pairwise {man : List ManifestEntry} (missing : List Nat)
    (hman : ManInj man) :
    (fieldLists [unassigned_entity man missing]).Pairwise disjH := by
  rw [fieldLists_unassigned]
  rw [List.pairwise_map]
  have hkeys : (groupByKey (srcOfMid man) missing).Pairwise
      (fun g1 g2 => g1.1 ≠ g2.1) := by
    have hnd := groupByKey_keys_nodup (srcOfMid man) missing
    exact List.pairwise_map.mp hnd
  refine List.Pairwise.imp_of_mem ?_ hkeys
  intro g1 g2 hg1 hg2 hne t h1
  rw [Bool.eq_false_iff]
  intro h2
  obtain ⟨m1, hm1, e1, hl1, ht1⟩ := hasTriple_fallbackIds.mp h1
  obtain ⟨m2, hm2, e2, hl2, ht2⟩ := hasTriple_fallbackIds.mp h2
  have hm12 : (m1 : Int) = (m2 : Int) := hman _ _ e1 e2 hl1 hl2 (ht1.trans ht2.symm)
  have hmn : m1 = m2 := by omega
  apply hne
  have hk1 := groupByKey_rows_match g1 hg1 m1 hm1
  have hk2 := groupByKey_rows_match g2 hg2 m2 hm2
  rw [← hk1, ← hk2, hmn]

/-- Expansion plus the Unassigned repair yields pairwise triple-disjoint
field lists (missing ids are exactly the uncovered ones). -/
theorem expand_and_repair_DisjT (man : List ManifestEntry) (resp : List ClusterEntity)
    (hman : ManInj man)
    (hids : (resp_field_id_lists resp).Pairwise (fun l1 l2 => ∀ i ∈ l1, i ∉ l2)) :
    DisjT (fieldLists (expand_and_repair man resp)) := by
  apply pairwise_DisjT
  show (fieldLists (if (missing_ids man (covered_ids man resp)).isEmpty
      then expand_entities man resp
      else expand_entities man resp ++
        [unassigned_entity man (missing_ids man (covered_ids man resp))])).Pairwise disjH
  by_cases hm : (missing_ids man (covered_ids man resp)).isEmpty
  · rw [if_pos hm]
    exact expand_pairwise hman hids
  · rw [if_neg hm, fieldLists_append, List.pairwise_append]
    refine ⟨expand_pairwise hman hids, unassigned_pairwise _ hman, ?_⟩
    intro l1 hl1 l2 hl2 t h1
    rw [fieldLists_expand] at hl1
    obtain ⟨ids, hids1, rfl⟩ := List.mem_map.mp hl1
    rw [fieldLists_unassigned] at hl2
    obtain ⟨g, hg, rfl⟩ := List.mem_map.mp hl2
    rw [Bool.eq_false_iff]
    intro h2
    obtain ⟨i, hi, en1, hml1, ht1⟩ := hasTriple_expandIds.mp h1
    obtain ⟨m, hmm, en2, hml2, ht2⟩ := hasTriple_fallbackIds.mp h2
    have hmi : (m : Int) = i := hman _ _ en2 en1 hml2 hml1 (ht2.trans ht1.symm)
    have hbm : m ∈ missing_ids man (covered_ids man resp) := by
      have hbe := groupByKey_bucket_eq hg
      rw [hbe] at hmm
      exact (List.mem_filter.mp hmm).1
    rw [missing_ids] at hbm
    have hnotcov := (List.mem_filter.mp hbm).2
    simp only [decide_eq_true_eq] at hnotcov
    apply hnotcov
    rw [hmi]
    obtain ⟨e, he, f, hf, hfi⟩ := mem_resp_field_id_lists.mp hids1
    exact mem_covered_ids.mpr ⟨e, he, f, hf, by rw [hfi]; exact hi, by rw [hml1]; rfl⟩

/-- C2 (amended).  After mapping-id expansion, coverage repair and the
anchoring pass, no `(connector_id, source_entity, source_field)` triple
appears in the mappings of two different canonical fields — provided the
clustering response assigns no mapping id to two different fields and
distinct manifest ids carry distinct triples (both true of well-formed
inputs; the unamended claim fails without them). -/
theorem no_duplicate_mapping_amended (man : List ManifestEntry) (resp : List ClusterEntity)
    (hman : ManInj man)
    (hids : (resp_field_id_lists resp).Pairwise (fun l1 l2 => ∀ i ∈ l1, i ∉ l2)) :
    (field_triple_lists (pipeline_anchor man resp)).Pairwise
      (fun l1 l2 => ∀ t ∈ l1, t ∉ l2) := by
  rw [field_triple_lists_eq]
  apply DisjT_pairwise
  intro t
  have h1 : tcount t (fieldLists (pipeline_anchor man resp)) ≤
      tcount t (fieldLists (expand_and_repair man resp)) :=
    anchorEntities_tcount _ t
  have h2 := expand_and_repair_DisjT man resp hman hids t
  omega

theorem no_duplicate_mapping_amended_witness :
    ManInj [demoBuiltEntry] ∧
    (resp_field_id_lists respOne).Pairwise (fun l1 l2 => ∀ i ∈ l1, i ∉ l2) ∧
    (field_triple_lists (pipeline_anchor [demoBuiltEntry] respOne)).Pairwise
      (fun l1 l2 => ∀ t ∈ l1, t ∉ l2) := by
  have hman : ManInj [demoBuiltEntry] := by
    intro i j ei ej hi hj _
    rw [mid_lookup] at hi hj
    by_cases h1 : i < 0
    · rw [if_pos h1] at hi
      exact absurd hi (by simp)
    · by_cases h2 : j < 0
      · rw [if_pos h2] at hj
        exact absurd hj (by simp)
      · rw [if_neg h1] at hi
        rw [if_neg h2] at hj
        have hi2 := get?_lt_of_some hi
        have hj2 := get?_lt_of_some hj
        simp only [List.length_cons, List.length_nil] at hi2 hj2
        omega
  have hids : (resp_field_id_lists respOne).Pairwise (fun l1 l2 => ∀ i ∈ l1, i ∉ l2) := by
    simp [resp_field_id_lists, respOne]
  exact ⟨hman, hids, no_duplicate_mapping_amended [demoBuiltEntry] respOne hman hids⟩

theorem srcRows_eq (es : List CEntity) :
    srcRows es = (es.map (fun e =>
      (rowsOfEnt e).map (fun m => (m.source_entity, pyStrip e.name)))).flatten := rfl

theorem rowChunk (s name : String) : ∀ l : List Mapping,
    ((l.map (fun m => (m.source_entity, name))).filter (fun p => p.1 = s)).map Prod.snd =
      List.replicate (l.countP (fun m => m.source_entity = s)) name := by
  intro l
  induction l with
  | nil => rfl
  | cons m t ihl =>
    by_cases h : m.source_entity = s <;>
      simp [h, ihl, List.replicate_succ]

theorem namesFor_chunks (s : String) : ∀ es : List CEntity,
    namesFor s es = (es.map (fun e =>
      List.replicate (countSrc s e) (pyStrip e.name))).flatten := by
  intro es
  induction es with
  | nil => rfl
  | cons e rest ih =>
    rw [namesFor, srcRows_eq] at ih ⊢
    rw [List.map_cons, List.flatten_cons, List.filter_append, List.map_append, ih]
    rw [List.map_cons, List.flatten_cons]
    congr 1
    exact rowChunk s (pyStrip e.name) (rowsOfEnt e)

theorem countP_flatten2 {α : Type} (p : α → Bool) :
    ∀ L : List (List α), L.flatten.countP p = (L.map (List.countP p)).sum := by
  intro L
  induction L with
  | nil => rfl
  | cons l t ih =>
    rw [List.flatten_cons, List.countP_append, List.map_cons, List.sum_cons, ih]

theorem totalSrc_eq_sum (s : String) (es : List CEntity) :
    totalSrc s es = (es.map (fun e => countSrc s e)).sum := by
  rw [totalSrc, allRows, countP_flatten2, List.map_map]
  rfl

theorem namesFor_length (s : String) (es : List CEntity) :
    (namesFor s es).length = totalSrc s es := by
  rw [namesFor_chunks, List.length_flatten, List.map_map, totalSrc_eq_sum]
  apply congrArg List.sum
  apply List.map_congr_left
  intro e _
  simp [Function.comp]

theorem lookupG_bumpSrc_foldl :
    ∀ (rows : List (String × String)) (acc : List (String × List (String × Nat)))
      (s : String),
    lookupG (rows.foldl (fun a p => bumpSrc a p.1 p.2) acc) s =
      match lookupG acc s, (rows.filter (fun p => p.1 = s)).map Prod.snd with
      | none, [] => none
      | none, ns => some (ns.foldl (fun c n2 => bump c n2) [])
      | some c0, ns => some (ns.foldl (fun c n2 => bump c n2) c0) := by
  intro rows
  induction rows with
  | nil =>
    intro acc s
    cases h : lookupG acc s <;> simp [h]
  | cons p t ih =>
    intro acc s
    rw [List.foldl_cons, ih]
    by_cases hp : p.1 = s
    · rw [lookupG_bumpSrc, if_pos hp.symm, hp]
      rw [List.filter_cons_of_pos (by simpa using hp)]
      cases h : lookupG acc s with
      | none => simp [h]
      | some c0 => simp [h]
    · rw [lookupG_bumpSrc, if_neg (fun h => hp h.symm)]
      rw [List.filter_cons_of_neg (by simpa using hp)]

theorem lookupG_src_counts (es : List CEntity) (s : String) :
    lookupG (src_counts es) s =
      match namesFor s es with
      | [] => none
      | ns => some (ns.foldl (fun c n2 => bump c n2) []) := by
  rw [src_counts, lookupG_bumpSrc_foldl]
  rw [namesFor]
  cases h : ((srcRows es).filter (fun p => p.1 = s)).map Prod.snd <;>
    simp [lookupG, h]

theorem bump_ne_nil (c : List (String × Nat)) (k : String) : bump c k ≠ [] := by
  cases c with
  | nil => simp [bump]
  | cons p t =>
    obtain ⟨a, n⟩ := p
    rw [bump]
    by_cases h : a = k
    · rw [if_pos h]; simp
    · rw [if_neg h]; simp

theorem foldl_bump_ne_nil :
    ∀ (ns : List String) (c : List (String × Nat)), c ≠ [] →
    ns.foldl (fun c n2 => bump c n2) c ≠ [] := by
  intro ns
  induction ns with
  | nil => intro c h; exact h
  | cons y t ih =>
    intro c _
    rw [List.foldl_cons]
    exact ih _ (bump_ne_nil c y)

theorem bump_fold_all_eq (a : String) : ∀ (ns : List String) (k : Nat),
    (∀ x ∈ ns, x = a) →
    ns.foldl (fun c n2 => bump c n2) [(a, k)] = [(a, k + ns.length)] := by
  intro ns
  induction ns with
  | nil => intro k _; simp
  | cons x t ih =>
    intro k hx
    rw [List.foldl_cons]
    have hxa : x = a := hx x (List.mem_cons_self _ _)
    subst hxa
    have hb : bump [(x, k)] x = [(x, k + 1)] := by rw [bump, if_pos rfl]
    rw [hb, ih (k + 1) (fun y hy => hx y (List.mem_cons_of_mem _ hy))]
    have harith : k + 1 + t.length = k + (t.length + 1) := by omega
    rw [List.length_cons, ← harith]

/-- Equal `src_counts` data means equal anchors. -/
theorem src_anchor_of_namesFor_eq {es es2 : List CEntity} {s : String}
    (h : namesFor s es2 = namesFor s es) : src_anchor es2 s = src_anchor es s := by
  unfold src_anchor
  rw [lookupG_src_counts, lookupG_src_counts, h]

/-- When every row of source `s` sits under the single stripped name `a`,
the anchor of `s` is `a`. -/
theorem src_anchor_all_eq {es2 : List CEntity} {s a : String}
    (hne : namesFor s es2 ≠ []) (hall : ∀ x ∈ namesFor s es2, x = a) :
    src_anchor es2 s = some a := by
  rw [src_anchor, lookupG_src_counts]
  cases h : namesFor s es2 with
  | nil => exact absurd h hne
  | cons x t =>
    have hx : x = a := hall x (h ▸ List.mem_cons_self _ _)
    subst hx
    have hall2 : ∀ y ∈ t, y = x := fun y hy => hall y (h ▸ List.mem_cons_of_mem _ hy)
    show (some ((x :: t).foldl (fun c n2 => bump c n2) [])).bind argmaxFirst = some x
    rw [List.foldl_cons]
    have hb : bump [] x = [(x, 1)] := rfl
    rw [hb, bump_fold_all_eq x t 1 hall2]
    rfl

/-- A source that occurs at all has an anchor. -/
theorem src_anchor_occurs {es : List CEntity} {s : String}
    (h : namesFor s es ≠ []) : ∃ a, src_anchor es s = some a := by
  rw [src_anchor, lookupG_src_counts]
  cases hn : namesFor s es with
  | nil => exact absurd hn h
  | cons x t =>
    show ∃ a, (some ((x :: t).foldl (fun c n2 => bump c n2) [])).bind argmaxFirst = some a
    have hne2 : (x :: t).foldl (fun c n2 => bump c n2) [] ≠ [] := by
      rw [List.foldl_cons]
      exact foldl_bump_ne_nil t _ (bump_ne_nil [] x)
    cases hc : (x :: t).foldl (fun c n2 => bump c n2) [] with
    | nil => exact absurd hc hne2
    | cons p rest =>
      obtain ⟨k2, v2⟩ := p
      exact ⟨argmaxGo k2 v2 rest, rfl⟩

theorem namesFor_ne_nil_iff {s : String} {es : List CEntity} :
    namesFor s es ≠ [] ↔ ∃ m ∈ allRows es, m.source_entity = s := by
  constructor
  · intro h
    have hl : (namesFor s es).length ≠ 0 := fun h2 => h (List.length_eq_zero.mp h2)
    rw [namesFor_length, totalSrc] at hl
    obtain ⟨m, hm, hms⟩ := List.countP_pos.mp (Nat.pos_of_ne_zero hl)
    exact ⟨m, hm, by simpa using hms⟩
  · rintro ⟨m, hm, hms⟩ h
    have hz : (namesFor s es).length = 0 := by rw [h]; rfl
    rw [namesFor_length, totalSrc] at hz
    have h2 := List.countP_eq_zero.mp hz m hm
    simp only [decide_eq_true_eq] at h2
    exact h2 hms

theorem strip_mem_namesFor {s : String} {es : List CEntity} {e : CEntity}
    (he : e ∈ es) (hc : 0 < countSrc s e) :
    pyStrip e.name ∈ namesFor s es := by
  rw [namesFor_chunks]
  apply List.mem_flatten.mpr
  refine ⟨List.replicate (countSrc s e) (pyStrip e.name),
    List.mem_map.mpr ⟨e, he, rfl⟩, ?_⟩
  exact List.mem_replicate.mpr ⟨by omega, rfl⟩

/-! ### Micro-effects of one move on rows and counts -/

theorem groupByKey_bucket_ne_nil {q a : Type} [DecidableEq q] {key : a → q} {xs : List a}
    {k : q} {l : List a} (h : (k, l) ∈ groupByKey key xs) : l ≠ [] := by
  intro hl
  have h1 := mem_lookupG (groupByKey_keys_nodup key xs) h
  rw [lookupG_groupByKey] at h1
  have h2 := groupByKey_bucket_eq h
  rw [hl] at h2
  rw [← h2, hl] at h1
  simp at h1

theorem totalSrc_cons (s : String) (e : CEntity) (rest : List CEntity) :
    totalSrc s (e :: rest) = countSrc s e + totalSrc s rest := by
  rw [totalSrc, allRows, List.map_cons, List.flatten_cons, List.countP_append]
  rfl

theorem mem_allRows_cons {m : Mapping} {e : CEntity} {rest : List CEntity} :
    m ∈ allRows (e :: rest) ↔ m ∈ rowsOfEnt e ∨ m ∈ allRows rest := by
  rw [allRows, List.map_cons, List.flatten_cons, List.mem_append]
  rfl

theorem countP_rows_extendField (p : Mapping → Bool) (fname : String) (tmpl : CField)
    (ms : List Mapping) :
    ∀ fs : List CField,
    (((extendField fs fname tmpl ms).map (fun f => f.mappings)).flatten).countP p =
      ((fs.map (fun f => f.mappings)).flatten).countP p + ms.countP p := by
  intro fs
  induction fs with
  | nil =>
    simp [extendField_eq_newFieldOf, newFieldOf]
  | cons fl rest ih =>
    rw [extendField]
    by_cases h : pyLower (pyStrip fl.name) = pyLower (pyStrip fname)
    · rw [if_pos h]
      simp only [List.map_cons, List.flatten_cons, List.countP_append]
      omega
    · rw [if_neg h]
      simp only [List.map_cons, List.flatten_cons, List.countP_append]
      omega

theorem mem_rows_extendField {fname : String} {tmpl : CField} {ms : List Mapping}
    {m : Mapping} : ∀ {fs : List CField},
    m ∈ ((extendField fs fname tmpl ms).map (fun f => f.mappings)).flatten →
    m ∈ (fs.map (fun f => f.mappings)).flatten ∨ m ∈ ms := by
  intro fs
  induction fs with
  | nil =>
    intro h
    simp [extendField_eq_newFieldOf, newFieldOf] at h
    exact Or.inr h
  | cons fl rest ih =>
    intro h
    rw [extendField] at h
    by_cases hc : pyLower (pyStrip fl.name) = pyLower (pyStrip fname)
    · rw [if_pos hc] at h
      simp only [List.map_cons, List.flatten_cons, List.mem_append] at h ⊢
      rcases h with h | h
      · rcases h with h | h
        · exact Or.inl (Or.inl h)
        · exact Or.inr h
      · exact Or.inl (Or.inr h)
    · rw [if_neg hc] at h
      simp only [List.map_cons, List.flatten_cons, List.mem_append] at h ⊢
      rcases h with h | h
      · exact Or.inl (Or.inl h)
      · rcases ih h with h2 | h2
        · exact Or.inl (Or.inr h2)
        · exact Or.inr h2

theorem fields_extendField_ne_nil {fname : String} {tmpl : CField} {ms : List Mapping}
    (hms : ms ≠ []) : ∀ fs : List CField, (∀ f ∈ fs, f.mappings ≠ []) →
    ∀ f ∈ extendField fs fname tmpl ms, f.mappings ≠ [] := by
  intro fs
  induction fs with
  | nil =>
    intro _ f hf
    rw [extendField_eq_newFieldOf] at hf
    simp only [List.mem_singleton] at hf
    rw [hf]
    exact hms
  | cons fl rest ih =>
    intro hall f hf
    rw [extendField] at hf
    by_cases hc : pyLower (pyStrip fl.name) = pyLower (pyStrip fname)
    · rw [if_pos hc] at hf
      rcases List.mem_cons.mp hf with rfl | hf2
      · show fl.mappings ++ ms ≠ []
        intro happ
        exact hms (List.append_eq_nil.mp happ).2
      · exact hall f (List.mem_cons_of_mem _ hf2)
    · rw [if_neg hc] at hf
      rcases List.mem_cons.mp hf with rfl | hf2
      · exact hall f (List.mem_cons_self _ _)
      · exact ih (fun f2 hf2b => hall f2 (List.mem_cons_of_mem _ hf2b)) f hf2

theorem countSrc_extend (s : String) (e : CEntity) (fname : String) (tmpl : CField)
    (ms : List Mapping) :
    countSrc s { e with fields := extendField e.fields fname tmpl ms } =
      countSrc s e + ms.countP (fun m => m.source_entity = s) :=
  countP_rows_extendField _ fname tmpl ms e.fields

theorem totalSrc_modifyEnt {s : String} (g : CEntity → CEntity) (d : Nat) :
    ∀ (es : List CEntity) (j : Nat) (ej : CEntity), es.get? j = some ej →
    countSrc s (g ej) = countSrc s ej + d →
    totalSrc s (modifyEnt es j g) = totalSrc s es + d := by
  intro es
  induction es with
  | nil => intro j ej hj; simp at hj
  | cons e rest ih =>
    intro j ej hj hg
    cases j with
    | zero =>
      simp only [List.get?_cons_zero, Option.some.injEq] at hj
      subst hj
      rw [modifyEnt, totalSrc_cons, totalSrc_cons, hg]
      omega
    | succ j2 =>
      simp only [List.get?_cons_succ] at hj
      rw [modifyEnt, totalSrc_cons, totalSrc_cons, ih j2 ej hj hg]
      omega

theorem mem_allRows_modifyEnt {g : CEntity → CEntity} {ms : List Mapping}
    (hg : ∀ e, ∀ m2 ∈ rowsOfEnt (g e), m2 ∈ rowsOfEnt e ∨ m2 ∈ ms) :
    ∀ (es : List CEntity) (j : Nat) {m : Mapping},
    m ∈ allRows (modifyEnt es j g) → m ∈ allRows es ∨ m ∈ ms := by
  intro es
  induction es with
  | nil => intro j m h; cases j <;> simp [modifyEnt, allRows] at h
  | cons e rest ih =>
    intro j m h
    cases j with
    | zero =>
      rw [modifyEnt] at h
      rcases mem_allRows_cons.mp h with h2 | h2
      · rcases hg e m h2 with h3 | h3
        · exact Or.inl (mem_allRows_cons.mpr (Or.inl h3))
        · exact Or.inr h3
      · exact Or.inl (mem_allRows_cons.mpr (Or.inr h2))
    | succ j2 =>
      rw [modifyEnt] at h
      rcases mem_allRows_cons.mp h with h2 | h2
      · exact Or.inl (mem_allRows_cons.mpr (Or.inl h2))
      · rcases ih j2 h2 with h3 | h3
        · exact Or.inl (mem_allRows_cons.mpr (Or.inr h3))
        · exact Or.inr h3

/-! ### Anchors always name an existing entity, so no entity is created -/

theorem src_anchor_hits {es : List CEntity} {s a : String}
    (h : src_anchor es s = some a) : ∃ e2 ∈ es, pyStrip e2.name = a := by
  rw [src_anchor] at h
  cases hl : lookupG (src_counts es) s with
  | none => rw [hl] at h; simp at h
  | some c =>
    rw [hl] at h
    have hfirst : argmaxFirst c = some a := h
    cases c with
    | nil => simp [argmaxFirst] at hfirst
    | cons p t =>
      obtain ⟨k0, v0⟩ := p
      have ha : argmaxGo k0 v0 t = a := by
        rw [argmaxFirst] at hfirst
        injection hfirst
      have hmem : a ∈ k0 :: t.map Prod.fst := by
        rw [← ha]
        exact argmaxGo_mem k0 v0 t
      have hkeys : ∀ k ∈ (((k0, v0) :: t) : List (String × Nat)).map Prod.fst,
          ∃ e2 ∈ es, pyStrip e2.name = k := by
        intro k hk
        refine src_counts_keys (fun k => ∃ e2 ∈ es, pyStrip e2.name = k) (srcRows es) [] ?_
          ?_ s _ ?_ k hk
        · intro s2 c2 h2
          simp [lookupG] at h2
        · intro p hp
          rw [srcRows] at hp
          obtain ⟨l, hl2, hpl⟩ := List.mem_flatten.mp hp
          obtain ⟨e, he, rfl⟩ := List.mem_map.mp hl2
          obtain ⟨m, _, rfl⟩ := List.mem_map.mp hpl
          exact ⟨e, he, rfl⟩
        · rw [← src_counts]
          exact hl
      apply hkeys
      simpa using hmem

theorem lookupA_putA_isSome {q b : Type} [DecidableEq q] {acc : List (q × b)} {x : q}
    (h : (lookupA acc x).isSome) (k : q) (v : b) :
    (lookupA (putA acc k v) x).isSome := by
  rw [lookupA_putA]
  by_cases hx : x = k
  · rw [if_pos hx]; rfl
  · rw [if_neg hx]; exact h

theorem lookupA_foldl_putA_hit {q b : Type} [DecidableEq q] (x : q) :
    ∀ (ps : List (q × b)) (acc : List (q × b)),
    ((∃ p ∈ ps, p.1 = x) ∨ (lookupA acc x).isSome) →
    (lookupA (ps.foldl (fun a p => putA a p.1 p.2) acc) x).isSome := by
  intro ps
  induction ps with
  | nil =>
    intro acc h
    rcases h with ⟨p, hp, _⟩ | h
    · simp at hp
    · exact h
  | cons p rest ih =>
    intro acc h
    rw [List.foldl_cons]
    apply ih
    rcases h with ⟨p2, hp2, hx⟩ | h
    · rcases List.mem_cons.mp hp2 with rfl | hp3
      · right
        rw [lookupA_putA, if_pos hx.symm]
        rfl
      · exact Or.inl ⟨p2, hp3, hx⟩
    · exact Or.inr (lookupA_putA_isSome h p.1 p.2)

theorem init_ebn_eq (es : List CEntity) :
    init_ebn es = (es.enum.map (fun p => (pyStrip p.2.name, p.1))).foldl
      (fun a p => putA a p.1 p.2) [] := by
  rw [init_ebn, List.foldl_map]

theorem init_ebn_hit {es : List CEntity} {a : String}
    (h : ∃ e ∈ es, pyStrip e.name = a) : ∃ j, lookupA (init_ebn es) a = some j := by
  obtain ⟨e, he, hname⟩ := h
  obtain ⟨i, hi⟩ := List.mem_iff_get.mp he
  have henum : (i.1, e) ∈ es.enum := by
    rw [← hi]
    exact List.mem_enum_iff_getElem?.mpr (by
      rw [List.getElem?_eq_getElem i.2]
      rfl)
  have hsome := lookupA_foldl_putA_hit a
    (es.enum.map (fun p => (pyStrip p.2.name, p.1))) []
    (Or.inl ⟨(pyStrip e.name, i.1), List.mem_map.mpr ⟨(i.1, e), henum, rfl⟩, hname⟩)
  rw [← init_ebn_eq] at hsome
  cases hj : lookupA (init_ebn es) a with
  | none => rw [hj] at hsome; simp at hsome
  | some j => exact ⟨j, rfl⟩

/-- Facts about one move list applied during pass 1: names, lengths and the
`ent_by_name` table are untouched, rows only move, per-source totals grow by
the moved rows, sources anchored to `""` keep their per-entity counts, and
entities gaining rows of an anchored source bear that anchor's name. -/
theorem applyMoves_P1 {es : List CEntity} :
    ∀ (ops : List MoveOp) (st : AnchorSt),
    st.ebn = init_ebn es →
    st.ents.length = es.length →
    (∀ i, (st.ents.get? i).map CEntity.name = (es.get? i).map CEntity.name) →
    (∀ op ∈ ops, ∃ s_op, src_anchor es s_op = some op.a ∧ op.a ≠ "" ∧
      (∀ m ∈ op.ms, m.source_entity = s_op) ∧ op.ms ≠ [] ∧
      (∀ m ∈ op.ms, m ∈ allRows es)) →
    (applyMoves st ops).ebn = init_ebn es ∧
    (applyMoves st ops).ents.length = es.length ∧
    (∀ i, ((applyMoves st ops).ents.get? i).map CEntity.name =
      (es.get? i).map CEntity.name) ∧
    (∀ m ∈ allRows (applyMoves st ops).ents,
      m ∈ allRows st.ents ∨ m ∈ (ops.map MoveOp.ms).flatten) ∧
    (∀ s, totalSrc s (applyMoves st ops).ents = totalSrc s st.ents +
      ((ops.map MoveOp.ms).flatten).countP (fun m => m.source_entity = s)) ∧
    (∀ s, src_anchor es s = some "" → ∀ i,
      ((applyMoves st ops).ents.get? i).map (countSrc s) =
        (st.ents.get? i).map (countSrc s)) ∧
    (∀ s a, src_anchor es s = some a → a ≠ "" →
      ∀ i e1, (applyMoves st ops).ents.get? i = some e1 → 0 < countSrc s e1 →
        (∃ e0, st.ents.get? i = some e0 ∧ 0 < countSrc s e0) ∨ pyStrip e1.name = a) ∧
    (∀ i e1 e0, (applyMoves st ops).ents.get? i = some e1 →
      st.ents.get? i = some e0 → (∀ f ∈ e0.fields, f.mappings ≠ []) →
      ∀ f ∈ e1.fields, f.mappings ≠ []) := by
  intro ops
  induction ops with
  | nil =>
    intro st hebn hlen hname _
    refine ⟨hebn, hlen, hname, ?_, ?_, ?_, ?_, ?_⟩
    · intro m hm; exact Or.inl hm
    · intro s; simp [applyMoves]
    · intro s _ i; rfl
    · intro s a _ _ i e1 h1 hpos
      exact Or.inl ⟨e1, h1, hpos⟩
    · intro i e1 e0 h1 h0 hf
      have hid : applyMoves st [] = st := rfl
      rw [hid, h0] at h1
      have : e0 = e1 := by injection h1
      rw [← this]
      exact hf
  | cons op rest ih =>
    intro st hebn hlen hname hops
    obtain ⟨s_op, hAs, hanot, hsrc, hmsne, hmsrows⟩ := hops op (List.mem_cons_self _ _)
    obtain ⟨j, hj⟩ := init_ebn_hit (src_anchor_hits hAs)
    have hl : lookupA st.ebn op.a = some j := by rw [hebn]; exact hj
    obtain ⟨eJ, hJes, hJname⟩ := init_ebn_inv es op.a j hj
    have hj1 : ∃ ej1, st.ents.get? j = some ej1 ∧ ej1.name = eJ.name := by
      have := hname j
      rw [hJes] at this
      cases hx : st.ents.get? j with
      | none => rw [hx] at this; simp at this
      | some ej1 =>
        rw [hx] at this
        simp only [Option.map_some'] at this
        exact ⟨ej1, rfl, by injection this⟩
    obtain ⟨ej1, hj1e, hj1n⟩ := hj1
    have hstep : applyMoves st (op :: rest) =
        applyMoves (applyMove st op.a op.fname op.tmpl op.ms) rest := rfl
    rw [hstep]
    have hents1 : (applyMove st op.a op.fname op.tmpl op.ms).ents =
        modifyEnt st.ents j
          (fun e => { e with fields := extendField e.fields op.fname op.tmpl op.ms }) :=
      applyMove_some_ents op.fname op.tmpl op.ms hl
    have hebn1 : (applyMove st op.a op.fname op.tmpl op.ms).ebn = init_ebn es := by
      rw [applyMove_some_ebn op.fname op.tmpl op.ms hl]
      exact hebn
    have hlen1 : (applyMove st op.a op.fname op.tmpl op.ms).ents.length = es.length := by
      rw [hents1, modifyEnt_length]
      exact hlen
    have hname1 : ∀ i, ((applyMove st op.a op.fname op.tmpl op.ms).ents.get? i).map
        CEntity.name = (es.get? i).map CEntity.name := by
      intro i
      rw [hents1, modifyEnt_get?]
      by_cases hij : i = j
      · rw [if_pos hij]
        rw [← hname i]
        cases hx : st.ents.get? i <;> rfl
      · rw [if_neg hij]
        exact hname i
    obtain ⟨g1, g2, g3, g4, g5, g6, g7, g8⟩ := ih
      (applyMove st op.a op.fname op.tmpl op.ms) hebn1 hlen1 hname1
      (fun o ho => hops o (List.mem_cons_of_mem _ ho))
    refine ⟨g1, g2, g3, ?_, ?_, ?_, ?_, ?_⟩
    · intro m hm
      rcases g4 m hm with h2 | h2
      · rw [hents1] at h2
        have hg : ∀ e : CEntity, ∀ m2 ∈ rowsOfEnt
            { e with fields := extendField e.fields op.fname op.tmpl op.ms },
            m2 ∈ rowsOfEnt e ∨ m2 ∈ op.ms := by
          intro e m2 hm2
          exact mem_rows_extendField hm2
        rcases mem_allRows_modifyEnt hg st.ents j h2 with h3 | h3
        · exact Or.inl h3
        · exact Or.inr (by
            rw [List.map_cons, List.flatten_cons, List.mem_append]
            exact Or.inl h3)
      · exact Or.inr (by
          rw [List.map_cons, List.flatten_cons, List.mem_append]
          exact Or.inr h2)
    · intro s
      rw [g5 s]
      have htot1 : totalSrc s (applyMove st op.a op.fname op.tmpl op.ms).ents =
          totalSrc s st.ents + op.ms.countP (fun m => m.source_entity = s) := by
        rw [hents1]
        exact totalSrc_modifyEnt _ _ st.ents j ej1 hj1e (countSrc_extend s ej1 _ _ _)
      rw [htot1, List.map_cons, List.flatten_cons, List.countP_append]
      omega
    · intro s hs0 i
      rw [g6 s hs0 i, hents1, modifyEnt_get?]
      by_cases hij : i = j
      · rw [if_pos hij]
        have hsne : s ≠ s_op := by
          intro he
          rw [he, hAs] at hs0
          have : op.a = "" := by injection hs0
          exact hanot this
        have hz : op.ms.countP (fun m => m.source_entity = s) = 0 := by
          apply List.countP_eq_zero.mpr
          intro m hm hc
          simp only [decide_eq_true_eq] at hc
          exact hsne (hc ▸ hsrc m hm)
        cases hx : st.ents.get? i with
        | none => rfl
        | some e =>
          show some (countSrc s
            { e with fields := extendField e.fields op.fname op.tmpl op.ms }) =
              some (countSrc s e)
          rw [countSrc_extend, hz, Nat.add_zero]
      · rw [if_neg hij]
    · intro s a hsa hane i e1 h1 hpos
      rcases g7 s a hsa hane i e1 h1 hpos with h2 | h2
      · obtain ⟨e01, h01, hpos1⟩ := h2
        have h01o := h01
        rw [hents1, modifyEnt_get?] at h01
        by_cases hij : i = j
        · rw [if_pos hij] at h01
          cases hx : st.ents.get? i with
          | none => rw [hx] at h01; exact absurd h01 (by simp)
          | some e0 =>
            rw [hx] at h01
            simp only [Option.map_some'] at h01
            have he01 : { e0 with
                fields := extendField e0.fields op.fname op.tmpl op.ms } = e01 := by
              injection h01
            rw [← he01] at hpos1
            rw [countSrc_extend] at hpos1
            by_cases hz : op.ms.countP (fun m => m.source_entity = s) = 0
            · left
              refine ⟨e0, rfl, ?_⟩
              omega
            · right
              have hsop : s = s_op := by
                obtain ⟨m, hm, hmc⟩ := List.countP_pos.mp (Nat.pos_of_ne_zero hz)
                simp only [decide_eq_true_eq] at hmc
                rw [← hmc, hsrc m hm]
              have haa : op.a = a := by
                rw [hsop, hAs] at hsa
                injection hsa
              have hnames : e1.name = e01.name := by
                have hc1 := g3 i
                have hc2 := hname1 i
                rw [h1] at hc1
                rw [h01o] at hc2
                simp only [Option.map_some'] at hc1 hc2
                rw [← hc2] at hc1
                injection hc1
              rw [hnames, ← he01]
              show pyStrip e0.name = a
              have hJes2 : es.get? j = some eJ := hJes
              have he0J : e0.name = eJ.name := by
                have hc3 := hname i
                rw [hx, hij, hJes2] at hc3
                simp only [Option.map_some'] at hc3
                injection hc3
              rw [he0J, hJname]
              exact haa
        · rw [if_neg hij] at h01
          exact Or.inl ⟨e01, h01, hpos1⟩
      · exact Or.inr h2
    · intro i e1 e0 h1 h0 hf
      have hlt : i < (applyMove st op.a op.fname op.tmpl op.ms).ents.length := by
        rw [hlen1, ← hlen]
        exact get?_lt_of_some h0
      have hx : ∃ e01, (applyMove st op.a op.fname op.tmpl op.ms).ents.get? i =
          some e01 := by
        cases hy : (applyMove st op.a op.fname op.tmpl op.ms).ents.get? i with
        | none =>
          rw [List.get?_eq_none] at hy
          omega
        | some e01 => exact ⟨e01, rfl⟩
      obtain ⟨e01, h01⟩ := hx
      refine g8 i e1 e01 h1 h01 ?_
      rw [hents1, modifyEnt_get?] at h01
      by_cases hij : i = j
      · rw [if_pos hij, h0] at h01
        simp only [Option.map_some'] at h01
        have : { e0 with fields := extendField e0.fields op.fname op.tmpl op.ms } =
            e01 := by injection h01
        rw [← this]
        exact fields_extendField_ne_nil hmsne e0.fields hf
      · rw [if_neg hij, h0] at h01
        have : e0 = e01 := by injection h01
        rw [← this]
        exact hf

/-! ### The staying side of a field split -/

theorem stayFlat_mem_strong {A : String → Option String} {eName : String} :
    ∀ {groups : List (String × List Mapping)} {m : Mapping},
    m ∈ stayFlat A eName groups →
    ∃ p ∈ groups, m ∈ p.2 ∧
      (A p.1 = none ∨ ∃ a, A p.1 = some a ∧ (a = "" ∨ a = eName)) := by
  intro groups
  induction groups with
  | nil => intro m h; simp [stayFlat] at h
  | cons g rest ih =>
    intro m h
    obtain ⟨src, ms⟩ := g
    cases hA : A src with
    | none =>
      rw [stayFlat_cons_none hA] at h
      rcases List.mem_append.mp h with h1 | h2
      · exact ⟨(src, ms), List.mem_cons_self _ _, h1, Or.inl hA⟩
      · obtain ⟨p, hp, hmp, hcond⟩ := ih h2
        exact ⟨p, List.mem_cons_of_mem _ hp, hmp, hcond⟩
    | some a =>
      rw [stayFlat_cons_some hA] at h
      by_cases hc : a = "" ∨ a = eName
      · rw [if_pos hc] at h
        rcases List.mem_append.mp h with h1 | h2
        · exact ⟨(src, ms), List.mem_cons_self _ _, h1, Or.inr ⟨a, hA, hc⟩⟩
        · obtain ⟨p, hp, hmp, hcond⟩ := ih h2
          exact ⟨p, List.mem_cons_of_mem _ hp, hmp, hcond⟩
      · rw [if_neg hc] at h
        obtain ⟨p, hp, hmp, hcond⟩ := ih h
        exact ⟨p, List.mem_cons_of_mem _ hp, hmp, hcond⟩

theorem fieldStay_some {A : String → Option String} {eName : String} {f f' : CField}
    (h : fieldStay A eName f = some f') :
    f'.mappings = stayFlat A eName (groupByKey Mapping.source_entity f.mappings) ∧
    f'.mappings ≠ [] ∧ f'.name = f.name := by
  simp only [fieldStay] at h
  by_cases he : (stayFlat A eName (groupByKey Mapping.source_entity f.mappings)).isEmpty
  · rw [if_pos he] at h
    exact absurd h (by simp)
  · rw [if_neg he] at h
    have h3 := Option.some.inj h
    refine ⟨by rw [← h3], ?_, by rw [← h3]⟩
    rw [← h3]
    show stayFlat A eName (groupByKey Mapping.source_entity f.mappings) ≠ []
    intro hnil
    rw [hnil] at he
    exact he rfl

theorem entityStays_fields_ne_nil {A : String → Option String} {eName : String}
    {fs : List CField} : ∀ f' ∈ entityStays A eName fs, f'.mappings ≠ [] := by
  intro f' hf'
  obtain ⟨f, _, hsome⟩ := List.mem_filterMap.mp hf'
  exact (fieldStay_some hsome).2.1

theorem entityStays_rows_strong {A : String → Option String} {eName : String}
    {fs : List CField} {m : Mapping}
    (h : m ∈ ((entityStays A eName fs).map (fun f => f.mappings)).flatten) :
    ∃ f ∈ fs, ∃ p ∈ groupByKey Mapping.source_entity f.mappings, m ∈ p.2 ∧
      (A p.1 = none ∨ ∃ a, A p.1 = some a ∧ (a = "" ∨ a = eName)) := by
  obtain ⟨l, hl, hml⟩ := List.mem_flatten.mp h
  obtain ⟨f', hf', rfl⟩ := List.mem_map.mp hl
  obtain ⟨f, hf, hsome⟩ := List.mem_filterMap.mp hf'
  obtain ⟨hmap, _, _⟩ := fieldStay_some hsome
  rw [hmap] at hml
  obtain ⟨p, hp, hmp, hcond⟩ := stayFlat_mem_strong hml
  exact ⟨f, hf, p, hp, hmp, hcond⟩

theorem entityStays_rows_sub {A : String → Option String} {eName : String}
    {fs : List CField} {m : Mapping}
    (h : m ∈ ((entityStays A eName fs).map (fun f => f.mappings)).flatten) :
    m ∈ (fs.map (fun f => f.mappings)).flatten := by
  obtain ⟨f, hf, p, hp, hmp, _⟩ := entityStays_rows_strong h
  have hb := groupByKey_bucket_eq hp
  rw [hb] at hmp
  exact List.mem_flatten.mpr ⟨f.mappings, List.mem_map.mpr ⟨f, hf, rfl⟩,
    (List.mem_filter.mp hmp).1⟩

/-! ### `groupByKey` flattens back to a permutation of its input -/

theorem addToGroup_flatten_perm {q a : Type} [DecidableEq q]
    (acc : List (q × List a)) (k : q) (x : a) :
    ((addToGroup acc k x).map Prod.snd).flatten.Perm
      ((acc.map Prod.snd).flatten ++ [x]) := by
  induction acc with
  | nil => simp [addToGroup]
  | cons p t ih =>
    obtain ⟨b, l⟩ := p
    rw [addToGroup]
    by_cases hb : b = k
    · rw [if_pos hb]
      simp only [List.map_cons, List.flatten_cons]
      rw [List.append_assoc, List.append_assoc]
      exact List.Perm.append_left l List.perm_append_comm
    · rw [if_neg hb]
      simp only [List.map_cons, List.flatten_cons]
      rw [List.append_assoc]
      exact List.Perm.append_left l ih

theorem foldl_groupByKey_perm {q a : Type} [DecidableEq q] (key : a → q) :
    ∀ (xs : List a) (acc : List (q × List a)),
    ((xs.foldl (fun a2 x => addToGroup a2 (key x) x) acc).map Prod.snd).flatten.Perm
      ((acc.map Prod.snd).flatten ++ xs) := by
  intro xs
  induction xs with
  | nil => intro acc; simp
  | cons x t ih =>
    intro acc
    rw [List.foldl_cons]
    refine List.Perm.trans (ih (addToGroup acc (key x) x)) ?_
    refine List.Perm.trans ((addToGroup_flatten_perm acc (key x) x).append_right t) ?_
    rw [List.append_assoc]
    exact List.Perm.refl _

theorem groupByKey_flatten_perm {q a : Type} [DecidableEq q] (key : a → q) (xs : List a) :
    (((groupByKey key xs).map Prod.snd).flatten).Perm xs := by
  have := foldl_groupByKey_perm key xs []
  simpa [groupByKey] using this

theorem countP_flatten_groupByKey {q a : Type} [DecidableEq q] (key : a → q)
    (p : a → Bool) (xs : List a) :
    (((groupByKey key xs).map Prod.snd).flatten).countP p = xs.countP p :=
  (groupByKey_flatten_perm key xs).countP_eq p

/-! ### Partition of a field's rows into staying and moved parts -/

theorem countP_stay_move (A : String → Option String) (eName fname : String)
    (tmpl : CField) (p : Mapping → Bool) :
    ∀ groups : List (String × List Mapping),
    (stayFlat A eName groups).countP p +
      (((moveOps A eName fname tmpl groups).map MoveOp.ms).flatten).countP p =
      ((groups.map Prod.snd).flatten).countP p := by
  intro groups
  induction groups with
  | nil => simp [stayFlat, moveOps]
  | cons g rest ih =>
    obtain ⟨src, ms⟩ := g
    simp only [List.map_cons, List.flatten_cons, List.countP_append]
    cases hA : A src with
    | none =>
      rw [stayFlat_cons_none hA, moveOps_cons_none hA, List.countP_append]
      omega
    | some a =>
      rw [stayFlat_cons_some hA, moveOps_cons_some hA]
      by_cases hc : a = "" ∨ a = eName
      · rw [if_pos hc, if_pos hc, List.countP_append]
        omega
      · rw [if_neg hc, if_neg hc]
        simp only [List.map_cons, List.flatten_cons, List.countP_append]
        omega

theorem countP_entity_partition (A : String → Option String) (eName : String)
    (p : Mapping → Bool) :
    ∀ fs : List CField,
    (((entityStays A eName fs).map (fun f => f.mappings)).flatten).countP p +
      (((entityMoveOps A eName fs).map MoveOp.ms).flatten).countP p =
      ((fs.map (fun f => f.mappings)).flatten).countP p := by
  intro fs
  induction fs with
  | nil => simp [entityStays, entityMoveOps]
  | cons f rest ih =>
    rw [entityStays_cons, entityMoveOps_cons]
    simp only [List.map_cons, List.flatten_cons, List.countP_append, List.map_append,
      List.flatten_append]
    have hfield := countP_stay_move A eName f.name f p
      (groupByKey Mapping.source_entity f.mappings)
    rw [countP_flatten_groupByKey] at hfield
    cases hfs : fieldStay A eName f with
    | none =>
      have h2 := hfs
      simp only [fieldStay] at h2
      have hsnil : stayFlat A eName (groupByKey Mapping.source_entity f.mappings) = [] := by
        by_cases hz2 : (stayFlat A eName
            (groupByKey Mapping.source_entity f.mappings)).isEmpty
        · exact List.isEmpty_iff.mp hz2
        · rw [if_neg hz2] at h2
          exact absurd h2 (by simp)
      rw [hsnil] at hfield
      simp only [List.countP_nil] at hfield
      simp only [fieldMoveOps]
      omega
    | some nf =>
      obtain ⟨hmap, _, _⟩ := fieldStay_some hfs
      simp only [List.map_cons, List.flatten_cons, List.countP_append, fieldMoveOps]
      rw [hmap]
      omega

theorem totalSrc_modifyEnt_exch {s : String} (g : CEntity → CEntity) :
    ∀ (es : List CEntity) (j : Nat) (ej : CEntity), es.get? j = some ej →
    totalSrc s (modifyEnt es j g) + countSrc s ej =
      totalSrc s es + countSrc s (g ej) := by
  intro es
  induction es with
  | nil => intro j ej hj; simp at hj
  | cons e rest ih =>
    intro j ej hj
    cases j with
    | zero =>
      simp only [List.get?_cons_zero, Option.some.injEq] at hj
      subst hj
      rw [modifyEnt, totalSrc_cons, totalSrc_cons]
      omega
    | succ j2 =>
      simp only [List.get?_cons_succ] at hj
      rw [modifyEnt, totalSrc_cons, totalSrc_cons]
      have := ih j2 ej hj
      omega

/-- One pass-1 entity iteration preserves the bookkeeping: `ent_by_name`,
length and names are untouched, rows only move, `""`-anchored sources keep
their per-entity counts, anchored sources keep their totals and are
concentrated (among processed entities) under their anchor's name, and
processed entities have no empty fields. -/
theorem processEntity_P1 {es : List CEntity} {n : Nat} {st : AnchorSt}
    (hebn : st.ebn = init_ebn es)
    (hlen : st.ents.length = es.length)
    (hname : ∀ i, (st.ents.get? i).map CEntity.name = (es.get? i).map CEntity.name)
    (hrows : ∀ m ∈ allRows st.ents, m ∈ allRows es)
    (hcnt0 : ∀ s, src_anchor es s = some "" → ∀ i,
      (st.ents.get? i).map (countSrc s) = (es.get? i).map (countSrc s))
    (htot : ∀ s a, src_anchor es s = some a → a ≠ "" →
      totalSrc s st.ents = totalSrc s es)
    (hconc : ∀ s a, src_anchor es s = some a → a ≠ "" → ∀ i e1, i < n →
      st.ents.get? i = some e1 → 0 < countSrc s e1 → pyStrip e1.name = a)
    (hfne : ∀ i e1, i < n → st.ents.get? i = some e1 →
      ∀ f ∈ e1.fields, f.mappings ≠ []) :
    (processEntity (src_anchor es) st n).ebn = init_ebn es ∧
    (processEntity (src_anchor es) st n).ents.length = es.length ∧
    (∀ i, ((processEntity (src_anchor es) st n).ents.get? i).map CEntity.name =
      (es.get? i).map CEntity.name) ∧
    (∀ m ∈ allRows (processEntity (src_anchor es) st n).ents, m ∈ allRows es) ∧
    (∀ s, src_anchor es s = some "" → ∀ i,
      ((processEntity (src_anchor es) st n).ents.get? i).map (countSrc s) =
        (es.get? i).map (countSrc s)) ∧
    (∀ s a, src_anchor es s = some a → a ≠ "" →
      totalSrc s (processEntity (src_anchor es) st n).ents = totalSrc s es) ∧
    (∀ s a, src_anchor es s = some a → a ≠ "" → ∀ i e1, i < n + 1 →
      (processEntity (src_anchor es) st n).ents.get? i = some e1 →
      0 < countSrc s e1 → pyStrip e1.name = a) ∧
    (∀ i e1, i < n + 1 → (processEntity (src_anchor es) st n).ents.get? i = some e1 →
      ∀ f ∈ e1.fields, f.mappings ≠ []) := by
  cases hk : st.ents.get? n with
  | none =>
    rw [processEntity_none hk]
    refine ⟨hebn, hlen, hname, hrows, hcnt0, htot, ?_, ?_⟩
    · intro s a hsa hane i e1 hi h1 hpos
      have hin : i ≠ n := by
        intro he
        rw [he, hk] at h1
        exact absurd h1 (by simp)
      exact hconc s a hsa hane i e1 (by omega) h1 hpos
    · intro i e1 hi h1
      have hin : i ≠ n := by
        intro he
        rw [he, hk] at h1
        exact absurd h1 (by simp)
      exact hfne i e1 (by omega) h1
  | some e =>
    have hopsP : ∀ op ∈ entityMoveOps (src_anchor es) (pyStrip e.name) e.fields,
        ∃ s_op, src_anchor es s_op = some op.a ∧ op.a ≠ "" ∧
          (∀ m ∈ op.ms, m.source_entity = s_op) ∧ op.ms ≠ [] ∧
          (∀ m ∈ op.ms, m ∈ allRows es) := by
      intro op hop
      rw [entityMoveOps] at hop
      obtain ⟨l, hl, hopl⟩ := List.mem_flatten.mp hop
      obtain ⟨f, hf, rfl⟩ := List.mem_map.mp hl
      obtain ⟨p, hp, hAp, hnc, _, _, hms⟩ := moveOps_mem hopl
      refine ⟨p.1, hAp, fun h0 => hnc (Or.inl h0), ?_, ?_, ?_⟩
      · intro m hm
        rw [hms] at hm
        exact groupByKey_rows_match p hp m hm
      · rw [hms]
        exact groupByKey_bucket_ne_nil (k := p.1) (l := p.2) hp
      · intro m hm
        rw [hms] at hm
        have hmf : m ∈ f.mappings := by
          have hb := groupByKey_bucket_eq hp
          rw [hb] at hm
          exact (List.mem_filter.mp hm).1
        apply hrows
        have he2 : e ∈ st.ents := List.get?_mem hk
        apply List.mem_flatten.mpr
        refine ⟨rowsOfEnt e, List.mem_map.mpr ⟨e, he2, rfl⟩, ?_⟩
        exact List.mem_flatten.mpr ⟨f.mappings, List.mem_map.mpr ⟨f, hf, rfl⟩, hmf⟩
    obtain ⟨m1, m2, m3, m4, m5, m6, m7, m8⟩ :=
      applyMoves_P1 (entityMoveOps (src_anchor es) (pyStrip e.name) e.fields) st
        hebn hlen hname hopsP
    have hstEBN : EBNInv st := by
      intro x j h
      rw [hebn] at h
      obtain ⟨e2, he2, hn2⟩ := init_ebn_inv es x j h
      have he2b : es.get? j = some e2 := he2
      have hj2 := hname j
      rw [he2b] at hj2
      cases hx : st.ents.get? j with
      | none => rw [hx] at hj2; simp at hj2
      | some e3 =>
        rw [hx] at hj2
        simp only [Option.map_some'] at hj2
        refine ⟨e3, rfl, ?_⟩
        have h3 : e3.name = e2.name := by injection hj2
        rw [h3]
        exact hn2
    have hop2 : ∀ op ∈ entityMoveOps (src_anchor es) (pyStrip e.name) e.fields,
        pyStrip op.a = op.a ∧ op.a ≠ pyStrip e.name := by
      intro op hop
      rw [entityMoveOps] at hop
      obtain ⟨l, hl, hopl⟩ := List.mem_flatten.mp hop
      obtain ⟨f, hf, rfl⟩ := List.mem_map.mp hl
      obtain ⟨p, hp, hAp, hnc, _, _, _⟩ := moveOps_mem hopl
      exact ⟨src_anchor_stripped hAp, fun h0 => hnc (Or.inr h0)⟩
    obtain ⟨_, hk1, _, _⟩ := applyMoves_props
      (entityMoveOps (src_anchor es) (pyStrip e.name) e.fields) st hstEBN hk hop2
    have hopsZero : ∀ s, src_anchor es s = some "" →
        (((entityMoveOps (src_anchor es) (pyStrip e.name) e.fields).map
          MoveOp.ms).flatten).countP (fun m => m.source_entity = s) = 0 := by
      intro s hs0
      apply List.countP_eq_zero.mpr
      intro m hm hc
      simp only [decide_eq_true_eq] at hc
      obtain ⟨l, hl, hml⟩ := List.mem_flatten.mp hm
      obtain ⟨op, hop, rfl⟩ := List.mem_map.mp hl
      obtain ⟨s_op, hAs, hanot, hsrc, _, _⟩ := hopsP op hop
      have : s_op = s := by rw [← hc, hsrc m hml]
      rw [this] at hAs
      rw [hAs] at hs0
      exact hanot (by injection hs0)
    refine ⟨?_, ?_, ?_, ?_, ?_, ?_, ?_, ?_⟩
    · rw [processEntity_some_ebn hk]
      exact m1
    · rw [processEntity_some_ents hk, modifyEnt_length]
      exact m2
    · intro i
      rw [processEntity_some_ents hk, modifyEnt_get?]
      by_cases hin : i = n
      · rw [if_pos hin, ← m3 i]
        cases hx : (applyMoves st
          (entityMoveOps (src_anchor es) (pyStrip e.name) e.fields)).ents.get? i <;> rfl
      · rw [if_neg hin]
        exact m3 i
    · intro m hm
      rw [processEntity_some_ents hk] at hm
      have hg : ∀ e2 : CEntity, ∀ m2 ∈ rowsOfEnt { e2 with
          fields := entityStays (src_anchor es) (pyStrip e.name) e.fields },
          m2 ∈ rowsOfEnt e2 ∨ m2 ∈ ((entityStays (src_anchor es) (pyStrip e.name)
            e.fields).map (fun f => f.mappings)).flatten := by
        intro e2 m2 hm2
        exact Or.inr hm2
      rcases mem_allRows_modifyEnt hg _ n hm with h2 | h2
      · rcases m4 m h2 with h3 | h3
        · exact hrows m h3
        · obtain ⟨l, hl, hml⟩ := List.mem_flatten.mp h3
          obtain ⟨op, hop, rfl⟩ := List.mem_map.mp hl
          exact (hopsP op hop).choose_spec.2.2.2.2 m hml
      · have h3 := entityStays_rows_sub h2
        apply hrows
        have he2 : e ∈ st.ents := List.get?_mem hk
        apply List.mem_flatten.mpr
        exact ⟨rowsOfEnt e, List.mem_map.mpr ⟨e, he2, rfl⟩, h3⟩
    · intro s hs0 i
      rw [processEntity_some_ents hk, modifyEnt_get?]
      by_cases hin : i = n
      · rw [if_pos hin, hin, hk1]
        have hcs : countSrc s { e with
            fields := entityStays (src_anchor es) (pyStrip e.name) e.fields } =
            countSrc s e := by
          have hpart := countP_entity_partition (src_anchor es) (pyStrip e.name)
            (fun m => m.source_entity = s) e.fields
          have hz := hopsZero s hs0
          show (((entityStays (src_anchor es) (pyStrip e.name) e.fields).map
            (fun f => f.mappings)).flatten).countP (fun m => m.source_entity = s) =
            ((e.fields.map (fun f => f.mappings)).flatten).countP
              (fun m => m.source_entity = s)
          omega
        have hrhs := hcnt0 s hs0 n
        rw [hk] at hrhs
        simp only [Option.map_some'] at hrhs ⊢
        rw [hcs]
        exact hrhs
      · rw [if_neg hin]
        exact (m6 s hs0 i).trans (hcnt0 s hs0 i)
    · intro s a hsa hane
      rw [processEntity_some_ents hk]
      have hexch := totalSrc_modifyEnt_exch (s := s)
        (fun e2 => { e2 with
          fields := entityStays (src_anchor es) (pyStrip e.name) e.fields })
        _ n e hk1
      have h5 := m5 s
      have hpart := countP_entity_partition (src_anchor es) (pyStrip e.name)
        (fun m => m.source_entity = s) e.fields
      have htot0 := htot s a hsa hane
      have hsc : countSrc s ((fun e2 => { e2 with
          fields := entityStays (src_anchor es) (pyStrip e.name) e.fields }) e) =
          (((entityStays (src_anchor es) (pyStrip e.name) e.fields).map
            (fun f => f.mappings)).flatten).countP (fun m => m.source_entity = s) := rfl
      have hce : countSrc s e = ((e.fields.map (fun f => f.mappings)).flatten).countP
          (fun m => m.source_entity = s) := rfl
      omega
    · intro s a hsa hane i e1 hi h1
      rw [processEntity_some_ents hk, modifyEnt_get?] at h1
      by_cases hin : i = n
      · rw [if_pos hin, hin, hk1] at h1
        simp only [Option.map_some'] at h1
        have hse : { e with
            fields := entityStays (src_anchor es) (pyStrip e.name) e.fields } = e1 := by
          injection h1
        intro hpos
        rw [← hse] at hpos
        have hpos2 : 0 < (((entityStays (src_anchor es) (pyStrip e.name) e.fields).map
            (fun f => f.mappings)).flatten).countP (fun m => m.source_entity = s) := hpos
        obtain ⟨m, hm, hmc⟩ := List.countP_pos.mp hpos2
        simp only [decide_eq_true_eq] at hmc
        obtain ⟨f, hf, p, hp, hmp, hcond⟩ := entityStays_rows_strong hm
        have hps : p.1 = s := by
          rw [← groupByKey_rows_match p hp m hmp, hmc]
        rcases hcond with hnone | ⟨a2, ha2, hcond2⟩
        · rw [hps, hsa] at hnone
          exact absurd hnone (by simp)
        · rw [hps, hsa] at ha2
          have ha2a : a2 = a := by
            injection ha2 with h9
            exact h9.symm
          rcases hcond2 with h0 | h0
          · rw [ha2a] at h0
            exact absurd h0 hane
          · rw [← hse]
            show pyStrip e.name = a
            rw [← ha2a, ← h0]
      · rw [if_neg hin] at h1
        intro hpos
        rcases m7 s a hsa hane i e1 h1 hpos with h2 | h2
        · obtain ⟨e0, h0, hpos0⟩ := h2
          have hname10 : e1.name = e0.name := by
            have hc1 := m3 i
            have hc2 := hname i
            rw [h1] at hc1
            rw [h0] at hc2
            simp only [Option.map_some'] at hc1 hc2
            rw [← hc2] at hc1
            injection hc1
          rw [hname10]
          exact hconc s a hsa hane i e0 (by omega) h0 hpos0
        · exact h2
    · intro i e1 hi h1
      rw [processEntity_some_ents hk, modifyEnt_get?] at h1
      by_cases hin : i = n
      · rw [if_pos hin, hin, hk1] at h1
        simp only [Option.map_some'] at h1
        have hse : { e with
            fields := entityStays (src_anchor es) (pyStrip e.name) e.fields } = e1 := by
          injection h1
        rw [← hse]
        show ∀ f ∈ entityStays (src_anchor es) (pyStrip e.name) e.fields,
          f.mappings ≠ []
        exact entityStays_fields_ne_nil
      · rw [if_neg hin] at h1
        have hi2 : i < n := by omega
        cases hx : st.ents.get? i with
        | none =>
          have hlt : i < es.length := by
            rw [← m2]
            exact get?_lt_of_some h1
          rw [List.get?_eq_none] at hx
          rw [hlen] at hx
          omega
        | some e0 =>
          exact m8 i e1 e0 h1 hx (hfne i e0 hi2 hx)

theorem pass1_fold (es : List CEntity) : ∀ n : Nat,
    ((List.range n).foldl (processEntity (src_anchor es)) ⟨es, init_ebn es⟩).ebn =
      init_ebn es ∧
    ((List.range n).foldl (processEntity (src_anchor es))
      ⟨es, init_ebn es⟩).ents.length = es.length ∧
    (∀ i, (((List.range n).foldl (processEntity (src_anchor es))
      ⟨es, init_ebn es⟩).ents.get? i).map CEntity.name = (es.get? i).map CEntity.name) ∧
    (∀ m ∈ allRows ((List.range n).foldl (processEntity (src_anchor es))
      ⟨es, init_ebn es⟩).ents, m ∈ allRows es) ∧
    (∀ s, src_anchor es s = some "" → ∀ i,
      (((List.range n).foldl (processEntity (src_anchor es))
        ⟨es, init_ebn es⟩).ents.get? i).map (countSrc s) =
          (es.get? i).map (countSrc s)) ∧
    (∀ s a, src_anchor es s = some a → a ≠ "" →
      totalSrc s ((List.range n).foldl (processEntity (src_anchor es))
        ⟨es, init_ebn es⟩).ents = totalSrc s es) ∧
    (∀ s a, src_anchor es s = some a → a ≠ "" → ∀ i e1, i < n →
      ((List.range n).foldl (processEntity (src_anchor es))
        ⟨es, init_ebn es⟩).ents.get? i = some e1 →
      0 < countSrc s e1 → pyStrip e1.name = a) ∧
    (∀ i e1, i < n → ((List.range n).foldl (processEntity (src_anchor es))
      ⟨es, init_ebn es⟩).ents.get? i = some e1 → ∀ f ∈ e1.fields, f.mappings ≠ []) := by
  intro n
  induction n with
  | zero =>
    refine ⟨rfl, rfl, fun i => rfl, fun m hm => hm, fun s _ i => rfl,
      fun s a _ _ => rfl, ?_, ?_⟩
    · intro s a _ _ i e1 hi
      omega
    · intro i e1 hi
      omega
  | succ n2 ih =>
    obtain ⟨h1, h2, h3, h4, h5, h6, h7, h8⟩ := ih
    rw [List.range_succ, List.foldl_append]
    simp only [List.foldl_cons, List.foldl_nil]
    exact processEntity_P1 h1 h2 h3 h4 h5 h6 h7 h8

theorem flatten_map_filter_nil {α β : Type} (p : α → Bool) (ch : α → List β) :
    ∀ l : List α, (∀ x ∈ l, p x = false → ch x = []) →
    ((l.filter p).map ch).flatten = (l.map ch).flatten := by
  intro l
  induction l with
  | nil => intro _; rfl
  | cons x t ih =>
    intro h
    rw [List.filter_cons]
    by_cases hp : p x
    · rw [if_pos hp]
      simp only [List.map_cons, List.flatten_cons]
      rw [ih (fun y hy => h y (List.mem_cons_of_mem _ hy))]
    · rw [if_neg hp]
      simp only [List.map_cons, List.flatten_cons]
      rw [h x (List.mem_cons_self _ _) (Bool.eq_false_iff.mpr hp),
        ih (fun y hy => h y (List.mem_cons_of_mem _ hy))]
      rfl

theorem chunks_eq_of {es1 es : List CEntity} (s : String)
    (hn : ∀ i, (es1.get? i).map CEntity.name = (es.get? i).map CEntity.name)
    (hc : ∀ i, (es1.get? i).map (countSrc s) = (es.get? i).map (countSrc s)) :
    namesFor s es1 = namesFor s es := by
  rw [namesFor_chunks, namesFor_chunks]
  apply congrArg List.flatten
  apply List.ext_get?
  intro i
  rw [List.get?_map, List.get?_map]
  have h1 := hn i
  have h2 := hc i
  cases hx : es1.get? i with
  | none =>
    cases hy : es.get? i with
    | none => rfl
    | some e2 => rw [hx, hy] at h1; simp at h1
  | some e1 =>
    cases hy : es.get? i with
    | none => rw [hx, hy] at h1; simp at h1
    | some e2 =>
      rw [hx, hy] at h1 h2
      simp only [Option.map_some'] at h1 h2 ⊢
      have hn2 : e1.name = e2.name := by injection h1
      have hc2 : countSrc s e1 = countSrc s e2 := by injection h2
      rw [hn2, hc2]

theorem mem_namesFor {s x : String} {es2 : List CEntity}
    (h : x ∈ namesFor s es2) :
    ∃ e ∈ es2, 0 < countSrc s e ∧ x = pyStrip e.name := by
  rw [namesFor_chunks] at h
  obtain ⟨l, hl, hxl⟩ := List.mem_flatten.mp h
  obtain ⟨e, he, rfl⟩ := List.mem_map.mp hl
  obtain ⟨hc, hx⟩ := List.mem_replicate.mp hxl
  exact ⟨e, he, by omega, hx⟩

theorem countSrc_of_empty_fields {s : String} {e : CEntity} (h : e.fields = []) :
    countSrc s e = 0 := by
  unfold countSrc rowsOfEnt
  rw [h]
  rfl

/-- Pass-1 summary: the anchoring pass only moves rows; sources anchored to
`""` keep their exact `src_counts` data, other sources end up entirely under
their anchor's name with unchanged totals, and the surviving entities have
nonempty fields with nonempty mappings. -/
theorem pass1_summary (es : List CEntity) :
    (∀ m ∈ allRows (anchorEntities es), m ∈ allRows es) ∧
    (∀ s, src_anchor es s = some "" →
      namesFor s (anchorEntities es) = namesFor s es) ∧
    (∀ s a, src_anchor es s = some a → a ≠ "" →
      (∀ x ∈ namesFor s (anchorEntities es), x = a) ∧
      totalSrc s (anchorEntities es) = totalSrc s es) ∧
    (∀ e ∈ anchorEntities es, e.fields ≠ [] ∧ ∀ f ∈ e.fields, f.mappings ≠ []) := by
  by_cases hne : es.isEmpty
  · have hnil : es = [] := by
      cases es with
      | nil => rfl
      | cons x t => simp at hne
    subst hnil
    refine ⟨?_, ?_, ?_, ?_⟩
    · intro m hm; exact hm
    · intro s _; rfl
    · intro s a hsa hane
      rw [src_anchor, lookupG_src_counts] at hsa
      have : namesFor s ([] : List CEntity) = [] := rfl
      rw [this] at hsa
      exact absurd hsa (by simp)
    · intro e he
      simp [anchorEntities] at he
  · have hstep : anchorEntities es =
        (((List.range es.length).foldl (processEntity (src_anchor es))
          ⟨es, init_ebn es⟩).ents.filter (fun e => !e.fields.isEmpty)) := by
      rw [anchorEntities, if_neg hne]
    obtain ⟨h1, h2, h3, h4, h5, h6, h7, h8⟩ := pass1_fold es es.length
    have hdropped : ∀ s, ∀ e2 ∈ ((List.range es.length).foldl
        (processEntity (src_anchor es)) ⟨es, init_ebn es⟩).ents,
        (!e2.fields.isEmpty) = false → countSrc s e2 = 0 := by
      intro s e2 _ hfalse
      apply countSrc_of_empty_fields
      cases hf : e2.fields with
      | nil => rfl
      | cons f t => rw [hf] at hfalse; simp at hfalse
    have hnf : ∀ s, namesFor s (anchorEntities es) = namesFor s
        ((List.range es.length).foldl (processEntity (src_anchor es))
          ⟨es, init_ebn es⟩).ents := by
      intro s
      rw [hstep]
      refine (namesFor_chunks s _).trans (Eq.trans ?_ (namesFor_chunks s _).symm)
      exact flatten_map_filter_nil _ _ _ (fun e2 he2 hfalse => by
        rw [hdropped s e2 he2 hfalse]
        rfl)
    refine ⟨?_, ?_, ?_, ?_⟩
    · intro m hm
      rw [hstep] at hm
      obtain ⟨l, hl, hml⟩ := List.mem_flatten.mp hm
      obtain ⟨e2, he2, rfl⟩ := List.mem_map.mp hl
      apply h4
      exact List.mem_flatten.mpr ⟨rowsOfEnt e2,
        List.mem_map.mpr ⟨e2, List.mem_of_mem_filter he2, rfl⟩, hml⟩
    · intro s hs0
      rw [hnf s]
      exact chunks_eq_of s h3 (h5 s hs0)
    · intro s a hsa hane
      constructor
      · intro x hx
        rw [hnf s] at hx
        obtain ⟨e2, he2, hpos, rfl⟩ := mem_namesFor hx
        obtain ⟨i, hi⟩ := List.mem_iff_get.mp he2
        have hget : ((List.range es.length).foldl (processEntity (src_anchor es))
            ⟨es, init_ebn es⟩).ents.get? i.1 = some e2 := by
          rw [List.get?_eq_get i.2, hi]
        have hilt : i.1 < es.length := lt_of_lt_of_eq i.2 h2
        exact h7 s a hsa hane i.1 e2 hilt hget hpos
      · have hlen1 : (namesFor s (anchorEntities es)).length =
            (namesFor s ((List.range es.length).foldl (processEntity (src_anchor es))
              ⟨es, init_ebn es⟩).ents).length := by rw [hnf s]
        rw [namesFor_length, namesFor_length] at hlen1
        rw [hlen1]
        exact h6 s a hsa hane
    · intro e2 he2
      rw [hstep] at he2
      have hmem := List.mem_of_mem_filter he2
      have hprop := List.of_mem_filter he2
      obtain ⟨i, hi⟩ := List.mem_iff_get.mp hmem
      have hget : ((List.range es.length).foldl (processEntity (src_anchor es))
          ⟨es, init_ebn es⟩).ents.get? i.1 = some e2 := by
        rw [List.get?_eq_get i.2, hi]
      have hilt : i.1 < es.length := lt_of_lt_of_eq i.2 h2
      refine ⟨?_, h8 i.1 e2 hilt hget⟩
      intro hf
      rw [hf] at hprop
      simp at hprop

/-! ### The second pass only regroups -/

theorem stay_all {A : String → Option String} {eName fname : String} {tmpl : CField} :
    ∀ groups : List (String × List Mapping),
    (∀ p ∈ groups, ∃ a, A p.1 = some a ∧ (a = "" ∨ a = eName)) →
    stayFlat A eName groups = (groups.map Prod.snd).flatten ∧
    moveOps A eName fname tmpl groups = [] := by
  intro groups
  induction groups with
  | nil => intro _; exact ⟨rfl, rfl⟩
  | cons g rest ih =>
    intro h
    obtain ⟨src, ms⟩ := g
    obtain ⟨a, hA, hcond⟩ := h (src, ms) (List.mem_cons_self _ _)
    obtain ⟨ih1, ih2⟩ := ih (fun p hp => h p (List.mem_cons_of_mem _ hp))
    rw [stayFlat_cons_some hA, moveOps_cons_some hA, if_pos hcond, if_pos hcond,
      ih1, ih2]
    exact ⟨rfl, rfl⟩

theorem fieldStay_all_stay {A : String → Option String} {eName : String} {f : CField}
    (h : ∀ p ∈ groupByKey Mapping.source_entity f.mappings,
      ∃ a, A p.1 = some a ∧ (a = "" ∨ a = eName))
    (hfne : f.mappings ≠ []) :
    fieldStay A eName f = some (regroupField f) ∧ fieldMoveOps A eName f = [] := by
  obtain ⟨hs, hm⟩ := @stay_all A eName f.name f
    (groupByKey Mapping.source_entity f.mappings) h
  constructor
  · have hsne : (((groupByKey Mapping.source_entity f.mappings).map
        Prod.snd).flatten) ≠ [] := by
      intro hnil
      apply hfne
      have hperm := groupByKey_flatten_perm Mapping.source_entity f.mappings
      rw [hnil] at hperm
      exact (List.Perm.nil_eq hperm).symm
    simp only [fieldStay]
    rw [hs]
    rw [if_neg (by simpa using hsne)]
    rfl
  · exact hm

theorem entity_all_stay {A : String → Option String} {eName : String} :
    ∀ fs : List CField,
    (∀ f ∈ fs, fieldStay A eName f = some (regroupField f) ∧
      fieldMoveOps A eName f = []) →
    entityStays A eName fs = fs.map regroupField ∧ entityMoveOps A eName fs = [] := by
  intro fs
  induction fs with
  | nil => intro _; exact ⟨rfl, rfl⟩
  | cons f rest ih =>
    intro h
    obtain ⟨h1, h2⟩ := h f (List.mem_cons_self _ _)
    obtain ⟨ih1, ih2⟩ := ih (fun f2 hf2 => h f2 (List.mem_cons_of_mem _ hf2))
    constructor
    · rw [entityStays_cons, h1, ih1]
      rfl
    · rw [entityMoveOps_cons, h2, ih2]
      rfl

theorem modifyEnt_append (g : CEntity → CEntity) :
    ∀ (xs : List CEntity) (y : CEntity) (zs : List CEntity),
    modifyEnt (xs ++ y :: zs) xs.length g = xs ++ g y :: zs := by
  intro xs
  induction xs with
  | nil => intro y zs; rfl
  | cons x t ih =>
    intro y zs
    rw [List.cons_append, List.length_cons, modifyEnt, ih]
    rfl

theorem anchorSt_ext {a b : AnchorSt} (h1 : a.ents = b.ents) (h2 : a.ebn = b.ebn) :
    a = b := by
  cases a
  cases b
  cases h1
  cases h2
  rfl

theorem pass2_fold {es2 : List CEntity}
    (hstay : ∀ k e, es2.get? k = some e →
      entityMoveOps (src_anchor es2) (pyStrip e.name) e.fields = [] ∧
      entityStays (src_anchor es2) (pyStrip e.name) e.fields = e.fields.map regroupField) :
    ∀ n, n ≤ es2.length →
    (List.range n).foldl (processEntity (src_anchor es2)) ⟨es2, init_ebn es2⟩ =
      ⟨(es2.take n).map regroupEntity ++ es2.drop n, init_ebn es2⟩ := by
  intro n
  induction n with
  | zero => intro _; rfl
  | succ n2 ih =>
    intro hle
    have hlt : n2 < es2.length := by omega
    rw [List.range_succ, List.foldl_append]
    simp only [List.foldl_cons, List.foldl_nil]
    rw [ih (by omega)]
    have he : es2.get? n2 = some (es2.get ⟨n2, hlt⟩) := List.get?_eq_get hlt
    have hlen_take : ((es2.take n2).map regroupEntity).length = n2 := by
      rw [List.length_map, List.length_take]
      omega
    have hdrop : es2.drop n2 = es2.get ⟨n2, hlt⟩ :: es2.drop (n2 + 1) :=
      List.drop_eq_get_cons (l := es2) hlt
    have hgetst : (((es2.take n2).map regroupEntity ++ es2.drop n2) : List CEntity).get? n2 = some (es2.get ⟨n2, hlt⟩) := by
      have h0 : ((es2.take n2).map regroupEntity).length ≤ n2 := by rw [hlen_take]
      rw [List.get?_append_right h0, hlen_take, Nat.sub_self, List.get?_drop, Nat.add_zero]
      exact he
    obtain ⟨hops, hstays⟩ := hstay n2 (es2.get ⟨n2, hlt⟩) he
    have hents := @processEntity_some_ents (src_anchor es2) ⟨(es2.take n2).map regroupEntity ++ es2.drop n2, init_ebn es2⟩ n2 _ hgetst
    have hebn := @processEntity_some_ebn (src_anchor es2) ⟨(es2.take n2).map regroupEntity ++ es2.drop n2, init_ebn es2⟩ n2 _ hgetst
    rw [hops] at hents hebn
    apply anchorSt_ext
    · rw [hents, hstays]
      have hid : (applyMoves (⟨(es2.take n2).map regroupEntity ++ es2.drop n2, init_ebn es2⟩ : AnchorSt) []).ents = (es2.take n2).map regroupEntity ++ es2.drop n2 := rfl
      rw [hid, hdrop]
      have hmod := modifyEnt_append (fun e2 => { e2 with fields := (es2.get ⟨n2, hlt⟩).fields.map regroupField }) ((es2.take n2).map regroupEntity) (es2.get ⟨n2, hlt⟩) (es2.drop (n2 + 1))
      rw [hlen_take] at hmod
      rw [hmod]
      have htake : es2.take (n2 + 1) = es2.take n2 ++ [es2.get ⟨n2, hlt⟩] := by
        rw [List.take_succ, List.getElem?_eq_getElem hlt]
        rfl
      rw [htake, List.map_append, List.append_assoc]
      rfl
    · rw [hebn]
      rfl

/-- After one anchoring pass every source either kept its `src_counts` data
(`""`-anchored) or sits entirely under its anchor's name, so the second pass
moves nothing: it only regroups each surviving field's mappings by source
entity. -/
theorem anchoring_regroups (es : List CEntity) :
    anchorEntities (anchorEntities es) = (anchorEntities es).map regroupEntity := by
  obtain ⟨hF1, hF2, hF3, hF4⟩ := pass1_summary es
  by_cases h2e : (anchorEntities es).isEmpty
  · have hnil : anchorEntities es = [] := by
      cases hx : anchorEntities es with
      | nil => rfl
      | cons x t => rw [hx] at h2e; simp at h2e
    rw [hnil]
    rfl
  · have hstay : ∀ k e, (anchorEntities es).get? k = some e →
        entityMoveOps (src_anchor (anchorEntities es)) (pyStrip e.name) e.fields = [] ∧
        entityStays (src_anchor (anchorEntities es)) (pyStrip e.name) e.fields =
          e.fields.map regroupField := by
      intro k e hk
      have hemem : e ∈ anchorEntities es := List.get?_mem hk
      have hcond : ∀ f ∈ e.fields,
          ∀ p ∈ groupByKey Mapping.source_entity f.mappings,
          ∃ a2, src_anchor (anchorEntities es) p.1 = some a2 ∧
            (a2 = "" ∨ a2 = pyStrip e.name) := by
        intro f hf p hp
        obtain ⟨m, hm⟩ := List.exists_mem_of_ne_nil _
          (groupByKey_bucket_ne_nil (k := p.1) (l := p.2) hp)
        have hms : m.source_entity = p.1 := groupByKey_rows_match p hp m hm
        have hrowe : m ∈ rowsOfEnt e := by
          have hb := groupByKey_bucket_eq hp
          rw [hb] at hm
          apply List.mem_flatten.mpr
          exact ⟨f.mappings, List.mem_map.mpr ⟨f, hf, rfl⟩, (List.mem_filter.mp hm).1⟩
        have hrow2 : m ∈ allRows (anchorEntities es) :=
          List.mem_flatten.mpr ⟨rowsOfEnt e, List.mem_map.mpr ⟨e, hemem, rfl⟩, hrowe⟩
        have hocc2 : namesFor p.1 (anchorEntities es) ≠ [] :=
          namesFor_ne_nil_iff.mpr ⟨m, hrow2, hms⟩
        have hocc1 : namesFor p.1 es ≠ [] :=
          namesFor_ne_nil_iff.mpr ⟨m, hF1 m hrow2, hms⟩
        obtain ⟨a1, ha1⟩ := src_anchor_occurs hocc1
        by_cases ha1e : a1 = ""
        · rw [ha1e] at ha1
          refine ⟨"", ?_, Or.inl rfl⟩
          rw [src_anchor_of_namesFor_eq (hF2 p.1 ha1)]
          exact ha1
        · obtain ⟨hall, _⟩ := hF3 p.1 a1 ha1 ha1e
          refine ⟨a1, src_anchor_all_eq hocc2 hall, ?_⟩
          right
          have hcpos : 0 < countSrc p.1 e := by
            apply List.countP_pos.mpr
            exact ⟨m, hrowe, by simpa using hms⟩
          exact (hall (pyStrip e.name) (strip_mem_namesFor hemem hcpos)).symm
      have hfall : ∀ f ∈ e.fields,
          fieldStay (src_anchor (anchorEntities es)) (pyStrip e.name) f =
            some (regroupField f) ∧
          fieldMoveOps (src_anchor (anchorEntities es)) (pyStrip e.name) f = [] := by
        intro f hf
        exact fieldStay_all_stay (hcond f hf) ((hF4 e hemem).2 f hf)
      obtain ⟨h1, h2⟩ := entity_all_stay e.fields hfall
      exact ⟨h2, h1⟩
    have hfold := pass2_fold hstay (anchorEntities es).length (le_refl _)
    rw [List.take_length, List.drop_length, List.append_nil] at hfold
    show (if (anchorEntities es).isEmpty then anchorEntities es
      else ((List.range (anchorEntities es).length).foldl
        (processEntity (src_anchor (anchorEntities es)))
        ⟨anchorEntities es, init_ebn (anchorEntities es)⟩).ents.filter
          (fun e => !e.fields.isEmpty)) = (anchorEntities es).map regroupEntity
    rw [if_neg h2e, hfold]
    apply List.filter_eq_self.mpr
    intro e2 he2
    obtain ⟨e0, he0, rfl⟩ := List.mem_map.mp he2
    have hne0 := (hF4 e0 he0).1
    cases hx : e0.fields with
    | nil => exact absurd hx hne0
    | cons f t =>
      show (!(regroupEntity e0).fields.isEmpty) = true
      have hfe : (regroupEntity e0).fields = (f :: t).map regroupField := by
        show e0.fields.map regroupField = (f :: t).map regroupField
        rw [hx]
      rw [hfe]
      rfl

/-- C3 (amended).  The anchoring operation is deterministic, but not
idempotent as stated: re-running it on its own output does not change the
assignment of mappings to canonical fields or entities, yet it stably
regroups each field's mappings by source entity — for every canonical-graph
value `g`, `anchor (anchor g) = regroup (anchor g)`, where `regroup`
rewrites every field's mapping list into its `groupby`-by-source order.
Anchoring is idempotent exactly up to this per-field regrouping. -/
theorem anchoring_second_pass_regroups (g : CanonGraph) :
    anchor_and_split_cross_entity_fields (anchor_and_split_cross_entity_fields g) =
      regroupGraph (anchor_and_split_cross_entity_fields g) := by
  show ({ g with entities := anchorEntities (anchorEntities g.entities) } : CanonGraph) =
    { g with entities := (anchorEntities g.entities).map regroupEntity }
  rw [anchoring_regroups]

end Klaris
